import Mathlib

/-!
Verification of stock-stats: windowed threshold statistics (`main.go`)

A shallow embedding of the computational core of `main.go`:
`FindEndDate`, the result-building loop of `main`, `PercentChange`,
`PercentUpStat` and `PercentDownStat`.

Modelling conventions.

* Go `int` and `time.Duration` are `Int`; the one product that can leave the
  `int64` range (`time.Hour * 24 * time.Duration(daysOut)`) is wrapped modulo
  `2^64` explicitly.
* Go `float64` is the type `F64`: a rational number, the negative zero,
  `+Inf`, `-Inf` or `NaN`. Every arithmetic operation computes the exact
  rational result and rounds it to the nearest value with 53 significant bits,
  ties to even (`roundQ`), with gradual underflow below `2^-1022`, overflow to
  an infinity from `2^1024` on and the IEEE-754 rules for the sign of a zero
  and for the special values. The type also holds rationals that no `float64`
  represents; an operation never produces one, and a statement made for every
  value of the type holds for the `float64` values among them.
* A Go function that may terminate the process is given an outcome type with a
  constructor for the run-time failure.
* `time.Parse`, `Time.Add` and `Time.Unix` belong to the Go standard library;
  they are modelled below for the one layout the program uses.
-/

namespace StockStats

/-! ## float64 -/

/-- Rounding of a rational to the nearest integer, ties to the even one. -/
def rne (y : ℚ) : ℤ :=
  if y - ⌊y⌋ < 1 / 2 then ⌊y⌋
  else if 1 / 2 < y - ⌊y⌋ then ⌊y⌋ + 1
  else if ⌊y⌋ % 2 = 0 then ⌊y⌋ else ⌊y⌋ + 1

/-- The binary exponent under which `x` is represented: that of its binade,
and the least normal exponent `-1022` for the subnormal range. -/
def expo (x : ℚ) : ℤ := max (Int.log 2 |x|) (-1022)

/-- The spacing of the `float64` values around `x` (53 significant bits). -/
def ulp (x : ℚ) : ℚ := (2 : ℚ) ^ (expo x - 52)

/-- The multiple of `ulp x` nearest to `x`, ties to the even multiple. -/
def roundQ (x : ℚ) : ℚ := (rne (x / ulp x) : ℚ) * ulp x

/-- Values of a Go `float64`: the numbers (`fin 0` is `+0`), the negative
zero, the two infinities and `NaN`. -/
inductive F64 where
  | fin (q : ℚ)
  | nzero
  | pinf
  | ninf
  | nan
  deriving DecidableEq

namespace F64

/-- The value is `NaN`. -/
def isNaN : F64 → Bool
  | nan => true
  | _ => false

/-- The value is an infinity. -/
def isInf : F64 → Bool
  | pinf => true
  | ninf => true
  | _ => false

/-- The sign bit. -/
def signBit : F64 → Bool
  | fin q => decide (q < 0)
  | nzero => true
  | ninf => true
  | _ => false

/-- The rational value of a number (both zeros are `0`). -/
def toQ : F64 → ℚ
  | fin q => q
  | _ => 0

/-- The zero of the given sign bit. -/
def signedZero (s : Bool) : F64 := if s then nzero else fin 0

/-- The infinity of the given sign bit. -/
def signedInf (s : Bool) : F64 := if s then ninf else pinf

/-- The `float64` nearest to the rational `x`, ties to even: an infinity from
`2^1024` on, a zero with the sign of `x` when the result underflows. -/
def round (x : ℚ) : F64 :=
  if (2 : ℚ) ^ 1024 ≤ |roundQ x| then signedInf (decide (x < 0))
  else if roundQ x = 0 then signedZero (decide (x < 0))
  else fin (roundQ x)

/-- Conversion `float64(n)` of an integer: the nearest `float64` (a Go `int`
has 64 bits, so the conversion never overflows). -/
def ofInt (n : Int) : F64 := fin (roundQ n)

/-- Go `x - y` on `float64`. -/
def sub (x y : F64) : F64 :=
  if x.isNaN || y.isNaN then nan
  else if x.isInf then (if y.isInf && (x.signBit == y.signBit) then nan else x)
  else if y.isInf then signedInf (!y.signBit)
  else if x.toQ - y.toQ = 0 then signedZero (x.signBit && !y.signBit)
  else round (x.toQ - y.toQ)

/-- Go `x * y` on `float64`. -/
def mul (x y : F64) : F64 :=
  if x.isNaN || y.isNaN then nan
  else if x.isInf || y.isInf then
    (if (x.toQ = 0 && !x.isInf) || (y.toQ = 0 && !y.isInf) then nan
     else signedInf (xor x.signBit y.signBit))
  else if x.toQ * y.toQ = 0 then signedZero (xor x.signBit y.signBit)
  else round (x.toQ * y.toQ)

/-- Go `x / y` on `float64`; a zero divisor gives an infinity or `NaN`. -/
def div (x y : F64) : F64 :=
  if x.isNaN || y.isNaN then nan
  else if x.isInf then (if y.isInf then nan else signedInf (xor x.signBit y.signBit))
  else if y.isInf then signedZero (xor x.signBit y.signBit)
  else if y.toQ = 0 then
    (if x.toQ = 0 then nan else signedInf (xor x.signBit y.signBit))
  else if x.toQ = 0 then signedZero (xor x.signBit y.signBit)
  else round (x.toQ / y.toQ)

/-- Go `x < y` on `float64`; false as soon as one side is `NaN`, and the two
zeros are equal. -/
def lt : F64 → F64 → Bool
  | nan, _ => false
  | _, nan => false
  | pinf, _ => false
  | _, ninf => false
  | ninf, _ => true
  | _, pinf => true
  | x, y => decide (x.toQ < y.toQ)

/-- Go `x > y` on `float64`. -/
def gt (x y : F64) : Bool := lt y x

/-- The value is an ordinary number (neither an infinity nor `NaN`). -/
def isFinite : F64 → Bool
  | fin _ => true
  | nzero => true
  | _ => false

end F64

/-! ## The data model (`main.go` lines 18-33) -/

/-- The struct `Quote`. -/
structure Quote where
  Date : String
  Open : F64
  High : F64
  Low : F64
  Close : F64
  Volume : Int
  deriving DecidableEq

/-- The struct `Result`. -/
structure Result where
  Start : String
  End : String
  Open : F64
  Close : F64
  Difference : F64
  deriving DecidableEq

/-- The zero value `Quote{}`. -/
def Quote.zero : Quote :=
  { Date := "", Open := F64.fin 0, High := F64.fin 0, Low := F64.fin 0,
    Close := F64.fin 0, Volume := 0 }

/-! ## The part of Go's `time` package the program uses -/

/-- A `time.Time` in UTC without monotonic reading: seconds since the Unix
epoch and the nanoseconds within that second. -/
structure Time where
  sec : Int
  nsec : Int
  deriving DecidableEq

/-- The method `Time.Unix`. -/
def Time.Unix (t : Time) : Int := t.sec

/-- Reduction of an integer to the `int64` range, as Go arithmetic wraps. -/
def wrapInt64 (x : Int) : Int := (x + 2 ^ 63) % 2 ^ 64 - 2 ^ 63

/-- The constant `time.Hour`, in nanoseconds. -/
def Hour : Int := 3600000000000

/-- The method `Time.Add` for a duration `d` in nanoseconds: the quotient and
remainder by `1e9` truncate toward zero, then the nanoseconds are normalised.
(The saturation of `addSec` is out of reach for dates of four-digit years.) -/
def Time.Add (t : Time) (d : Int) : Time :=
  let dsec := Int.tdiv d 1000000000
  let nsec := t.nsec + Int.tmod d 1000000000
  if nsec ≥ 1000000000 then { sec := t.sec + (dsec + 1), nsec := nsec - 1000000000 }
  else if nsec < 0 then { sec := t.sec + (dsec - 1), nsec := nsec + 1000000000 }
  else { sec := t.sec + dsec, nsec := nsec }

/-- Leap years of the proleptic Gregorian calendar (`isLeap`). -/
def isLeap (year : Int) : Bool :=
  year % 4 = 0 && (year % 100 != 0 || year % 400 = 0)

/-- The table `daysBefore`: days of a non-leap year before each month. -/
def daysBefore : List Int :=
  [0, 31, 59, 90, 120, 151, 181, 212, 243, 273, 304, 334, 365]

/-- The function `daysIn`. -/
def daysIn (month : Nat) (year : Int) : Int :=
  if month = 2 && isLeap year then 29
  else daysBefore.getD month 0 - daysBefore.getD (month - 1) 0

/-- The year of the absolute epoch of the `time` package. -/
def absoluteZeroYear : Int := -292277022399

/-- The function `daysSinceEpoch`: days from the absolute epoch to January 1
of `year`. -/
def daysSinceEpoch (year : Int) : Int :=
  let y := year - absoluteZeroYear
  let n400 := y / 400
  let y1 := y - 400 * n400
  let d1 := 146097 * n400
  let n100 := y1 / 100
  let y2 := y1 - 100 * n100
  let d2 := d1 + 36524 * n100
  let n4 := y2 / 4
  let y3 := y2 - 4 * n4
  let d3 := d2 + 1461 * n4
  d3 + 365 * y3

/-- Unix seconds of `time.Date(year, month, day, 0, 0, 0, 0, time.UTC)`. -/
def unixDate (year : Int) (month : Nat) (day : Int) : Int :=
  let d := daysSinceEpoch year + daysBefore.getD (month - 1) 0
  let d := if isLeap year && month ≥ 3 then d + 1 else d
  let d := d + (day - 1)
  d * 86400 + (-9223371966579724800 + -62135596800)

/-- Value of an ASCII decimal digit. -/
def digitVal (c : Char) : Option Nat :=
  if 48 ≤ c.toNat ∧ c.toNat ≤ 57 then some (c.toNat - 48) else none

/-- The call `time.Parse("2006-01-02", s)`: four digits of year, two of month
and two of day separated by `-`, nothing after them, the month in `1..12` and
the day within the month; `none` stands for the returned error. -/
def timeParse (s : String) : Option Time :=
  match s.data with
  | [y1, y2, y3, y4, s1, m1, m2, s2, d1, d2] =>
    match digitVal y1, digitVal y2, digitVal y3, digitVal y4,
          digitVal m1, digitVal m2, digitVal d1, digitVal d2 with
    | some a, some b, some c, some d, some e, some f, some g, some h =>
      let year : Int := ((a * 1000 + b * 100 + c * 10 + d : Nat) : Int)
      let month : Nat := e * 10 + f
      let day : Int := ((g * 10 + h : Nat) : Int)
      if s1 = '-' ∧ s2 = '-' ∧ 1 ≤ month ∧ month ≤ 12 ∧ 1 ≤ day ∧ day ≤ daysIn month year then
        some { sec := unixDate year month day, nsec := 0 }
      else none
    | _, _, _, _, _, _, _, _ => none
  | _ => none

/-! ## `FindEndDate` (`main.go` lines 190-229) -/

/-- Why a run stopped with a Go run-time failure. -/
inductive Failure where
  | parseError
  | indexOutOfRange
  deriving DecidableEq

/-- What a call of `FindEndDate` does: it returns the pair `(Quote, error)`,
or the process stops, or (in the model only) the loop is cut off. -/
inductive Outcome where
  | ret (q : Quote) (err : Option String)
  | panicked (why : Failure)
  | outOfFuel
  deriving DecidableEq

/-- The slice access `quotes[i]` for a Go `int` index. -/
def index? (quotes : List Quote) (i : Int) : Option Quote :=
  if i < 0 then none else quotes[i.toNat]?

/-- The duration `time.Hour * 24 * time.Duration(daysOut)` in nanoseconds. -/
def outDuration (daysOut : Int) : Int :=
  wrapInt64 (Hour * 24 * wrapInt64 daysOut)

/-- The `for` loop of `FindEndDate`, at most `fuel` iterations from `index`. -/
def findLoop (quotes : List Quote) (outDate : Time) : Nat → Int → Outcome
  | 0, _ => Outcome.outOfFuel
  | fuel + 1, index =>
    if index + 1 > quotes.length then
      Outcome.ret Quote.zero (some "Hit end of index")
    else
      match index? quotes index with
      | none => Outcome.panicked Failure.indexOutOfRange
      | some q =>
        match timeParse q.Date with
        | none => Outcome.panicked Failure.parseError
        | some futNow =>
          if futNow.Unix > outDate.Unix then
            match index? quotes (index - 1) with
            | none => Outcome.panicked Failure.indexOutOfRange
            | some p => Outcome.ret p none
          else findLoop quotes outDate fuel (index + 1)

/-- The function `FindEndDate`. The loop is given `len(quotes) + 1` iterations,
which it never uses up (see `findLoop_fuel`). -/
def FindEndDate (quotes : List Quote) (index : Int) (daysOut : Int) : Outcome :=
  match index? quotes index with
  | none => Outcome.panicked Failure.indexOutOfRange
  | some q =>
    match timeParse q.Date with
    | none => Outcome.panicked Failure.parseError
    | some now =>
      let out := outDuration daysOut
      let outDate := now.Add out
      findLoop quotes outDate (quotes.length + 1) index

/-! ## The loop of `main` (`main.go` lines 96-114) -/

/-- One iteration of the `range` loop of `main` (lines 97-113) for the index
`key` and its quote `row`: the slice `results` after it, or `none` when
`FindEndDate` stops the run. An error returned by `FindEndDate` is the
`continue`. -/
def loopBody (quotes : List Quote) (daysOut : Int) (key : Int) (row : Quote)
    (results : List Result) : Option (List Result) :=
  match FindEndDate quotes key daysOut with
  | Outcome.ret e none =>
    let differnce := F64.sub e.Close row.Close
    some (results ++ [{ Start := row.Date, End := e.Date, Open := row.Close,
                        Close := e.Close, Difference := differnce }])
  | Outcome.ret _ (some _) => some results
  | Outcome.panicked _ => none
  | Outcome.outOfFuel => none

/-- The `range` loop of `main` over the remaining rows: `key` is the index of
the first of them, `results` the slice built so far. -/
def mainLoopFrom (quotes : List Quote) (daysOut : Int) :
    List Quote → Int → List Result → Option (List Result)
  | [], _, results => some results
  | row :: rest, key, results =>
    match loopBody quotes daysOut key row results with
    | none => none
    | some results1 => mainLoopFrom quotes daysOut rest (key + 1) results1

/-- The result list of `main`: the loop run over all of `quotes` from the nil
slice. -/
def mainLoop (quotes : List Quote) (daysOut : Int) : Option (List Result) :=
  mainLoopFrom quotes daysOut quotes 0 []

/-! ## The statistics (`main.go` lines 143-246) -/

/-- The function `PercentChange`. -/
def PercentChange (before after : F64) : F64 :=
  let diff := F64.sub after before
  let realDiff := F64.div diff before
  let percentDiff := F64.mul (F64.fin 100) realDiff
  percentDiff

/-- The function `PercentUpStat`. -/
def PercentUpStat (results : List Result) (percentAway : F64) : F64 :=
  let failed : Int := results.foldl
    (fun failed row =>
      if F64.gt (PercentChange row.Open row.Close) percentAway then failed + 1 else failed) 0
  F64.mul (F64.div (F64.ofInt failed) (F64.ofInt results.length)) (F64.fin 100)

/-- The function `PercentDownStat`. -/
def PercentDownStat (results : List Result) (percentAway : F64) : F64 :=
  let failed : Int := results.foldl
    (fun failed row =>
      if F64.lt (PercentChange row.Open row.Close) (F64.mul percentAway (F64.fin (-1)))
      then failed + 1 else failed) 0
  F64.mul (F64.div (F64.ofInt failed) (F64.ofInt results.length)) (F64.fin 100)

/-! ## Vocabulary of the statements -/

/-- Unix seconds of a quote's date, when the date parses. -/
def unixOf (q : Quote) : Option Int := (timeParse q.Date).map Time.Unix

/-- Date, in Unix seconds, of the quote at position `k`, when there is one and
its date parses. -/
def dateAt (quotes : List Quote) (k : Nat) : Option Int := quotes[k]?.bind unixOf

/-- Date of the quote at position `k` (`0` where `dateAt` is undefined). -/
def dateOf (quotes : List Quote) (k : Nat) : Int := (dateAt quotes k).getD 0

/-- Every quote of the sequence has a date that `time.Parse` accepts. -/
def Parseable (quotes : List Quote) : Prop :=
  ∀ q ∈ quotes, (timeParse q.Date).isSome = true

instance (quotes : List Quote) : Decidable (Parseable quotes) :=
  inferInstanceAs (Decidable (∀ q ∈ quotes, (timeParse q.Date).isSome = true))

/-- The dates of the sequence, in order (`0` for a date that does not parse). -/
def dates (quotes : List Quote) : List Int := quotes.map (fun q => (unixOf q).getD 0)

/-- The sequence is sorted strictly ascending by date. -/
def StrictlyAscending (quotes : List Quote) : Prop := (dates quotes).Pairwise (· < ·)

instance (quotes : List Quote) : Decidable (StrictlyAscending quotes) :=
  inferInstanceAs (Decidable ((dates quotes).Pairwise (· < ·)))

/-- The sequence is sorted ascending by date. -/
def Ascending (quotes : List Quote) : Prop := (dates quotes).Pairwise (· ≤ ·)

instance (quotes : List Quote) : Decidable (Ascending quotes) :=
  inferInstanceAs (Decidable ((dates quotes).Pairwise (· ≤ ·)))

/-- The call returned its pair (it did not stop the run). -/
def Outcome.returns : Outcome → Bool
  | Outcome.ret _ _ => true
  | _ => false

/-- The Result that the specification assigns to the start index `i`: present
exactly when `FindEndDate` succeeds there with an end quote `e`. -/
def resultFor (quotes : List Quote) (daysOut : Int) (i : Nat) : Option Result :=
  match quotes[i]?, FindEndDate quotes i daysOut with
  | some row, Outcome.ret e none =>
    some { Start := row.Date, End := e.Date, Open := row.Close, Close := e.Close,
           Difference := F64.sub e.Close row.Close }
  | _, _ => none

/-- The specified result list: the Results of the start indices, in ascending
order of the index, the indices without a Result left out. -/
def resultsSpec (quotes : List Quote) (daysOut : Int) : List Result :=
  (List.range quotes.length).filterMap (resultFor quotes daysOut)

/-- The error value of `FindEndDate`: the zero quote with "Hit end of index". -/
def hitEnd : Outcome := Outcome.ret Quote.zero (some "Hit end of index")

/-! ## Sample data -/

/-- A quote of the given date whose four prices are all `close`. -/
def quoteOn (date : String) (close : ℚ) : Quote :=
  { Date := date, Open := F64.fin close, High := F64.fin close, Low := F64.fin close,
    Close := F64.fin close, Volume := 0 }

/-- The three quotes of the end-to-end scenario of the specification. -/
def scenario : List Quote :=
  [quoteOn "2020-01-01" 100, quoteOn "2020-01-15" 100, quoteOn "2020-02-02" 106]

/-- Three windows: one gains 6 %, one loses 5 %, one is flat. -/
def sampleResults : List Result :=
  [{ Start := "2020-01-01", End := "2020-01-31", Open := F64.fin 100, Close := F64.fin 106,
     Difference := F64.fin 6 },
   { Start := "2020-01-02", End := "2020-01-31", Open := F64.fin 100, Close := F64.fin 95,
     Difference := F64.fin (-5) },
   { Start := "2020-01-03", End := "2020-01-31", Open := F64.fin 100, Close := F64.fin 100,
     Difference := F64.fin 0 }]

/-- Two quotes on consecutive days. -/
def twoDays : List Quote := [quoteOn "2020-01-01" 100, quoteOn "2020-01-02" 101]

/-- Three quotes on consecutive days. -/
def threeDays : List Quote :=
  [quoteOn "2020-01-01" 100, quoteOn "2020-01-02" 101, quoteOn "2020-01-03" 102]

/-- Two quotes almost ten thousand years apart. -/
def farApart : List Quote := [quoteOn "0001-01-01" 1, quoteOn "9999-01-01" 2]

/-- Two quotes two months apart. -/
def gapped : List Quote := [quoteOn "2020-01-01" 100, quoteOn "2020-03-01" 110]

/-- One quote per calendar day from `2020-01-01` to `2020-02-01`, 32 entries. -/
def january : List Quote :=
  ["2020-01-01", "2020-01-02", "2020-01-03", "2020-01-04", "2020-01-05", "2020-01-06",
   "2020-01-07", "2020-01-08", "2020-01-09", "2020-01-10", "2020-01-11", "2020-01-12",
   "2020-01-13", "2020-01-14", "2020-01-15", "2020-01-16", "2020-01-17", "2020-01-18",
   "2020-01-19", "2020-01-20", "2020-01-21", "2020-01-22", "2020-01-23", "2020-01-24",
   "2020-01-25", "2020-01-26", "2020-01-27", "2020-01-28", "2020-01-29", "2020-01-30",
   "2020-01-31", "2020-02-01"].map (fun d => quoteOn d 100)

/-! ## The scan with its bookkeeping, and further vocabulary -/

/-- The target date of `FindEndDate` (lines 199-200): the parsed start date
`now` moved by the duration `out`. -/
def targetDate (now : Time) (daysOut : Int) : Time := now.Add (outDuration daysOut)

/-- A run of the scan together with two observations of it: the number of
loop iterations entered and the slice indices read, in order. -/
structure Run where
  out : Outcome
  iters : Nat
  reads : List Int
  deriving DecidableEq

/-- The loop `findLoop`, recording each iteration entered and each slice
access `quotes[index]`, `quotes[index-1]` it makes. -/
def findLoopRun (quotes : List Quote) (outDate : Time) : Nat → Int → Run
  | 0, _ => { out := Outcome.outOfFuel, iters := 0, reads := [] }
  | fuel + 1, index =>
    if index + 1 > quotes.length then
      { out := Outcome.ret Quote.zero (some "Hit end of index"), iters := 1, reads := [] }
    else
      match index? quotes index with
      | none => { out := Outcome.panicked Failure.indexOutOfRange, iters := 1, reads := [index] }
      | some q =>
        match timeParse q.Date with
        | none => { out := Outcome.panicked Failure.parseError, iters := 1, reads := [index] }
        | some futNow =>
          if futNow.Unix > outDate.Unix then
            match index? quotes (index - 1) with
            | none =>
              { out := Outcome.panicked Failure.indexOutOfRange, iters := 1,
                reads := [index, index - 1] }
            | some p => { out := Outcome.ret p none, iters := 1, reads := [index, index - 1] }
          else
            let r := findLoopRun quotes outDate fuel (index + 1)
            { out := r.out, iters := r.iters + 1, reads := index :: r.reads }

/-- The function `FindEndDate`, recording the iterations of its loop and its
slice accesses (the first one is `quotes[index]` of line 193). -/
def FindEndDateRun (quotes : List Quote) (index : Int) (daysOut : Int) : Run :=
  match index? quotes index with
  | none => { out := Outcome.panicked Failure.indexOutOfRange, iters := 0, reads := [index] }
  | some q =>
    match timeParse q.Date with
    | none => { out := Outcome.panicked Failure.parseError, iters := 0, reads := [index] }
    | some now =>
      let r := findLoopRun quotes (targetDate now daysOut) (quotes.length + 1) index
      { out := r.out, iters := r.iters, reads := index :: r.reads }

/-- The call succeeded: it returned a quote and no error. -/
def Outcome.succeeds : Outcome → Bool
  | Outcome.ret _ none => true
  | _ => false

/-- Go `x <= y` on `float64`; false as soon as one side is `NaN`. -/
def F64.le : F64 → F64 → Bool
  | F64.nan, _ => false
  | _, F64.nan => false
  | F64.ninf, _ => true
  | _, F64.pinf => true
  | F64.pinf, _ => false
  | _, F64.ninf => false
  | x, y => decide (x.toQ ≤ y.toQ)

/-- The value is a number of the closed interval `[0, 100]`. -/
def F64.inPercentRange (x : F64) : Bool := F64.le (F64.fin 0) x && F64.le x (F64.fin 100)

/-- Four quotes on consecutive days, each close a tenth above the one before. -/
def rising : List Quote :=
  [quoteOn "2020-01-01" 100, quoteOn "2020-01-02" 110, quoteOn "2020-01-03" 121,
   quoteOn "2020-01-04" 134]

/-- The Results of `rising` with one day out. -/
def risingResults : List Result :=
  [{ Start := "2020-01-01", End := "2020-01-02", Open := F64.fin 100, Close := F64.fin 110,
     Difference := F64.fin 10 },
   { Start := "2020-01-02", End := "2020-01-03", Open := F64.fin 110, Close := F64.fin 121,
     Difference := F64.fin 11 }]

/-- The Results of `scenario` with 30 days out. -/
def scenarioResults : List Result :=
  [{ Start := "2020-01-01", End := "2020-01-15", Open := F64.fin 100, Close := F64.fin 100,
     Difference := F64.fin 0 }]

/-- Eleven windows: two gain a tenth, nine lose a twentieth. -/
def elevenResults : List Result :=
  List.replicate 2
    { Start := "2020-01-01", End := "2020-01-31", Open := F64.fin 100, Close := F64.fin 110,
      Difference := F64.fin 10 } ++
  List.replicate 9
    { Start := "2020-01-02", End := "2020-01-31", Open := F64.fin 100, Close := F64.fin 95,
      Difference := F64.fin (-5) }

/-! ## Lemmas on the rounding of `float64` -/

theorem rne_spec (y : ℚ) : |y - rne y| ≤ 1 / 2 := by
  have h1 := Int.floor_le y
  have h2 := Int.lt_floor_add_one y
  unfold rne
  split_ifs <;> rw [abs_le] <;> constructor <;> push_cast <;> linarith

theorem rne_intCast (n : ℤ) : rne (n : ℚ) = n := by
  unfold rne
  simp

theorem rne_mono {a b : ℚ} (h : a ≤ b) : rne a ≤ rne b := by
  by_contra hcon
  push_neg at hcon
  have ha := abs_le.mp (rne_spec a)
  have hb := abs_le.mp (rne_spec b)
  have h1 : (rne b : ℚ) + 1 ≤ rne a := by exact_mod_cast hcon
  have hab : a = b := by linarith
  rw [hab] at hcon
  exact lt_irrefl _ hcon

theorem ulp_pos (x : ℚ) : 0 < ulp x := by
  unfold ulp
  positivity

theorem le_expo (x : ℚ) : -1022 ≤ expo x := le_max_right _ _

theorem abs_lt_two_pow_expo (x : ℚ) : |x| < (2 : ℚ) ^ (expo x + 1) := by
  have h := Int.lt_zpow_succ_log_self (b := 2) (by norm_num) |x|
  refine lt_of_lt_of_le h ?_
  have : Int.log 2 |x| + 1 ≤ expo x + 1 := by
    have := le_max_left (Int.log 2 |x|) (-1022)
    unfold expo
    omega
  exact_mod_cast zpow_le_zpow_right₀ (a := (2 : ℚ)) (by norm_num) this

theorem expo_eq (x : ℚ) (e : ℤ) (he : -1022 ≤ e) (h1 : (2 : ℚ) ^ e ≤ |x|)
    (h2 : |x| < (2 : ℚ) ^ (e + 1)) : expo x = e := by
  have hpos : 0 < |x| := lt_of_lt_of_le (by positivity) h1
  have hl : Int.log 2 |x| = e := by
    apply le_antisymm
    · have := (Int.lt_zpow_iff_log_lt (b := 2) (by norm_num) hpos).mp (by exact_mod_cast h2)
      omega
    · exact (Int.zpow_le_iff_le_log (b := 2) (by norm_num) hpos).mp (by exact_mod_cast h1)
  unfold expo
  rw [hl]
  exact max_eq_left he


theorem two_pow_expo_le (x : ℚ) (h : (2 : ℚ) ^ (-1022 : ℤ) ≤ |x|) : (2 : ℚ) ^ expo x ≤ |x| := by
  have hpos : 0 < |x| := lt_of_lt_of_le (by positivity) h
  have hl : (-1022 : ℤ) ≤ Int.log 2 |x| :=
    (Int.zpow_le_iff_le_log (b := 2) (by norm_num) hpos).mp (by exact_mod_cast h)
  unfold expo
  rw [max_eq_left hl]
  exact_mod_cast Int.zpow_log_le_self (b := 2) (by norm_num) hpos

theorem expo_mono {x y : ℚ} (h : |x| ≤ |y|) (hx : x ≠ 0) : expo x ≤ expo y := by
  unfold expo
  have hpos : 0 < |x| := abs_pos.mpr hx
  exact max_le_max (Int.log_mono_right hpos h) (le_refl _)

/-- Evaluation of `roundQ` from the binade `e` of `x` and the integer `m`
nearest to the scaled value. -/
theorem roundQ_eq (x : ℚ) (e m : ℤ) (he : -1022 ≤ e) (h1 : (2 : ℚ) ^ e ≤ |x|)
    (h2 : |x| < (2 : ℚ) ^ (e + 1)) (hm : |x * (2 : ℚ) ^ (52 - e) - m| < 1 / 2) :
    roundQ x = m * (2 : ℚ) ^ (e - 52) := by
  have hexp := expo_eq x e he h1 h2
  unfold roundQ ulp
  rw [hexp]
  have hdiv : x / (2 : ℚ) ^ (e - 52) = x * (2 : ℚ) ^ (52 - e) := by
    rw [div_eq_mul_inv, ← zpow_neg]
    congr 2
    ring
  rw [hdiv]
  have hr := abs_le.mp (rne_spec (x * (2 : ℚ) ^ (52 - e)))
  have hm2 := abs_lt.mp hm
  have hlt1 : ((rne (x * (2 : ℚ) ^ (52 - e)) : ℤ) : ℚ) < m + 1 := by linarith
  have hlt2 : ((m : ℤ) : ℚ) < rne (x * (2 : ℚ) ^ (52 - e)) + 1 := by linarith
  have hlt1z : rne (x * (2 : ℚ) ^ (52 - e)) < m + 1 := by exact_mod_cast hlt1
  have hlt2z : m < rne (x * (2 : ℚ) ^ (52 - e)) + 1 := by exact_mod_cast hlt2
  have : rne (x * (2 : ℚ) ^ (52 - e)) = m := by omega
  rw [this]

theorem roundQ_zero : roundQ 0 = 0 := by
  unfold roundQ
  simp [rne]

theorem roundQ_nonneg {x : ℚ} (h : 0 ≤ x) : 0 ≤ roundQ x := by
  unfold roundQ
  have hu := ulp_pos x
  have : rne 0 ≤ rne (x / ulp x) := rne_mono (div_nonneg h (le_of_lt hu))
  rw [show rne 0 = 0 from rne_intCast 0] at this
  have h2 : (0 : ℚ) ≤ rne (x / ulp x) := by exact_mod_cast this
  positivity

theorem roundQ_nonpos {x : ℚ} (h : x ≤ 0) : roundQ x ≤ 0 := by
  unfold roundQ
  have hu := ulp_pos x
  have : rne (x / ulp x) ≤ rne 0 := rne_mono (div_nonpos_of_nonpos_of_nonneg h (le_of_lt hu))
  rw [show rne 0 = 0 from rne_intCast 0] at this
  have h2 : (rne (x / ulp x) : ℚ) ≤ 0 := by exact_mod_cast this
  exact mul_nonpos_of_nonpos_of_nonneg h2 (le_of_lt hu)

/-- The rounded value stays within the binade: at most `2 ^ (expo x + 1)`. -/
theorem roundQ_le_top {x : ℚ} (h : 0 ≤ x) : roundQ x ≤ (2 : ℚ) ^ (expo x + 1) := by
  have hu := ulp_pos x
  have hx : x < (2 : ℚ) ^ (expo x + 1) := by
    have := abs_lt_two_pow_expo x
    rwa [abs_of_nonneg h] at this
  have hsplit : (2 : ℚ) ^ (expo x + 1) = ((2 ^ 53 : ℤ) : ℚ) * ulp x := by
    unfold ulp
    rw [show expo x + 1 = 53 + (expo x - 52) by ring, zpow_add₀ (by norm_num)]
    norm_num
  have hdiv : x / ulp x ≤ ((2 ^ 53 : ℤ) : ℚ) := by
    rw [div_le_iff₀ hu, ← hsplit]
    exact le_of_lt hx
  have := rne_mono hdiv
  rw [rne_intCast] at this
  unfold roundQ
  rw [hsplit]
  have h2 : (rne (x / ulp x) : ℚ) ≤ ((2 ^ 53 : ℤ) : ℚ) := by exact_mod_cast this
  exact mul_le_mul_of_nonneg_right h2 (le_of_lt hu)

/-- The rounded value stays within the binade: at least `2 ^ expo x` for a
value of the normal range. -/
theorem le_roundQ_bot {x : ℚ} (hn : (2 : ℚ) ^ expo x ≤ x) :
    (2 : ℚ) ^ expo x ≤ roundQ x := by
  have hu := ulp_pos x
  have hsplit : (2 : ℚ) ^ (expo x) = ((2 ^ 52 : ℤ) : ℚ) * ulp x := by
    unfold ulp
    rw [show expo x = 52 + (expo x - 52) by ring, zpow_add₀ (by norm_num)]
    norm_num
  have hdiv : ((2 ^ 52 : ℤ) : ℚ) ≤ x / ulp x := by
    rw [le_div_iff₀ hu, ← hsplit]
    exact hn
  have := rne_mono hdiv
  rw [rne_intCast] at this
  unfold roundQ
  rw [hsplit]
  have h2 : ((2 ^ 52 : ℤ) : ℚ) ≤ (rne (x / ulp x) : ℚ) := by exact_mod_cast this
  exact mul_le_mul_of_nonneg_right h2 (le_of_lt hu)

theorem roundQ_mono_nonneg {x y : ℚ} (hx : 0 ≤ x) (hxy : x ≤ y) : roundQ x ≤ roundQ y := by
  rcases eq_or_lt_of_le hx with h0 | hpos
  · rw [← h0, roundQ_zero]
    exact roundQ_nonneg (le_trans hx hxy)
  have hy : 0 ≤ y := le_trans hx hxy
  have hle : expo x ≤ expo y :=
    expo_mono (by rw [abs_of_nonneg hx, abs_of_nonneg hy]; exact hxy) (ne_of_gt hpos)
  rcases eq_or_lt_of_le hle with heq | hlt
  · unfold roundQ ulp
    rw [heq]
    have hu : (0 : ℚ) < (2 : ℚ) ^ (expo y - 52) := by positivity
    have := rne_mono (div_le_div_of_nonneg_right hxy (le_of_lt hu))
    have h2 : (rne (x / (2 : ℚ) ^ (expo y - 52)) : ℚ) ≤ rne (y / (2 : ℚ) ^ (expo y - 52)) := by
      exact_mod_cast this
    exact mul_le_mul_of_nonneg_right h2 (le_of_lt hu)
  · have h1 := roundQ_le_top hx
    have hyn : (2 : ℚ) ^ expo y ≤ y := by
      have hgt : -1022 < expo y := lt_of_le_of_lt (le_expo x) hlt
      have hlog : expo y = Int.log 2 |y| := by
        unfold expo at hgt ⊢
        rcases max_cases (Int.log 2 |y|) (-1022) with ⟨h, _⟩ | ⟨h, _⟩
        · exact h
        · rw [h] at hgt
          exact absurd hgt (lt_irrefl _)
      have hypos : 0 < |y| := abs_pos.mpr (ne_of_gt (lt_of_lt_of_le hpos hxy))
      have := Int.zpow_log_le_self (b := 2) (by norm_num) hypos
      rw [hlog]
      have h4 : (2 : ℚ) ^ Int.log 2 |y| ≤ |y| := by exact_mod_cast this
      rwa [abs_of_nonneg hy] at h4 ⊢
    have h2 := le_roundQ_bot hyn
    have h3 : (2 : ℚ) ^ (expo x + 1) ≤ (2 : ℚ) ^ expo y :=
      zpow_le_zpow_right₀ (by norm_num) (by omega)
    linarith

/-- A value of the normal range is rounded with relative error at most `2^-53`. -/
theorem roundQ_rel (x : ℚ) (h : (2 : ℚ) ^ (-1022 : ℤ) ≤ |x|) :
    |roundQ x - x| ≤ (2 : ℚ) ^ (-53 : ℤ) * |x| := by
  have hu := ulp_pos x
  have hr := rne_spec (x / ulp x)
  have hn := two_pow_expo_le x h
  have e1 : roundQ x - x = -((x / ulp x - rne (x / ulp x)) * ulp x) := by
    unfold roundQ
    field_simp
    ring
  rw [e1, abs_neg, abs_mul, abs_of_pos hu]
  have hhalf : (1 / 2 : ℚ) * ulp x = (2 : ℚ) ^ (-53 : ℤ) * (2 : ℚ) ^ expo x := by
    unfold ulp
    rw [show expo x - 52 = -52 + expo x by ring, zpow_add₀ (by norm_num)]
    norm_num
    ring
  calc |x / ulp x - rne (x / ulp x)| * ulp x ≤ (1 / 2) * ulp x :=
        mul_le_mul_of_nonneg_right hr (le_of_lt hu)
    _ = (2 : ℚ) ^ (-53 : ℤ) * (2 : ℚ) ^ expo x := hhalf
    _ ≤ (2 : ℚ) ^ (-53 : ℤ) * |x| := mul_le_mul_of_nonneg_left hn (by positivity)

theorem roundQ_ne_zero (x : ℚ) (h : (2 : ℚ) ^ (-1022 : ℤ) ≤ |x|) : roundQ x ≠ 0 := by
  intro h0
  have hr := roundQ_rel x h
  rw [h0, zero_sub, abs_neg] at hr
  have hpos : 0 < |x| := lt_of_lt_of_le (by positivity) h
  have : (2 : ℚ) ^ (-53 : ℤ) * |x| < 1 * |x| := by
    apply mul_lt_mul_of_pos_right _ hpos
    norm_num
  linarith

/-- The three shapes of a rounded value. -/
theorem F64.round_cases (x : ℚ) :
    F64.round x = F64.signedInf (decide (x < 0)) ∨
    F64.round x = F64.signedZero (decide (x < 0)) ∨
    (F64.round x = F64.fin (roundQ x) ∧ roundQ x ≠ 0 ∧ |roundQ x| < (2 : ℚ) ^ 1024) := by
  unfold F64.round
  split_ifs with h1 h2
  · exact Or.inl rfl
  · exact Or.inr (Or.inl rfl)
  · exact Or.inr (Or.inr ⟨rfl, h2, lt_of_not_le h1⟩)

/-- A rounding that neither overflows nor underflows to zero. -/
theorem F64.round_fin (x : ℚ) (h0 : roundQ x ≠ 0) (h1 : |roundQ x| < (2 : ℚ) ^ 1024) :
    F64.round x = F64.fin (roundQ x) := by
  unfold F64.round
  rw [if_neg (not_le_of_lt h1), if_neg h0]

/-- Evaluation of `F64.round` from the binade `e` of `x` and the integer `m`
nearest to the scaled value. -/
theorem F64.round_eq (x : ℚ) (e m : ℤ) (he : -1022 ≤ e) (h1 : (2 : ℚ) ^ e ≤ |x|)
    (h2 : |x| < (2 : ℚ) ^ (e + 1)) (hm : |x * (2 : ℚ) ^ (52 - e) - m| < 1 / 2)
    (hfin : |(m : ℚ) * (2 : ℚ) ^ (e - 52)| < (2 : ℚ) ^ 1024) :
    F64.round x = F64.fin (m * (2 : ℚ) ^ (e - 52)) := by
  have hr := roundQ_eq x e m he h1 h2 hm
  have hx : (2 : ℚ) ^ (-1022 : ℤ) ≤ |x| :=
    le_trans (zpow_le_zpow_right₀ (by norm_num) he) h1
  have h0 := roundQ_ne_zero x hx
  rw [F64.round_fin x h0 (by rw [hr]; exact hfin), hr]

/-- The magnitude of a rounded value of the normal range. -/
theorem abs_roundQ_le (x : ℚ) (h : (2 : ℚ) ^ (-1022 : ℤ) ≤ |x|) :
    |roundQ x| ≤ (1 + (2 : ℚ) ^ (-53 : ℤ)) * |x| := by
  have hr := roundQ_rel x h
  have := abs_sub_abs_le_abs_sub (roundQ x) x
  linarith

/-- The magnitude of a rounded value of the normal range, from below. -/
theorem le_abs_roundQ (x : ℚ) (h : (2 : ℚ) ^ (-1022 : ℤ) ≤ |x|) :
    (1 - (2 : ℚ) ^ (-53 : ℤ)) * |x| ≤ |roundQ x| := by
  have hr := roundQ_rel x h
  have := abs_sub_abs_le_abs_sub x (roundQ x)
  rw [abs_sub_comm] at this
  linarith

/-- A value of the normal range below `2^1023` is rounded to a number, with
relative error at most `2^-53`. -/
theorem F64.round_rel (x : ℚ) (hlo : (2 : ℚ) ^ (-1022 : ℤ) ≤ |x|)
    (hhi : |x| ≤ (2 : ℚ) ^ 1023) :
    F64.round x = F64.fin (roundQ x) ∧ roundQ x ≠ 0 ∧
      |roundQ x - x| ≤ (2 : ℚ) ^ (-53 : ℤ) * |x| := by
  have h0 := roundQ_ne_zero x hlo
  have hb := abs_roundQ_le x hlo
  have hlt : |roundQ x| < (2 : ℚ) ^ 1024 := by
    have h1 : (1 + (2 : ℚ) ^ (-53 : ℤ)) * |x| ≤ (1 + (2 : ℚ) ^ (-53 : ℤ)) * (2 : ℚ) ^ 1023 :=
      mul_le_mul_of_nonneg_left hhi (by positivity)
    have h2 : (1 + (2 : ℚ) ^ (-53 : ℤ)) * (2 : ℚ) ^ 1023 < (2 : ℚ) ^ 1024 := by norm_num
    linarith
  exact ⟨F64.round_fin x h0 hlt, h0, roundQ_rel x hlo⟩

/-- Composition of a relative error `η` with one more rounding. -/
theorem rel_compose (X x r η : ℚ) (hx : |x - X| ≤ η * |X|)
    (hr : |r - x| ≤ (2 : ℚ) ^ (-53 : ℤ) * |x|) :
    |r - X| ≤ (η + (2 : ℚ) ^ (-53 : ℤ) + η * (2 : ℚ) ^ (-53 : ℤ)) * |X| := by
  have h1 : |x| ≤ (1 + η) * |X| := by
    have := abs_sub_abs_le_abs_sub x X
    linarith
  have h2 : |r - X| ≤ |r - x| + |x - X| := by
    have := abs_add (r - x) (x - X)
    rwa [sub_add_sub_cancel] at this
  have h3 : (2 : ℚ) ^ (-53 : ℤ) * |x| ≤ (2 : ℚ) ^ (-53 : ℤ) * ((1 + η) * |X|) :=
    mul_le_mul_of_nonneg_left h1 (by positivity)
  linarith

theorem roundQ_one : roundQ 1 = 1 := by
  rw [roundQ_eq 1 0 4503599627370496 (by norm_num) (by norm_num) (by norm_num)
    (by norm_num [abs_lt])]
  norm_num

theorem roundQ_hundred : roundQ 100 = 100 := by
  rw [roundQ_eq 100 6 7036874417766400 (by norm_num) (by norm_num) (by norm_num)
    (by norm_num [abs_lt])]
  norm_num

/-- A value that is an integer multiple of its own spacing is not changed. -/
theorem roundQ_of_multiple (x : ℚ) (k : ℤ) (h : x = k * ulp x) : roundQ x = x := by
  have hu := ulp_pos x
  have hk : x / ulp x = k := by
    rw [div_eq_iff (ne_of_gt hu)]
    exact h
  unfold roundQ
  rw [hk, rne_intCast]
  exact h.symm

/-- The conversion of an integer of at most 53 bits is exact. -/
theorem roundQ_natCast (n : ℕ) (h : n ≤ 2 ^ 53) : roundQ (n : ℚ) = n := by
  rcases Nat.eq_zero_or_pos n with h0 | hpos
  · subst h0
    simpa using roundQ_zero
  rcases Nat.eq_or_lt_of_le h with heq | hlt
  · subst heq
    rw [roundQ_eq _ 53 4503599627370496 (by norm_num) (by norm_num) (by norm_num)
      (by norm_num [abs_lt])]
    norm_num
  have hn1 : (1 : ℚ) ≤ |(n : ℚ)| := by
    rw [abs_of_nonneg (by positivity)]
    exact_mod_cast hpos
  have hlog : Int.log 2 |(n : ℚ)| ≤ 52 := by
    have hlt2 : |(n : ℚ)| < (2 : ℚ) ^ (53 : ℤ) := by
      rw [abs_of_nonneg (by positivity)]
      exact_mod_cast hlt
    have hp : 0 < |(n : ℚ)| := by linarith
    have h3 : |(n : ℚ)| < ((2 : ℕ) : ℚ) ^ (53 : ℤ) := by
      rw [Nat.cast_ofNat]
      exact hlt2
    have := (Int.lt_zpow_iff_log_lt (b := 2) (by norm_num) hp).mp h3
    omega
  have hlog0 : 0 ≤ Int.log 2 |(n : ℚ)| := by
    have hp : 0 < |(n : ℚ)| := by linarith
    exact (Int.zpow_le_iff_le_log (b := 2) (by norm_num) hp).mp (by simpa using hn1)
  have he : expo (n : ℚ) = Int.log 2 |(n : ℚ)| := by
    unfold expo
    exact max_eq_left (by omega)
  obtain ⟨j, hj⟩ : ∃ j : ℕ, (52 : ℤ) - expo (n : ℚ) = j :=
    ⟨(52 - expo (n : ℚ)).toNat, by rw [Int.toNat_of_nonneg]; omega⟩
  apply roundQ_of_multiple (n : ℚ) ((n : ℤ) * 2 ^ j)
  unfold ulp
  have hneg : expo (n : ℚ) - 52 = -(j : ℤ) := by omega
  rw [hneg, zpow_neg, zpow_natCast]
  push_cast
  field_simp

theorem roundQ_natCast_pos (n : ℕ) (h : n ≠ 0) : 1 ≤ roundQ (n : ℚ) := by
  have h1 : (1 : ℚ) ≤ n := by exact_mod_cast Nat.pos_of_ne_zero h
  have := roundQ_mono_nonneg (by norm_num) h1
  rwa [roundQ_one] at this

/-- Rounding a value of `[0, B]`, for a bound `B` that is itself a `float64`. -/
theorem F64.round_le (x B : ℚ) (hx : 0 ≤ x) (hB : x ≤ B) (hBr : roundQ B = B)
    (hB2 : B < (2 : ℚ) ^ 1024) :
    ∃ r, F64.round x = F64.fin r ∧ 0 ≤ r ∧ r ≤ B := by
  have h0 := roundQ_nonneg hx
  have h1 := roundQ_mono_nonneg hx hB
  rw [hBr] at h1
  have hlt : ¬ (2 : ℚ) ^ 1024 ≤ |roundQ x| := by
    rw [abs_of_nonneg h0]
    intro h
    linarith
  have hneg : ¬ x < 0 := not_lt_of_le hx
  unfold F64.round
  rw [if_neg hlt]
  split_ifs with hz
  · exact ⟨0, by simp [F64.signedZero, hneg], le_refl _, le_trans hx hB⟩
  · exact ⟨roundQ x, rfl, h0, h1⟩

/-! ## Lemmas on the `float64` operations -/

theorem F64.sub_self (x : F64) (h : x.isFinite = true) : F64.sub x x = F64.fin 0 := by
  cases x <;> simp [F64.isFinite] at h <;>
    simp [F64.sub, F64.isNaN, F64.isInf, F64.toQ, F64.signedZero, F64.signBit]

theorem F64.sub_fin (a b : ℚ) (h : a - b ≠ 0) :
    F64.sub (F64.fin a) (F64.fin b) = F64.round (a - b) := by
  simp [F64.sub, F64.isNaN, F64.isInf, F64.toQ, h]

theorem F64.div_fin (a b : ℚ) (ha : a ≠ 0) (hb : b ≠ 0) :
    F64.div (F64.fin a) (F64.fin b) = F64.round (a / b) := by
  simp [F64.div, F64.isNaN, F64.isInf, F64.toQ, ha, hb]

theorem F64.mul_fin (a b : ℚ) (ha : a ≠ 0) (hb : b ≠ 0) :
    F64.mul (F64.fin a) (F64.fin b) = F64.round (a * b) := by
  simp [F64.mul, F64.isNaN, F64.isInf, F64.toQ, ha, hb]

/-- `PercentChange` on numbers, as three roundings. -/
theorem PercentChange_fin (before after d q : ℚ) (hb : before ≠ 0) (hab : after - before ≠ 0)
    (hd : F64.round (after - before) = F64.fin d) (hd0 : d ≠ 0)
    (hq : F64.round (d / before) = F64.fin q) (hq0 : q ≠ 0) :
    PercentChange (F64.fin before) (F64.fin after) = F64.round (100 * q) := by
  unfold PercentChange
  simp only []
  rw [F64.sub_fin after before hab, hd, F64.div_fin d before hd0 hb, hq,
    F64.mul_fin 100 q (by norm_num) hq0]

/-- Away from overflow and underflow, `PercentChange` is a number within the
relative error `2^-51` of `100 * (after - before) / before`. -/
theorem PercentChange_rel (before after : ℚ)
    (hd1 : (2 : ℚ) ^ (-1022 : ℤ) ≤ |after - before|)
    (hd2 : |after - before| ≤ (2 : ℚ) ^ 1023)
    (hq1 : (2 : ℚ) ^ (-1021 : ℤ) ≤ |(after - before) / before|)
    (hq2 : |(after - before) / before| ≤ (2 : ℚ) ^ 1016) :
    PercentChange (F64.fin before) (F64.fin after)
      = F64.fin (roundQ (100 * roundQ (roundQ (after - before) / before))) ∧
    |roundQ (100 * roundQ (roundQ (after - before) / before))
        - 100 * (after - before) / before|
      ≤ (2 : ℚ) ^ (-51 : ℤ) * |100 * (after - before) / before| := by
  have hb : before ≠ 0 := by
    intro h
    rw [h, div_zero, abs_zero] at hq1
    have : (0 : ℚ) < (2 : ℚ) ^ (-1021 : ℤ) := by positivity
    linarith
  have hab : after - before ≠ 0 := by
    intro h
    rw [h, abs_zero] at hd1
    have : (0 : ℚ) < (2 : ℚ) ^ (-1022 : ℤ) := by positivity
    linarith
  obtain ⟨hd, hd0, hdr⟩ := F64.round_rel (after - before) hd1 hd2
  -- the quotient
  have hbpos : 0 < |before| := abs_pos.mpr hb
  have hx2 : |roundQ (after - before) / before - (after - before) / before|
      ≤ (2 : ℚ) ^ (-53 : ℤ) * |(after - before) / before| := by
    rw [← sub_div, abs_div, abs_div, ← mul_div_assoc]
    exact div_le_div_of_nonneg_right hdr (le_of_lt hbpos)
  have hX2pos : 0 ≤ |(after - before) / before| := abs_nonneg _
  have hx2lo : (2 : ℚ) ^ (-1022 : ℤ) ≤ |roundQ (after - before) / before| := by
    have := abs_sub_abs_le_abs_sub ((after - before) / before)
      (roundQ (after - before) / before)
    rw [abs_sub_comm] at this
    have h3 : (1 - (2 : ℚ) ^ (-53 : ℤ)) * (2 : ℚ) ^ (-1021 : ℤ)
        ≤ (1 - (2 : ℚ) ^ (-53 : ℤ)) * |(after - before) / before| :=
      mul_le_mul_of_nonneg_left hq1 (by norm_num)
    have h4 : (2 : ℚ) ^ (-1022 : ℤ) ≤ (1 - (2 : ℚ) ^ (-53 : ℤ)) * (2 : ℚ) ^ (-1021 : ℤ) := by
      rw [show (-1021 : ℤ) = 1 + -1022 by norm_num, zpow_add₀ (by norm_num : (2 : ℚ) ≠ 0)]
      have : (0 : ℚ) < (2 : ℚ) ^ (-1022 : ℤ) := by positivity
      have h5 : (1 : ℚ) ≤ (1 - (2 : ℚ) ^ (-53 : ℤ)) * (2 : ℚ) ^ (1 : ℤ) := by norm_num
      nlinarith
    linarith
  have hx2hi : |roundQ (after - before) / before| ≤ (2 : ℚ) ^ 1023 := by
    have := abs_sub_abs_le_abs_sub (roundQ (after - before) / before)
      ((after - before) / before)
    have h3 : (1 + (2 : ℚ) ^ (-53 : ℤ)) * |(after - before) / before|
        ≤ (1 + (2 : ℚ) ^ (-53 : ℤ)) * (2 : ℚ) ^ 1016 :=
      mul_le_mul_of_nonneg_left hq2 (by positivity)
    have h4 : (1 + (2 : ℚ) ^ (-53 : ℤ)) * (2 : ℚ) ^ 1016 ≤ (2 : ℚ) ^ 1023 := by norm_num
    linarith
  obtain ⟨hq, hq0, hqr⟩ := F64.round_rel (roundQ (after - before) / before) hx2lo hx2hi
  have hqX := rel_compose ((after - before) / before) (roundQ (after - before) / before)
    (roundQ (roundQ (after - before) / before)) ((2 : ℚ) ^ (-53 : ℤ)) hx2 hqr
  -- the product
  have hqlo := le_abs_roundQ (roundQ (after - before) / before) hx2lo
  have hx3lo : (2 : ℚ) ^ (-1022 : ℤ)
      ≤ |100 * roundQ (roundQ (after - before) / before)| := by
    rw [abs_mul]
    have h100 : |(100 : ℚ)| = 100 := abs_of_pos (by norm_num)
    rw [h100]
    have h6 : (2 : ℚ) ^ (-1022 : ℤ)
        ≤ 100 * ((1 - (2 : ℚ) ^ (-53 : ℤ)) * (2 : ℚ) ^ (-1022 : ℤ)) := by
      have : (0 : ℚ) < (2 : ℚ) ^ (-1022 : ℤ) := by positivity
      have h7 : (1 : ℚ) ≤ 100 * (1 - (2 : ℚ) ^ (-53 : ℤ)) := by norm_num
      nlinarith
    have h8 : (1 - (2 : ℚ) ^ (-53 : ℤ)) * (2 : ℚ) ^ (-1022 : ℤ)
        ≤ (1 - (2 : ℚ) ^ (-53 : ℤ)) * |roundQ (after - before) / before| :=
      mul_le_mul_of_nonneg_left hx2lo (by norm_num)
    linarith
  have hqhi : |roundQ (roundQ (after - before) / before)|
      ≤ (1 + (2 : ℚ) ^ (-53 : ℤ)) * ((1 + (2 : ℚ) ^ (-53 : ℤ)) * (2 : ℚ) ^ 1016) := by
    have h1 := abs_roundQ_le (roundQ (after - before) / before) hx2lo
    have h2 := abs_sub_abs_le_abs_sub (roundQ (after - before) / before)
      ((after - before) / before)
    have h3 : |roundQ (after - before) / before|
        ≤ (1 + (2 : ℚ) ^ (-53 : ℤ)) * (2 : ℚ) ^ 1016 := by
      have : (1 + (2 : ℚ) ^ (-53 : ℤ)) * |(after - before) / before|
          ≤ (1 + (2 : ℚ) ^ (-53 : ℤ)) * (2 : ℚ) ^ 1016 :=
        mul_le_mul_of_nonneg_left hq2 (by positivity)
      linarith
    have h4 : (1 + (2 : ℚ) ^ (-53 : ℤ)) * |roundQ (after - before) / before|
        ≤ (1 + (2 : ℚ) ^ (-53 : ℤ)) * ((1 + (2 : ℚ) ^ (-53 : ℤ)) * (2 : ℚ) ^ 1016) :=
      mul_le_mul_of_nonneg_left h3 (by positivity)
    linarith
  have hx3hi : |100 * roundQ (roundQ (after - before) / before)| ≤ (2 : ℚ) ^ 1023 := by
    rw [abs_mul]
    have h100 : |(100 : ℚ)| = 100 := abs_of_pos (by norm_num)
    rw [h100]
    have h9 : 100 * ((1 + (2 : ℚ) ^ (-53 : ℤ)) * ((1 + (2 : ℚ) ^ (-53 : ℤ)) * (2 : ℚ) ^ 1016))
        ≤ (2 : ℚ) ^ 1023 := by norm_num
    linarith
  obtain ⟨hp, _, hpr⟩ :=
    F64.round_rel (100 * roundQ (roundQ (after - before) / before)) hx3lo hx3hi
  have hx3 : |100 * roundQ (roundQ (after - before) / before)
        - 100 * (after - before) / before|
      ≤ ((2 : ℚ) ^ (-53 : ℤ) + (2 : ℚ) ^ (-53 : ℤ) + (2 : ℚ) ^ (-53 : ℤ) * (2 : ℚ) ^ (-53 : ℤ))
        * |100 * (after - before) / before| := by
    have e1 : 100 * roundQ (roundQ (after - before) / before)
        - 100 * (after - before) / before
        = 100 * (roundQ (roundQ (after - before) / before) - (after - before) / before) := by
      ring
    have e2 : 100 * (after - before) / before = 100 * ((after - before) / before) := by ring
    rw [e1, e2, abs_mul, abs_mul]
    have h100 : |(100 : ℚ)| = 100 := abs_of_pos (by norm_num)
    rw [h100]
    have := mul_le_mul_of_nonneg_left hqX (by norm_num : (0 : ℚ) ≤ 100)
    linarith
  have hfinal := rel_compose (100 * (after - before) / before)
    (100 * roundQ (roundQ (after - before) / before))
    (roundQ (100 * roundQ (roundQ (after - before) / before)))
    ((2 : ℚ) ^ (-53 : ℤ) + (2 : ℚ) ^ (-53 : ℤ) + (2 : ℚ) ^ (-53 : ℤ) * (2 : ℚ) ^ (-53 : ℤ))
    hx3 hpr
  refine ⟨?_, ?_⟩
  · rw [PercentChange_fin before after _ _ hb hab hd hd0 hq hq0, hp]
  · refine le_trans hfinal ?_
    apply mul_le_mul_of_nonneg_right _ (abs_nonneg _)
    norm_num

/-- The closing expression of the two statistics: a number of `[0, 100]`. -/
theorem stat_range (c n : ℕ) (hc : c ≤ n) (hn : n ≠ 0) :
    ∃ v, F64.mul (F64.div (F64.ofInt c) (F64.ofInt n)) (F64.fin 100) = F64.fin v ∧
      0 ≤ v ∧ v ≤ 100 := by
  have hfn := roundQ_natCast_pos n hn
  have hfc : 0 ≤ roundQ (c : ℚ) := roundQ_nonneg (by positivity)
  have hcn : roundQ (c : ℚ) ≤ roundQ (n : ℚ) :=
    roundQ_mono_nonneg (by positivity) (by exact_mod_cast hc)
  have hq : ∃ q, F64.div (F64.ofInt c) (F64.ofInt n) = F64.fin q ∧ 0 ≤ q ∧ q ≤ 1 := by
    by_cases hc0 : roundQ (c : ℚ) = 0
    · refine ⟨0, ?_, le_refl _, by norm_num⟩
      have hne : ¬ roundQ (n : ℚ) = 0 := by linarith
      have hnn : ¬ roundQ (n : ℚ) < 0 := by linarith
      simp [F64.div, F64.ofInt, F64.isNaN, F64.isInf, F64.toQ, F64.signBit, hc0, hne, hnn,
        F64.signedZero]
    · have hne : ¬ roundQ (n : ℚ) = 0 := by linarith
      have hd : F64.div (F64.ofInt c) (F64.ofInt n)
          = F64.round (roundQ (c : ℚ) / roundQ (n : ℚ)) := by
        simpa [F64.ofInt] using F64.div_fin (roundQ (c : ℚ)) (roundQ (n : ℚ)) hc0 hne
      rw [hd]
      exact F64.round_le _ 1 (by positivity) (by rw [div_le_one (by linarith)]; exact hcn)
        roundQ_one (by norm_num)
  obtain ⟨q, hq, hq0, hq1⟩ := hq
  rw [hq]
  by_cases hqz : q = 0
  · refine ⟨0, ?_, le_refl _, by norm_num⟩
    subst hqz
    simp [F64.mul, F64.isNaN, F64.isInf, F64.toQ, F64.signBit, F64.signedZero]
  · rw [F64.mul_fin q 100 hqz (by norm_num)]
    exact F64.round_le _ 100 (by positivity) (by linarith) roundQ_hundred (by norm_num)

theorem stat_in_range (c n : Nat) (hc : c ≤ n) (hn : n ≠ 0) :
    F64.inPercentRange
      (F64.mul (F64.div (F64.ofInt c) (F64.ofInt n)) (F64.fin 100)) = true := by
  obtain ⟨v, hv, h0, h1⟩ := stat_range c n hc hn
  rw [hv]
  simp [F64.inPercentRange, F64.le, F64.toQ, h0, h1]

/-- No row counted: the statistic is `+0`. -/
theorem stat_zero (n : ℕ) (hn : n ≠ 0) :
    F64.mul (F64.div (F64.ofInt (0 : ℕ)) (F64.ofInt n)) (F64.fin 100) = F64.fin 0 := by
  have hfn := roundQ_natCast_pos n hn
  have hne : ¬ roundQ (n : ℚ) = 0 := by linarith
  have hnn : ¬ roundQ (n : ℚ) < 0 := by linarith
  simp [F64.div, F64.mul, F64.ofInt, F64.isNaN, F64.isInf, F64.toQ, F64.signBit, hne, hnn,
    F64.signedZero, roundQ_zero]

/-- Every row counted: the statistic is `100`. -/
theorem stat_full (n : ℕ) (hn : n ≠ 0) :
    F64.mul (F64.div (F64.ofInt n) (F64.ofInt n)) (F64.fin 100) = F64.fin 100 := by
  have hfn := roundQ_natCast_pos n hn
  have hne : roundQ (n : ℚ) ≠ 0 := by linarith
  have h1 : F64.round 1 = F64.fin 1 := by
    rw [F64.round_fin 1 (by rw [roundQ_one]; norm_num) (by rw [roundQ_one]; norm_num),
      roundQ_one]
  have h100 : F64.round 100 = F64.fin 100 := by
    rw [F64.round_fin 100 (by rw [roundQ_hundred]; norm_num)
      (by rw [roundQ_hundred]; norm_num), roundQ_hundred]
  have hd : F64.div (F64.ofInt n) (F64.ofInt n) = F64.fin 1 := by
    have := F64.div_fin (roundQ (n : ℚ)) (roundQ (n : ℚ)) hne hne
    rw [div_self hne, h1] at this
    simpa [F64.ofInt] using this
  rw [hd, F64.mul_fin 1 100 (by norm_num) (by norm_num)]
  norm_num
  exact h100

/-- The closing expression of the two statistics on fewer than `2^53` rows:
within the relative error `2^-51` of `100 * c / n`. -/
theorem stat_rel (c n : ℕ) (hc : c ≤ n) (hn : n ≠ 0) (hlen : n ≤ 2 ^ 53) :
    F64.mul (F64.div (F64.ofInt c) (F64.ofInt n)) (F64.fin 100)
      = F64.fin (roundQ (roundQ ((c : ℚ) / n) * 100)) ∧
    |roundQ (roundQ ((c : ℚ) / n) * 100) - 100 * (c : ℚ) / n|
      ≤ (2 : ℚ) ^ (-51 : ℤ) * (100 * (c : ℚ) / n) := by
  have hn0 : (0 : ℚ) < n := by exact_mod_cast Nat.pos_of_ne_zero hn
  rcases Nat.eq_zero_or_pos c with hc0 | hcpos
  · subst hc0
    refine ⟨?_, ?_⟩
    · rw [stat_zero n hn]
      simp [roundQ_zero]
    · simp [roundQ_zero]
  have hc1 : (1 : ℚ) ≤ c := by exact_mod_cast hcpos
  have hcn : (c : ℚ) ≤ n := by exact_mod_cast hc
  have hnle : (n : ℚ) ≤ (2 : ℚ) ^ 53 := by exact_mod_cast hlen
  have hrc : roundQ (c : ℚ) = c := roundQ_natCast c (le_trans hc hlen)
  have hrn : roundQ (n : ℚ) = n := roundQ_natCast n hlen
  have hx1pos : (0 : ℚ) < (c : ℚ) / n := by positivity
  have hx1lo : (2 : ℚ) ^ (-1022 : ℤ) ≤ |(c : ℚ) / n| := by
    rw [abs_of_pos hx1pos, le_div_iff₀ hn0]
    have : (2 : ℚ) ^ (-1022 : ℤ) * (2 : ℚ) ^ 53 ≤ 1 := by norm_num
    have h2 : (2 : ℚ) ^ (-1022 : ℤ) * n ≤ (2 : ℚ) ^ (-1022 : ℤ) * (2 : ℚ) ^ 53 :=
      mul_le_mul_of_nonneg_left hnle (by positivity)
    linarith
  have hx1le : (c : ℚ) / n ≤ 1 := by
    rw [div_le_one hn0]
    exact hcn
  have hx1hi : |(c : ℚ) / n| ≤ (2 : ℚ) ^ 1023 := by
    rw [abs_of_pos hx1pos]
    have : (1 : ℚ) ≤ (2 : ℚ) ^ 1023 := one_le_pow₀ (by norm_num)
    linarith
  obtain ⟨hq, hq0, hqr⟩ := F64.round_rel ((c : ℚ) / n) hx1lo hx1hi
  have hqnn : 0 ≤ roundQ ((c : ℚ) / n) := roundQ_nonneg (le_of_lt hx1pos)
  have hqpos : 0 < roundQ ((c : ℚ) / n) := lt_of_le_of_ne hqnn (Ne.symm hq0)
  have hqle : roundQ ((c : ℚ) / n) ≤ 1 := by
    have := roundQ_mono_nonneg (le_of_lt hx1pos) hx1le
    rwa [roundQ_one] at this
  have hqlo : (2 : ℚ) ^ (-1022 : ℤ) ≤ roundQ ((c : ℚ) / n) := by
    have h1 := abs_le.mp hqr
    rw [abs_of_pos hx1pos] at h1 hx1lo
    have h3 : (2 : ℚ) ^ (-53 : ℤ) * ((c : ℚ) / n) ≤ (1 / 2) * ((c : ℚ) / n) :=
      mul_le_mul_of_nonneg_right (by norm_num) (le_of_lt hx1pos)
    have h4 : (2 : ℚ) ^ (-1022 : ℤ) * (2 : ℚ) ^ 53 ≤ (1 / 2) * 1 := by norm_num
    have h5 : (2 : ℚ) ^ (-1022 : ℤ) * 2 ≤ (c : ℚ) / n := by
      rw [le_div_iff₀ hn0]
      have h6 : (2 : ℚ) ^ (-1022 : ℤ) * 2 * n ≤ (2 : ℚ) ^ (-1022 : ℤ) * 2 * (2 : ℚ) ^ 53 :=
        mul_le_mul_of_nonneg_left hnle (by positivity)
      have h7 : (2 : ℚ) ^ (-1022 : ℤ) * 2 * (2 : ℚ) ^ 53 ≤ 1 := by norm_num
      linarith
    linarith
  have hx2pos : 0 < roundQ ((c : ℚ) / n) * 100 := mul_pos hqpos (by norm_num)
  have hx2lo : (2 : ℚ) ^ (-1022 : ℤ) ≤ |roundQ ((c : ℚ) / n) * 100| := by
    rw [abs_of_pos hx2pos]
    linarith
  have hx2hi : |roundQ ((c : ℚ) / n) * 100| ≤ (2 : ℚ) ^ 1023 := by
    rw [abs_of_pos hx2pos]
    have h1 : (1 : ℚ) ≤ (2 : ℚ) ^ 1016 := one_le_pow₀ (by norm_num)
    have h2 : (2 : ℚ) ^ 1023 = (2 : ℚ) ^ 1016 * 128 := by norm_num
    linarith
  obtain ⟨hv, _, hvr⟩ := F64.round_rel (roundQ ((c : ℚ) / n) * 100) hx2lo hx2hi
  have hx2 : |roundQ ((c : ℚ) / n) * 100 - 100 * (c : ℚ) / n|
      ≤ (2 : ℚ) ^ (-53 : ℤ) * |100 * (c : ℚ) / n| := by
    have e1 : roundQ ((c : ℚ) / n) * 100 - 100 * (c : ℚ) / n
        = 100 * (roundQ ((c : ℚ) / n) - (c : ℚ) / n) := by ring
    have e2 : 100 * (c : ℚ) / n = 100 * ((c : ℚ) / n) := by ring
    rw [e1, e2, abs_mul, abs_mul]
    have h100 : |(100 : ℚ)| = 100 := abs_of_pos (by norm_num)
    rw [h100]
    have := mul_le_mul_of_nonneg_left hqr (by norm_num : (0 : ℚ) ≤ 100)
    linarith
  have hfinal := rel_compose (100 * (c : ℚ) / n) (roundQ ((c : ℚ) / n) * 100)
    (roundQ (roundQ ((c : ℚ) / n) * 100)) ((2 : ℚ) ^ (-53 : ℤ)) hx2 hvr
  have hEpos : (0 : ℚ) < 100 * (c : ℚ) / n := by positivity
  rw [abs_of_pos hEpos] at hfinal
  refine ⟨?_, ?_⟩
  · have hd : F64.div (F64.ofInt c) (F64.ofInt n) = F64.round ((c : ℚ) / n) := by
      have := F64.div_fin (c : ℚ) (n : ℚ) (by positivity) (ne_of_gt hn0)
      simpa [F64.ofInt, hrc, hrn] using this
    rw [hd, hq, F64.mul_fin _ 100 hq0 (by norm_num), hv]
  · refine le_trans hfinal ?_
    apply mul_le_mul_of_nonneg_right _ (le_of_lt hEpos)
    norm_num

/-- The defining property of `rne`: nearest, and even at a tie. -/
theorem rne_char (y : ℚ) :
    |y - rne y| < 1 / 2 ∨ (|y - rne y| = 1 / 2 ∧ rne y % 2 = 0) := by
  have h1 := Int.floor_le y
  have h2 := Int.lt_floor_add_one y
  unfold rne
  split_ifs with ha hb hc
  · left
    rw [abs_lt]
    constructor <;> linarith
  · left
    rw [abs_lt]
    constructor <;> push_cast <;> linarith
  · right
    have he : y - ⌊y⌋ = 1 / 2 := le_antisymm (not_lt.mp hb) (not_lt.mp ha)
    exact ⟨by rw [he]; norm_num, hc⟩
  · right
    have he : y - ⌊y⌋ = 1 / 2 := le_antisymm (not_lt.mp hb) (not_lt.mp ha)
    refine ⟨?_, by omega⟩
    push_cast
    rw [show y - (⌊y⌋ + 1) = (y - ⌊y⌋) - 1 by ring, he]
    norm_num

/-- The property of `rne_char` determines the integer. -/
theorem rne_unique (y : ℚ) (k : ℤ)
    (h : |y - k| < 1 / 2 ∨ (|y - k| = 1 / 2 ∧ k % 2 = 0)) : rne y = k := by
  have hc := rne_char y
  have htri : |((rne y : ℤ) : ℚ) - k| ≤ |y - rne y| + |y - k| := by
    have := abs_add (y - k) (-(y - rne y))
    rw [abs_neg] at this
    have e : y - k + -(y - rne y) = (rne y : ℚ) - k := by ring
    rw [e] at this
    linarith
  by_contra hne
  have hne1 : (1 : ℚ) ≤ |((rne y : ℤ) : ℚ) - k| := by
    have : (1 : ℤ) ≤ |rne y - k| := Int.one_le_abs (sub_ne_zero.mpr hne)
    exact_mod_cast this
  rcases hc with hc | ⟨hc, hce⟩ <;> rcases h with h | ⟨h, he⟩
  · linarith
  · linarith
  · linarith
  · have habs : |rne y - k| = 1 := by
      have h3 : |((rne y : ℤ) : ℚ) - k| ≤ 1 := by linarith
      have h4 : |rne y - k| ≤ 1 := by exact_mod_cast h3
      have h5 : (1 : ℤ) ≤ |rne y - k| := Int.one_le_abs (sub_ne_zero.mpr hne)
      omega
    rcases abs_eq (by norm_num : (0 : ℤ) ≤ 1) |>.mp habs with h6 | h6 <;> omega

theorem rne_neg (y : ℚ) : rne (-y) = -rne y := by
  apply rne_unique
  have e : -y - ((-rne y : ℤ) : ℚ) = -(y - rne y) := by push_cast; ring
  rw [e, abs_neg]
  rcases rne_char y with h | ⟨h, he⟩
  · exact Or.inl h
  · exact Or.inr ⟨h, by omega⟩

theorem roundQ_neg (x : ℚ) : roundQ (-x) = -roundQ x := by
  have hu : ulp (-x) = ulp x := by
    unfold ulp expo
    rw [abs_neg]
  unfold roundQ
  rw [hu, neg_div, rne_neg]
  push_cast
  ring

/-- The product `percentAway * -1` of a `float64` number other than zero is
its negation, exactly. -/
theorem mul_minus_one (p : ℚ) (h0 : p ≠ 0) (hp : roundQ p = p)
    (hfin : |p| < (2 : ℚ) ^ 1024) :
    F64.mul (F64.fin p) (F64.fin (-1)) = F64.fin (-p) := by
  rw [F64.mul_fin p (-1) h0 (by norm_num)]
  have e : p * -1 = -p := by ring
  rw [e]
  have hr : roundQ (-p) = -p := by rw [roundQ_neg, hp]
  rw [F64.round_fin (-p) (by rw [hr]; exact neg_ne_zero.mpr h0)
    (by rw [hr, abs_neg]; exact hfin), hr]

/-- Evaluation of `F64.round` at a given value: `v` is `m * 2 ^ (e - 52)` for
the binade `e` of `x` and the integer `m` nearest to the scaled value. -/
theorem F64.round_val (x v : ℚ) (e m : ℤ) (he : -1022 ≤ e) (h1 : (2 : ℚ) ^ e ≤ |x|)
    (h2 : |x| < (2 : ℚ) ^ (e + 1)) (hm : |x * (2 : ℚ) ^ (52 - e) - m| < 1 / 2)
    (hfin : |(m : ℚ) * (2 : ℚ) ^ (e - 52)| < (2 : ℚ) ^ 1024)
    (hv : v = m * (2 : ℚ) ^ (e - 52)) :
    F64.round x = F64.fin v := by
  rw [hv]
  exact F64.round_eq x e m he h1 h2 hm hfin

/-- `PercentChange` of equal non-zero numbers is zero. -/
theorem PercentChange_same (b : ℚ) (hb : b ≠ 0) :
    (PercentChange (F64.fin b) (F64.fin b)).toQ = 0 ∧
    (PercentChange (F64.fin b) (F64.fin b)).isFinite = true := by
  have h100 : ¬ (100 : ℚ) < 0 := by norm_num
  by_cases h : b < 0 <;>
    simp [PercentChange, F64.sub, F64.div, F64.mul, F64.isNaN, F64.isInf, F64.toQ,
      F64.signBit, F64.signedZero, hb, h, h100, F64.isFinite]

/-- The counting loop of the two statistics adds the number of rows that meet
the test to the counter. -/
theorem foldl_count (c : Result → Bool) : ∀ (l : List Result) (z : Int),
    l.foldl (fun failed row => if c row then failed + 1 else failed) z
      = z + (l.countP c : Nat) := by
  intro l
  induction l with
  | nil => intro z; simp
  | cons r rs ih =>
    intro z
    rw [List.foldl_cons, ih, List.countP_cons]
    by_cases h : c r = true
    · simp [h]; ring
    · simp [h]

/-- The counting loop and the closing expression of `PercentUpStat`. -/
theorem PercentUpStat_eq (results : List Result) (p : F64) :
    PercentUpStat results p =
      F64.mul (F64.div
        (F64.ofInt (results.countP (fun r => F64.gt (PercentChange r.Open r.Close) p) : Nat))
        (F64.ofInt results.length)) (F64.fin 100) := by
  unfold PercentUpStat
  simp only []
  rw [foldl_count (fun r => F64.gt (PercentChange r.Open r.Close) p), zero_add]

/-- The counting loop and the closing expression of `PercentDownStat`. -/
theorem PercentDownStat_eq (results : List Result) (p : F64) :
    PercentDownStat results p =
      F64.mul (F64.div
        (F64.ofInt (results.countP (fun r =>
          F64.lt (PercentChange r.Open r.Close) (F64.mul p (F64.fin (-1)))) : Nat))
        (F64.ofInt results.length)) (F64.fin 100) := by
  unfold PercentDownStat
  simp only []
  rw [foldl_count (fun r => F64.lt (PercentChange r.Open r.Close) (F64.mul p (F64.fin (-1)))),
    zero_add]

/-- The product `percentAway * -1` of a threshold `≥ 0` is a zero, a negative
number or `-Inf`. -/
theorem mul_minus_one_nonpos (p : F64) (hp : F64.le (F64.fin 0) p = true) :
    F64.mul p (F64.fin (-1)) = F64.ninf ∨ F64.mul p (F64.fin (-1)) = F64.nzero ∨
    F64.mul p (F64.fin (-1)) = F64.fin 0 ∨
    ∃ r, F64.mul p (F64.fin (-1)) = F64.fin r ∧ r < 0 := by
  cases p with
  | fin q =>
    have hq : 0 ≤ q := by simpa [F64.le, F64.toQ] using hp
    by_cases hq0 : q = 0
    · subst hq0
      right; left
      simp [F64.mul, F64.isNaN, F64.isInf, F64.toQ, F64.signBit, F64.signedZero]
    · have hpos : 0 < q := lt_of_le_of_ne hq (Ne.symm hq0)
      have hneg : q * -1 < 0 := by linarith
      rw [F64.mul_fin q (-1) hq0 (by norm_num)]
      rcases F64.round_cases (q * -1) with h | h | ⟨h, h0, _⟩
      · left
        rw [h]
        simp [F64.signedInf, hpos]
      · right; left
        rw [h]
        simp [F64.signedZero, hpos]
      · right; right; right
        exact ⟨_, h, lt_of_le_of_ne (roundQ_nonpos (le_of_lt hneg)) h0⟩
  | nzero =>
    right; right; left
    simp [F64.mul, F64.isNaN, F64.isInf, F64.toQ, F64.signBit, F64.signedZero]
  | pinf =>
    left
    simp [F64.mul, F64.isNaN, F64.isInf, F64.toQ, F64.signBit, F64.signedInf]
  | ninf => simp [F64.le] at hp
  | nan => simp [F64.le] at hp

/-- A value above a threshold `≥ 0` is `+Inf` or a positive number. -/
theorem pos_of_gt (x p : F64) (hp : F64.le (F64.fin 0) p = true)
    (hx : F64.gt x p = true) : x = F64.pinf ∨ ∃ a, x = F64.fin a ∧ 0 < a := by
  cases p with
  | fin q =>
    have hq : 0 ≤ q := by simpa [F64.le, F64.toQ] using hp
    cases x with
    | fin a =>
      right
      have : q < a := by simpa [F64.gt, F64.lt, F64.toQ] using hx
      exact ⟨a, rfl, by linarith⟩
    | nzero =>
      have : q < 0 := by simpa [F64.gt, F64.lt, F64.toQ] using hx
      linarith
    | pinf => exact Or.inl rfl
    | ninf => simp [F64.gt, F64.lt] at hx
    | nan => simp [F64.gt, F64.lt] at hx
  | nzero =>
    cases x with
    | fin a =>
      right
      have : 0 < a := by simpa [F64.gt, F64.lt, F64.toQ] using hx
      exact ⟨a, rfl, this⟩
    | nzero => simp [F64.gt, F64.lt, F64.toQ] at hx
    | pinf => exact Or.inl rfl
    | ninf => simp [F64.gt, F64.lt] at hx
    | nan => simp [F64.gt, F64.lt] at hx
  | pinf => cases x <;> simp [F64.gt, F64.lt] at hx
  | ninf => simp [F64.le] at hp
  | nan => simp [F64.le] at hp

theorem not_lt_neg_of_gt (x p : F64) (hp : F64.le (F64.fin 0) p = true)
    (hx : F64.gt x p = true) : F64.lt x (F64.mul p (F64.fin (-1))) = false := by
  rcases pos_of_gt x p hp hx with rfl | ⟨a, rfl, ha⟩ <;>
    rcases mul_minus_one_nonpos p hp with h | h | h | ⟨r, h, hr⟩ <;> rw [h] <;>
    simp [F64.lt, F64.toQ]
  · exact le_of_lt ha
  · exact le_of_lt ha
  · linarith

theorem le_of_lt_zero (p : F64) (hp : F64.lt (F64.fin 0) p = true) :
    F64.le (F64.fin 0) p = true := by
  cases p <;> simp_all [F64.le, F64.lt, F64.toQ]
  exact le_of_lt hp

/-- The quotient `float64(0) / float64(0)` and its product with 100. -/
theorem stat_empty : F64.mul (F64.div (F64.ofInt 0) (F64.ofInt 0)) (F64.fin 100) = F64.nan := by
  simp [F64.ofInt, F64.div, F64.mul, F64.isNaN, F64.isInf, F64.toQ, roundQ_zero]

/-! ## Values of `PercentChange` and of the statistics on the sample data -/

theorem PercentChange_100_110 :
    PercentChange (F64.fin 100) (F64.fin 110) = F64.fin 10 := by
  have hd : F64.round (110 - 100) = F64.fin 10 :=
    F64.round_val (110 - 100)
      10 3 5629499534213120
      (by norm_num) (by norm_num [le_abs]) (by norm_num [abs_lt]) (by norm_num [abs_lt])
      (by norm_num [abs_lt]) (by norm_num)
  have hq : F64.round (10 / 100)
      = F64.fin (3602879701896397 / 36028797018963968) :=
    F64.round_val (10 / 100)
      (3602879701896397 / 36028797018963968) (-4) 7205759403792794
      (by norm_num) (by norm_num [le_abs]) (by norm_num [abs_lt]) (by norm_num [abs_lt])
      (by norm_num [abs_lt]) (by norm_num)
  have hp : F64.round (100 * (3602879701896397 / 36028797018963968))
      = F64.fin 10 :=
    F64.round_val (100 * (3602879701896397 / 36028797018963968))
      10 3 5629499534213120
      (by norm_num) (by norm_num [le_abs]) (by norm_num [abs_lt]) (by norm_num [abs_lt])
      (by norm_num [abs_lt]) (by norm_num)
  rw [PercentChange_fin 100 110 10 (3602879701896397 / 36028797018963968)
    (by norm_num) (by norm_num) hd (by norm_num) hq (by norm_num), hp]

/-- The three roundings of `PercentChange 110 121`. -/
theorem PercentChange_110_121 :
    PercentChange (F64.fin 110) (F64.fin 121) = F64.fin 10 := by
  have hd : F64.round (121 - 110) = F64.fin 11 :=
    F64.round_val (121 - 110)
      11 3 6192449487634432
      (by norm_num) (by norm_num [le_abs]) (by norm_num [abs_lt]) (by norm_num [abs_lt])
      (by norm_num [abs_lt]) (by norm_num)
  have hq : F64.round (11 / 110)
      = F64.fin (3602879701896397 / 36028797018963968) :=
    F64.round_val (11 / 110)
      (3602879701896397 / 36028797018963968) (-4) 7205759403792794
      (by norm_num) (by norm_num [le_abs]) (by norm_num [abs_lt]) (by norm_num [abs_lt])
      (by norm_num [abs_lt]) (by norm_num)
  have hp : F64.round (100 * (3602879701896397 / 36028797018963968))
      = F64.fin 10 :=
    F64.round_val (100 * (3602879701896397 / 36028797018963968))
      10 3 5629499534213120
      (by norm_num) (by norm_num [le_abs]) (by norm_num [abs_lt]) (by norm_num [abs_lt])
      (by norm_num [abs_lt]) (by norm_num)
  rw [PercentChange_fin 110 121 11 (3602879701896397 / 36028797018963968)
    (by norm_num) (by norm_num) hd (by norm_num) hq (by norm_num), hp]

/-- The three roundings of `PercentChange 100 106`. -/
theorem PercentChange_100_106 :
    PercentChange (F64.fin 100) (F64.fin 106) = F64.fin 6 := by
  have hd : F64.round (106 - 100) = F64.fin 6 :=
    F64.round_val (106 - 100)
      6 2 6755399441055744
      (by norm_num) (by norm_num [le_abs]) (by norm_num [abs_lt]) (by norm_num [abs_lt])
      (by norm_num [abs_lt]) (by norm_num)
  have hq : F64.round (6 / 100)
      = F64.fin (1080863910568919 / 18014398509481984) :=
    F64.round_val (6 / 100)
      (1080863910568919 / 18014398509481984) (-5) 8646911284551352
      (by norm_num) (by norm_num [le_abs]) (by norm_num [abs_lt]) (by norm_num [abs_lt])
      (by norm_num [abs_lt]) (by norm_num)
  have hp : F64.round (100 * (1080863910568919 / 18014398509481984))
      = F64.fin 6 :=
    F64.round_val (100 * (1080863910568919 / 18014398509481984))
      6 2 6755399441055744
      (by norm_num) (by norm_num [le_abs]) (by norm_num [abs_lt]) (by norm_num [abs_lt])
      (by norm_num [abs_lt]) (by norm_num)
  rw [PercentChange_fin 100 106 6 (1080863910568919 / 18014398509481984)
    (by norm_num) (by norm_num) hd (by norm_num) hq (by norm_num), hp]

/-- The three roundings of `PercentChange 100 95`. -/
theorem PercentChange_100_95 :
    PercentChange (F64.fin 100) (F64.fin 95) = F64.fin (-5) := by
  have hd : F64.round (95 - 100) = F64.fin (-5) :=
    F64.round_val (95 - 100)
      (-5) 2 (-5629499534213120)
      (by norm_num) (by norm_num [le_abs]) (by norm_num [abs_lt]) (by norm_num [abs_lt])
      (by norm_num [abs_lt]) (by norm_num)
  have hq : F64.round ((-5) / 100)
      = F64.fin (-3602879701896397 / 72057594037927936) :=
    F64.round_val ((-5) / 100)
      (-3602879701896397 / 72057594037927936) (-5) (-7205759403792794)
      (by norm_num) (by norm_num [le_abs]) (by norm_num [abs_lt]) (by norm_num [abs_lt])
      (by norm_num [abs_lt]) (by norm_num)
  have hp : F64.round (100 * (-3602879701896397 / 72057594037927936))
      = F64.fin (-5) :=
    F64.round_val (100 * (-3602879701896397 / 72057594037927936))
      (-5) 2 (-5629499534213120)
      (by norm_num) (by norm_num [le_abs]) (by norm_num [abs_lt]) (by norm_num [abs_lt])
      (by norm_num [abs_lt]) (by norm_num)
  rw [PercentChange_fin 100 95 (-5) (-3602879701896397 / 72057594037927936)
    (by norm_num) (by norm_num) hd (by norm_num) hq (by norm_num), hp]

/-- The three roundings of `PercentChange 50 60`. -/
theorem PercentChange_50_60 :
    PercentChange (F64.fin 50) (F64.fin 60) = F64.fin 20 := by
  have hd : F64.round (60 - 50) = F64.fin 10 :=
    F64.round_val (60 - 50)
      10 3 5629499534213120
      (by norm_num) (by norm_num [le_abs]) (by norm_num [abs_lt]) (by norm_num [abs_lt])
      (by norm_num [abs_lt]) (by norm_num)
  have hq : F64.round (10 / 50)
      = F64.fin (3602879701896397 / 18014398509481984) :=
    F64.round_val (10 / 50)
      (3602879701896397 / 18014398509481984) (-3) 7205759403792794
      (by norm_num) (by norm_num [le_abs]) (by norm_num [abs_lt]) (by norm_num [abs_lt])
      (by norm_num [abs_lt]) (by norm_num)
  have hp : F64.round (100 * (3602879701896397 / 18014398509481984))
      = F64.fin 20 :=
    F64.round_val (100 * (3602879701896397 / 18014398509481984))
      20 4 5629499534213120
      (by norm_num) (by norm_num [le_abs]) (by norm_num [abs_lt]) (by norm_num [abs_lt])
      (by norm_num [abs_lt]) (by norm_num)
  rw [PercentChange_fin 50 60 10 (3602879701896397 / 18014398509481984)
    (by norm_num) (by norm_num) hd (by norm_num) hq (by norm_num), hp]

/-- The three roundings of `PercentChange 60 50`. -/
theorem PercentChange_60_50 :
    PercentChange (F64.fin 60) (F64.fin 50) = F64.fin (-2345624805922133 / 140737488355328) := by
  have hd : F64.round (50 - 60) = F64.fin (-10) :=
    F64.round_val (50 - 60)
      (-10) 3 (-5629499534213120)
      (by norm_num) (by norm_num [le_abs]) (by norm_num [abs_lt]) (by norm_num [abs_lt])
      (by norm_num [abs_lt]) (by norm_num)
  have hq : F64.round ((-10) / 60)
      = F64.fin (-6004799503160661 / 36028797018963968) :=
    F64.round_val ((-10) / 60)
      (-6004799503160661 / 36028797018963968) (-3) (-6004799503160661)
      (by norm_num) (by norm_num [le_abs]) (by norm_num [abs_lt]) (by norm_num [abs_lt])
      (by norm_num [abs_lt]) (by norm_num)
  have hp : F64.round (100 * (-6004799503160661 / 36028797018963968))
      = F64.fin (-2345624805922133 / 140737488355328) :=
    F64.round_val (100 * (-6004799503160661 / 36028797018963968))
      (-2345624805922133 / 140737488355328) 4 (-4691249611844266)
      (by norm_num) (by norm_num [le_abs]) (by norm_num [abs_lt]) (by norm_num [abs_lt])
      (by norm_num [abs_lt]) (by norm_num)
  rw [PercentChange_fin 60 50 (-10) (-6004799503160661 / 36028797018963968)
    (by norm_num) (by norm_num) hd (by norm_num) hq (by norm_num), hp]

/-- The three roundings of `PercentChange 20 60`. -/
theorem PercentChange_20_60 :
    PercentChange (F64.fin 20) (F64.fin 60) = F64.fin 200 := by
  have hd : F64.round (60 - 20) = F64.fin 40 :=
    F64.round_val (60 - 20)
      40 5 5629499534213120
      (by norm_num) (by norm_num [le_abs]) (by norm_num [abs_lt]) (by norm_num [abs_lt])
      (by norm_num [abs_lt]) (by norm_num)
  have hq : F64.round (40 / 20)
      = F64.fin 2 :=
    F64.round_val (40 / 20)
      2 1 4503599627370496
      (by norm_num) (by norm_num [le_abs]) (by norm_num [abs_lt]) (by norm_num [abs_lt])
      (by norm_num [abs_lt]) (by norm_num)
  have hp : F64.round (100 * 2)
      = F64.fin 200 :=
    F64.round_val (100 * 2)
      200 7 7036874417766400
      (by norm_num) (by norm_num [le_abs]) (by norm_num [abs_lt]) (by norm_num [abs_lt])
      (by norm_num [abs_lt]) (by norm_num)
  rw [PercentChange_fin 20 60 40 2
    (by norm_num) (by norm_num) hd (by norm_num) hq (by norm_num), hp]

/-- The three roundings of `PercentChange 100 107`. -/
theorem PercentChange_100_107 :
    PercentChange (F64.fin 100) (F64.fin 107) = F64.fin (7881299347898369 / 1125899906842624) := by
  have hd : F64.round (107 - 100) = F64.fin 7 :=
    F64.round_val (107 - 100)
      7 2 7881299347898368
      (by norm_num) (by norm_num [le_abs]) (by norm_num [abs_lt]) (by norm_num [abs_lt])
      (by norm_num [abs_lt]) (by norm_num)
  have hq : F64.round (7 / 100)
      = F64.fin (1261007895663739 / 18014398509481984) :=
    F64.round_val (7 / 100)
      (1261007895663739 / 18014398509481984) (-4) 5044031582654956
      (by norm_num) (by norm_num [le_abs]) (by norm_num [abs_lt]) (by norm_num [abs_lt])
      (by norm_num [abs_lt]) (by norm_num)
  have hp : F64.round (100 * (1261007895663739 / 18014398509481984))
      = F64.fin (7881299347898369 / 1125899906842624) :=
    F64.round_val (100 * (1261007895663739 / 18014398509481984))
      (7881299347898369 / 1125899906842624) 2 7881299347898369
      (by norm_num) (by norm_num [le_abs]) (by norm_num [abs_lt]) (by norm_num [abs_lt])
      (by norm_num [abs_lt]) (by norm_num)
  rw [PercentChange_fin 100 107 7 (1261007895663739 / 18014398509481984)
    (by norm_num) (by norm_num) hd (by norm_num) hq (by norm_num), hp]

/-- The two roundings of the statistic for 1 rows counted of 3. -/
theorem stat_1_3 :
    F64.mul (F64.div (F64.ofInt (1 : ℕ)) (F64.ofInt (3 : ℕ))) (F64.fin 100)
      = F64.fin (2345624805922133 / 70368744177664) := by
  have hc : roundQ (1 : ℚ) = 1 := by
    simpa using roundQ_natCast 1 (by norm_num)
  have hn : roundQ (3 : ℚ) = 3 := by
    simpa using roundQ_natCast 3 (by norm_num)
  have hq : F64.round (1 / 3) = F64.fin (6004799503160661 / 18014398509481984) :=
    F64.round_val (1 / 3)
      (6004799503160661 / 18014398509481984) (-2) 6004799503160661
      (by norm_num) (by norm_num [le_abs]) (by norm_num [abs_lt]) (by norm_num [abs_lt])
      (by norm_num [abs_lt]) (by norm_num)
  have hv : F64.round ((6004799503160661 / 18014398509481984) * 100)
      = F64.fin (2345624805922133 / 70368744177664) :=
    F64.round_val ((6004799503160661 / 18014398509481984) * 100)
      (2345624805922133 / 70368744177664) 5 4691249611844266
      (by norm_num) (by norm_num [le_abs]) (by norm_num [abs_lt]) (by norm_num [abs_lt])
      (by norm_num [abs_lt]) (by norm_num)
  have hd : F64.div (F64.ofInt (1 : ℕ)) (F64.ofInt (3 : ℕ))
      = F64.fin (6004799503160661 / 18014398509481984) := by
    have := F64.div_fin 1 3 (by norm_num) (by norm_num)
    rw [hq] at this
    simpa [F64.ofInt, hc, hn] using this
  rw [hd, F64.mul_fin _ 100 (by norm_num) (by norm_num), hv]

/-- The two roundings of the statistic for 2 rows counted of 11. -/
theorem stat_2_11 :
    F64.mul (F64.div (F64.ofInt (2 : ℕ)) (F64.ofInt (11 : ℕ))) (F64.fin 100)
      = F64.fin (5117726849284655 / 281474976710656) := by
  have hc : roundQ (2 : ℚ) = 2 := by
    simpa using roundQ_natCast 2 (by norm_num)
  have hn : roundQ (11 : ℚ) = 11 := by
    simpa using roundQ_natCast 11 (by norm_num)
  have hq : F64.round (2 / 11) = F64.fin (3275345183542179 / 18014398509481984) :=
    F64.round_val (2 / 11)
      (3275345183542179 / 18014398509481984) (-3) 6550690367084358
      (by norm_num) (by norm_num [le_abs]) (by norm_num [abs_lt]) (by norm_num [abs_lt])
      (by norm_num [abs_lt]) (by norm_num)
  have hv : F64.round ((3275345183542179 / 18014398509481984) * 100)
      = F64.fin (5117726849284655 / 281474976710656) :=
    F64.round_val ((3275345183542179 / 18014398509481984) * 100)
      (5117726849284655 / 281474976710656) 4 5117726849284655
      (by norm_num) (by norm_num [le_abs]) (by norm_num [abs_lt]) (by norm_num [abs_lt])
      (by norm_num [abs_lt]) (by norm_num)
  have hd : F64.div (F64.ofInt (2 : ℕ)) (F64.ofInt (11 : ℕ))
      = F64.fin (3275345183542179 / 18014398509481984) := by
    have := F64.div_fin 2 11 (by norm_num) (by norm_num)
    rw [hq] at this
    simpa [F64.ofInt, hc, hn] using this
  rw [hd, F64.mul_fin _ 100 (by norm_num) (by norm_num), hv]

/-- The two roundings of the statistic for 9 rows counted of 11. -/
theorem stat_9_11 :
    F64.mul (F64.div (F64.ofInt (9 : ℕ)) (F64.ofInt (11 : ℕ))) (F64.fin 100)
      = F64.fin (5757442705445237 / 70368744177664) := by
  have hc : roundQ (9 : ℚ) = 9 := by
    simpa using roundQ_natCast 9 (by norm_num)
  have hn : roundQ (11 : ℚ) = 11 := by
    simpa using roundQ_natCast 11 (by norm_num)
  have hq : F64.round (9 / 11) = F64.fin (7369526662969903 / 9007199254740992) :=
    F64.round_val (9 / 11)
      (7369526662969903 / 9007199254740992) (-1) 7369526662969903
      (by norm_num) (by norm_num [le_abs]) (by norm_num [abs_lt]) (by norm_num [abs_lt])
      (by norm_num [abs_lt]) (by norm_num)
  have hv : F64.round ((7369526662969903 / 9007199254740992) * 100)
      = F64.fin (5757442705445237 / 70368744177664) :=
    F64.round_val ((7369526662969903 / 9007199254740992) * 100)
      (5757442705445237 / 70368744177664) 6 5757442705445237
      (by norm_num) (by norm_num [le_abs]) (by norm_num [abs_lt]) (by norm_num [abs_lt])
      (by norm_num [abs_lt]) (by norm_num)
  have hd : F64.div (F64.ofInt (9 : ℕ)) (F64.ofInt (11 : ℕ))
      = F64.fin (7369526662969903 / 9007199254740992) := by
    have := F64.div_fin 9 11 (by norm_num) (by norm_num)
    rw [hq] at this
    simpa [F64.ofInt, hc, hn] using this
  rw [hd, F64.mul_fin _ 100 (by norm_num) (by norm_num), hv]

theorem PercentChange_100_100 :
    PercentChange (F64.fin 100) (F64.fin 100) = F64.fin 0 := by
  have h100 : ¬ (100 : ℚ) < 0 := by norm_num
  simp [PercentChange, F64.sub, F64.div, F64.mul, F64.isNaN, F64.isInf, F64.toQ,
    F64.signBit, F64.signedZero, h100]

/-- The threshold 4.5 times `-1`. -/
theorem minus_threshold : F64.mul (F64.fin (9 / 2)) (F64.fin (-1)) = F64.fin (-9 / 2) := by
  rw [F64.mul_fin (9 / 2) (-1) (by norm_num) (by norm_num)]
  exact F64.round_val (9 / 2 * -1) (-9 / 2) 2 (-5066549580791808) (by norm_num)
    (by norm_num [le_abs]) (by norm_num [abs_lt]) (by norm_num [abs_lt])
    (by norm_num [abs_lt]) (by norm_num)

theorem sample_up_count :
    sampleResults.countP (fun r => F64.gt (PercentChange r.Open r.Close) (F64.fin (9 / 2)))
      = 1 := by
  simp [sampleResults, List.countP_cons, PercentChange_100_106, PercentChange_100_95,
    PercentChange_100_100, F64.gt, F64.lt, F64.toQ]
  norm_num

theorem sample_down_count :
    sampleResults.countP (fun r =>
      F64.lt (PercentChange r.Open r.Close) (F64.mul (F64.fin (9 / 2)) (F64.fin (-1)))) = 1 := by
  simp [sampleResults, List.countP_cons, PercentChange_100_106, PercentChange_100_95,
    PercentChange_100_100, minus_threshold, F64.lt, F64.toQ]
  norm_num

theorem eleven_up_count :
    elevenResults.countP (fun r => F64.gt (PercentChange r.Open r.Close) (F64.fin (9 / 2)))
      = 2 := by
  simp [elevenResults, List.replicate, List.countP_cons, PercentChange_100_110,
    PercentChange_100_95, F64.gt, F64.lt, F64.toQ]
  norm_num

theorem eleven_down_count :
    elevenResults.countP (fun r =>
      F64.lt (PercentChange r.Open r.Close) (F64.mul (F64.fin (9 / 2)) (F64.fin (-1)))) = 9 := by
  simp [elevenResults, List.replicate, List.countP_cons, PercentChange_100_110,
    PercentChange_100_95, minus_threshold, F64.lt, F64.toQ]
  norm_num

/-- The closing expression of the two statistics on at most `2^53` rows, in
full. -/
theorem stat_summary (c n : ℕ) (hc : c ≤ n) (hn : n ≠ 0) (hlen : n ≤ 2 ^ 53) :
    ∃ v : ℚ, F64.mul (F64.div (F64.ofInt c) (F64.ofInt n)) (F64.fin 100) = F64.fin v ∧
      v = roundQ (roundQ ((c : ℚ) / n) * 100) ∧ 0 ≤ v ∧ v ≤ 100 ∧
      |v - 100 * (c : ℚ) / n| ≤ (2 : ℚ) ^ (-51 : ℤ) * (100 * (c : ℚ) / n) ∧
      (c = 0 → v = 0) ∧ (c = n → v = 100) := by
  obtain ⟨hv, hb⟩ := stat_rel c n hc hn hlen
  obtain ⟨w, hw, hw0, hw1⟩ := stat_range c n hc hn
  have hvw : roundQ (roundQ ((c : ℚ) / n) * 100) = w := by
    rw [hv] at hw
    injection hw
  refine ⟨_, hv, rfl, by rw [hvw]; exact hw0, by rw [hvw]; exact hw1, hb, ?_, ?_⟩
  · intro h0
    subst h0
    have := stat_zero n hn
    rw [hv] at this
    injection this
  · intro h1
    subst h1
    have := stat_full c hn
    rw [hv] at this
    injection this

/-- Two values within the relative error `2^-51` of two numbers whose sum is
at most 100. -/
theorem sum_le_of_rel (u d A B : ℚ) (h1 : u - A ≤ (2 : ℚ) ^ (-51 : ℤ) * A)
    (h2 : d - B ≤ (2 : ℚ) ^ (-51 : ℤ) * B) (h3 : A + B ≤ 100) :
    u + d ≤ 100 * (1 + (2 : ℚ) ^ (-51 : ℤ)) := by
  have h4 : (0 : ℚ) ≤ 1 + (2 : ℚ) ^ (-51 : ℤ) := by positivity
  have h5 := mul_le_mul_of_nonneg_left h3 h4
  linarith

/-! ## Lemmas on the time model -/

theorem Time.Add_Unix (t : Time) (ht : t.nsec = 0) (d : Int) :
    (t.Add d).Unix = t.Unix + d / 1000000000 := by
  have h1 := Int.tmod_def d 1000000000
  unfold Time.Add Time.Unix
  rcases le_or_lt 0 d with hd | hd
  · have h2 := Int.tdiv_eq_ediv hd (by norm_num : (0:Int) ≤ 1000000000)
    simp only [ht, h1, h2]
    split_ifs <;> simp <;> omega
  · have h2 : Int.tdiv d 1000000000 = -((-d) / 1000000000) := by
      rw [← Int.tdiv_eq_ediv (by omega) (by norm_num), Int.neg_tdiv, neg_neg]
    simp only [ht, h1, h2]
    split_ifs <;> simp <;> omega

theorem timeParse_nsec {s : String} {t : Time} (h : timeParse s = some t) : t.nsec = 0 := by
  unfold timeParse at h
  split at h
  · split at h
    · dsimp only at h
      split at h
      · cases h; rfl
      · cases h
    · cases h
  · cases h

theorem outDuration_eq (d : Int) (h0 : 0 ≤ d) (h1 : Hour * 24 * d < 2 ^ 63) :
    outDuration d = 86400000000000 * d := by
  unfold Hour at h1
  unfold outDuration wrapInt64 Hour
  omega

/-- The product `time.Hour * 24 * daysOut` stays within `int64` exactly up to
`daysOut = 106751`. -/
theorem noOverflow_iff (d : Int) : Hour * 24 * d < 2 ^ 63 ↔ d ≤ 106751 := by
  unfold Hour
  constructor <;> intro h <;> omega

/-- Without overflow the target date is `daysOut` whole days after the start. -/
theorem outDate_Unix {s : String} {now : Time} (hp : timeParse s = some now) (d : Int)
    (h0 : 0 ≤ d) (h1 : Hour * 24 * d < 2 ^ 63) :
    (now.Add (outDuration d)).Unix = now.Unix + 86400 * d := by
  rw [Time.Add_Unix now (timeParse_nsec hp), outDuration_eq d h0 h1]
  omega

/-! ## Lemmas on the loop of `FindEndDate` -/

theorem index?_natCast (quotes : List Quote) (n : Nat) :
    index? quotes (n : Int) = quotes[n]? := by
  simp [index?]

theorem dateAt_eq_some {quotes : List Quote} {k : Nat} {t : Int}
    (h : dateAt quotes k = some t) :
    ∃ q tm, quotes[k]? = some q ∧ timeParse q.Date = some tm ∧ tm.Unix = t := by
  unfold dateAt unixOf at h
  cases hq : quotes[k]? with
  | none => simp [hq] at h
  | some q =>
    cases hp : timeParse q.Date with
    | none => simp [hq, hp] at h
    | some tm =>
      simp [hq, hp] at h
      exact ⟨q, tm, rfl, hp, h⟩

/-- The scan from `n` stops at the first position `n + m` whose date is past
the target and returns the quote just before it. -/
theorem findLoop_hit (quotes : List Quote) (outDate : Time) :
    ∀ (m n fuel : Nat), m < fuel → n + m < quotes.length →
      (∀ k, n ≤ k → k < n + m → ∃ t, dateAt quotes k = some t ∧ t ≤ outDate.Unix) →
      (∃ t, dateAt quotes (n + m) = some t ∧ outDate.Unix < t) →
      findLoop quotes outDate fuel n =
        match index? quotes (((n + m : Nat) : Int) - 1) with
        | some p => Outcome.ret p none
        | none => Outcome.panicked Failure.indexOutOfRange := by
  intro m
  induction m with
  | zero =>
    intro n fuel hf hlen _ hcross
    obtain ⟨t, ht, hlt⟩ := hcross
    obtain ⟨q, tm, hq, hp, hu⟩ := dateAt_eq_some ht
    obtain ⟨f, rfl⟩ : ∃ f, fuel = f + 1 := ⟨fuel - 1, by omega⟩
    have hnl : ¬ ((n : Int) + 1 > (quotes.length : Int)) := by omega
    simp only [Nat.add_zero] at hq hlt ⊢
    rw [findLoop, if_neg hnl, index?_natCast, hq]
    simp only [hp]
    rw [if_pos (by omega)]
    cases index? quotes ((n : Int) - 1) <;> rfl
  | succ m ih =>
    intro n fuel hf hlen hbelow hcross
    obtain ⟨t, ht, hle⟩ := hbelow n (le_refl n) (by omega)
    obtain ⟨q, tm, hq, hp, hu⟩ := dateAt_eq_some ht
    obtain ⟨f, rfl⟩ : ∃ f, fuel = f + 1 := ⟨fuel - 1, by omega⟩
    have hnl : ¬ ((n : Int) + 1 > (quotes.length : Int)) := by omega
    rw [findLoop, if_neg hnl, index?_natCast, hq]
    simp only [hp]
    rw [if_neg (by omega)]
    have hcast : ((n : Int) + 1) = ((n + 1 : Nat) : Int) := by push_cast; rfl
    have hsum : n + (m + 1) = n + 1 + m := by omega
    rw [hcast, hsum]
    apply ih (n + 1) f (by omega) (by omega)
    · intro k hk1 hk2
      exact hbelow k (by omega) (by omega)
    · rw [← hsum]; exact hcross

/-- The scan from `n` runs off the end when no date from `n` on is past the
target. -/
theorem findLoop_end (quotes : List Quote) (outDate : Time) :
    ∀ (m n fuel : Nat), m < fuel → n + m = quotes.length →
      (∀ k, n ≤ k → k < quotes.length → ∃ t, dateAt quotes k = some t ∧ t ≤ outDate.Unix) →
      findLoop quotes outDate fuel n = hitEnd := by
  intro m
  induction m with
  | zero =>
    intro n fuel hf hlen _
    obtain ⟨f, rfl⟩ : ∃ f, fuel = f + 1 := ⟨fuel - 1, by omega⟩
    rw [findLoop, if_pos (by omega)]
    rfl
  | succ m ih =>
    intro n fuel hf hlen hbelow
    obtain ⟨t, ht, hle⟩ := hbelow n (le_refl n) (by omega)
    obtain ⟨q, tm, hq, hp, hu⟩ := dateAt_eq_some ht
    obtain ⟨f, rfl⟩ : ∃ f, fuel = f + 1 := ⟨fuel - 1, by omega⟩
    have hnl : ¬ ((n : Int) + 1 > (quotes.length : Int)) := by omega
    rw [findLoop, if_neg hnl, index?_natCast, hq]
    simp only [hp]
    rw [if_neg (by omega)]
    have hcast : ((n : Int) + 1) = ((n + 1 : Nat) : Int) := by push_cast; rfl
    rw [hcast]
    apply ih (n + 1) f (by omega) (by omega)
    intro k hk1 hk2
    exact hbelow k (by omega) hk2

/-- The loop is never cut off when it is given more iterations than there are
positions from `index` to the end of the slice. -/
theorem findLoop_fuel (quotes : List Quote) (outDate : Time) :
    ∀ (fuel : Nat) (index : Int), 0 < fuel → (quotes.length : Int) - index < fuel →
      findLoop quotes outDate fuel index ≠ Outcome.outOfFuel := by
  intro fuel
  induction fuel with
  | zero => intro index h; omega
  | succ f ih =>
    intro index _ hlen
    rw [findLoop]
    split_ifs with h1
    · simp
    · split
      · simp
      · split
        · simp
        · split_ifs with h2
          · split <;> simp
          · exact ih (index + 1) (by omega) (by push_cast at hlen ⊢; omega)

/-- Every call of `FindEndDate` ends by a return or by a run-time failure: the
iterations given to the loop are enough. -/
theorem FindEndDate_ne_outOfFuel (quotes : List Quote) (index daysOut : Int) :
    FindEndDate quotes index daysOut ≠ Outcome.outOfFuel := by
  unfold FindEndDate
  split
  · simp
  · next q hq =>
    split
    · simp
    · next now hnow =>
      apply findLoop_fuel quotes _ (quotes.length + 1) index (by omega)
      have h0 : ¬ index < 0 := by
        intro hneg
        simp [index?, hneg] at hq
      push_cast
      omega

/-- With a duration that does not overflow, `FindEndDate` returns the quote
just before the first position after `i` whose date is past the window. -/
theorem FindEndDate_hit (quotes : List Quote) (i j : Nat) (daysOut a : Int)
    (hij : i < j) (hj : j < quotes.length)
    (h0 : 0 ≤ daysOut) (hov : Hour * 24 * daysOut < 2 ^ 63)
    (ha : dateAt quotes i = some a)
    (hbelow : ∀ k, i < k → k < j → ∃ t, dateAt quotes k = some t ∧ t ≤ a + 86400 * daysOut)
    (hcross : ∃ t, dateAt quotes j = some t ∧ a + 86400 * daysOut < t) :
    ∃ q, quotes[j - 1]? = some q ∧ FindEndDate quotes i daysOut = Outcome.ret q none := by
  obtain ⟨q0, now, hq0, hp0, hu0⟩ := dateAt_eq_some ha
  have hT := outDate_Unix hp0 daysOut h0 hov
  have hjm : j - 1 < quotes.length := by omega
  refine ⟨quotes[j - 1], List.getElem?_eq_getElem hjm, ?_⟩
  unfold FindEndDate
  rw [index?_natCast, hq0]
  simp only [hp0]
  have hji : i + (j - i) = j := by omega
  have key := findLoop_hit quotes (now.Add (outDuration daysOut)) (j - i) i
    (quotes.length + 1) (by omega) (by omega)
    (by
      intro k hk1 hk2
      rcases Nat.eq_or_lt_of_le hk1 with rfl | hlt
      · exact ⟨a, ha, by omega⟩
      · obtain ⟨t, ht, hle⟩ := hbelow k hlt (by omega)
        exact ⟨t, ht, by omega⟩)
    (by
      obtain ⟨t, ht, hlt⟩ := hcross
      exact ⟨t, by rw [hji]; exact ht, by omega⟩)
  rw [key, hji]
  have hcast : ((j : Nat) : Int) - 1 = ((j - 1 : Nat) : Int) := by omega
  rw [hcast, index?_natCast, List.getElem?_eq_getElem hjm]

/-- With a duration that does not overflow, `FindEndDate` returns the error
when no date after `i` is past the window. -/
theorem FindEndDate_end (quotes : List Quote) (i : Nat) (daysOut a : Int)
    (hi : i < quotes.length)
    (h0 : 0 ≤ daysOut) (hov : Hour * 24 * daysOut < 2 ^ 63)
    (ha : dateAt quotes i = some a)
    (hbelow : ∀ k, i < k → k < quotes.length →
      ∃ t, dateAt quotes k = some t ∧ t ≤ a + 86400 * daysOut) :
    FindEndDate quotes i daysOut = hitEnd := by
  obtain ⟨q0, now, hq0, hp0, hu0⟩ := dateAt_eq_some ha
  have hT := outDate_Unix hp0 daysOut h0 hov
  unfold FindEndDate
  rw [index?_natCast, hq0]
  simp only [hp0]
  apply findLoop_end quotes _ (quotes.length - i) i (quotes.length + 1) (by omega) (by omega)
  intro k hk1 hk2
  rcases Nat.eq_or_lt_of_le hk1 with rfl | hlt
  · exact ⟨a, ha, by omega⟩
  · obtain ⟨t, ht, hle⟩ := hbelow k hlt hk2
    exact ⟨t, ht, by omega⟩

/-! ## Lemmas on dates and sortedness -/

theorem dates_getElem (quotes : List Quote) (k : Nat) (hk : k < (dates quotes).length) :
    (dates quotes)[k] = dateOf quotes k := by
  have hk2 : k < quotes.length := by simpa [dates] using hk
  simp [dateOf, dateAt, dates, List.getElem?_eq_getElem hk2]

theorem dateAt_of_parseable {quotes : List Quote} (hp : Parseable quotes) {k : Nat}
    (hk : k < quotes.length) : dateAt quotes k = some (dateOf quotes k) := by
  have hmem : quotes[k] ∈ quotes := List.getElem_mem hk
  have hsome := hp _ hmem
  obtain ⟨t, ht⟩ := Option.isSome_iff_exists.mp hsome
  simp [dateOf, dateAt, unixOf, List.getElem?_eq_getElem hk, ht]

theorem dateOf_le_of_ascending {quotes : List Quote} (hs : Ascending quotes) {a b : Nat}
    (hab : a ≤ b) (hb : b < quotes.length) : dateOf quotes a ≤ dateOf quotes b := by
  rcases Nat.eq_or_lt_of_le hab with rfl | hlt
  · exact le_refl _
  · have hlen : (dates quotes).length = quotes.length := by simp [dates]
    have ha2 : a < (dates quotes).length := by omega
    have hb2 : b < (dates quotes).length := by omega
    rw [← dates_getElem quotes a ha2, ← dates_getElem quotes b hb2]
    exact (List.pairwise_iff_getElem.mp hs) a b ha2 hb2 hlt

theorem ascending_of_strictly {quotes : List Quote} (hs : StrictlyAscending quotes) :
    Ascending quotes :=
  List.Pairwise.imp (fun h => le_of_lt h) hs

theorem hitEnd_ne_ret (q : Quote) : hitEnd ≠ Outcome.ret q none := by
  intro h
  simp [hitEnd] at h

/-- Either the scan meets a first quote past the window and returns the quote
just before it, or no later quote is past the window and the error is
returned. -/
theorem FindEndDate_cases (quotes : List Quote) (i : Nat) (daysOut : Int)
    (hp : Parseable quotes) (hi : i < quotes.length)
    (h0 : 0 ≤ daysOut) (hov : Hour * 24 * daysOut < 2 ^ 63) :
    (∃ j, i < j ∧ j < quotes.length ∧
        dateOf quotes i + 86400 * daysOut < dateOf quotes j ∧
        (∀ k, i < k → k < j → dateOf quotes k ≤ dateOf quotes i + 86400 * daysOut) ∧
        ∃ q, quotes[j - 1]? = some q ∧ FindEndDate quotes i daysOut = Outcome.ret q none) ∨
    ((∀ k, i < k → k < quotes.length →
        dateOf quotes k ≤ dateOf quotes i + 86400 * daysOut) ∧
      FindEndDate quotes i daysOut = hitEnd) := by
  by_cases hex : ∃ j, i < j ∧ j < quotes.length ∧
      dateOf quotes i + 86400 * daysOut < dateOf quotes j
  · left
    classical
    have hj := Nat.find_spec hex
    have hmin := fun k => @Nat.find_min _ _ hex k
    refine ⟨Nat.find hex, hj.1, hj.2.1, hj.2.2, ?_, ?_⟩
    · intro k hk1 hk2
      by_contra hcon
      exact hmin k hk2 ⟨hk1, by omega, by omega⟩
    · apply FindEndDate_hit quotes i (Nat.find hex) daysOut (dateOf quotes i) hj.1 hj.2.1 h0 hov
        (dateAt_of_parseable hp hi)
      · intro k hk1 hk2
        refine ⟨dateOf quotes k, dateAt_of_parseable hp (by omega), ?_⟩
        by_contra hcon
        exact hmin k hk2 ⟨hk1, by omega, by omega⟩
      · exact ⟨_, dateAt_of_parseable hp hj.2.1, hj.2.2⟩
  · right
    have hall : ∀ k, i < k → k < quotes.length →
        dateOf quotes k ≤ dateOf quotes i + 86400 * daysOut := by
      intro k hk1 hk2
      by_contra hcon
      exact hex ⟨k, hk1, hk2, by omega⟩
    refine ⟨hall, ?_⟩
    apply FindEndDate_end quotes i daysOut (dateOf quotes i) hi h0 hov (dateAt_of_parseable hp hi)
    intro k hk1 hk2
    exact ⟨_, dateAt_of_parseable hp hk2, hall k hk1 hk2⟩

/-! ## Lemmas on the loop of `main` and on the statistics -/

theorem mainLoopFrom_eq (quotes : List Quote) (daysOut : Int) :
    ∀ (rest : List Quote) (k : Nat) (acc : List Result),
      (∀ idx, idx < rest.length → quotes[k + idx]? = rest[idx]?) →
      mainLoopFrom quotes daysOut rest (k : Int) acc =
        if (List.range' k rest.length).all (fun i => (FindEndDate quotes i daysOut).returns)
        then some (acc ++ (List.range' k rest.length).filterMap (resultFor quotes daysOut))
        else none := by
  intro rest
  induction rest with
  | nil => intro k acc _; simp [mainLoopFrom]
  | cons row rest ih =>
    intro k acc hq
    have hrow : quotes[k]? = some row := by
      have := hq 0 (by simp)
      simpa using this
    have hrest : ∀ idx, idx < rest.length → quotes[k + 1 + idx]? = rest[idx]? := by
      intro idx hidx
      have := hq (idx + 1) (by simp; omega)
      rw [show k + 1 + idx = k + (idx + 1) by omega, this]
      simp
    have hcast : ((k : Int) + 1) = ((k + 1 : Nat) : Int) := by push_cast; rfl
    simp only [mainLoopFrom, List.length_cons, List.range'_succ, List.all_cons,
      List.filterMap_cons]
    cases hF : FindEndDate quotes (k : Int) daysOut with
    | ret e err =>
      have hret : (Outcome.ret e err).returns = true := rfl
      cases err with
      | none =>
        have hbody : loopBody quotes daysOut (k : Int) row acc =
            some (acc ++ [Result.mk row.Date e.Date row.Close e.Close
              (F64.sub e.Close row.Close)]) := by
          simp only [loopBody, hF]
        have hres : resultFor quotes daysOut k =
            some (Result.mk row.Date e.Date row.Close e.Close
              (F64.sub e.Close row.Close)) := by
          simp only [resultFor, hrow, hF]
        simp only [hret, hbody, hres, Bool.true_and]
        rw [hcast, ih (k + 1) _ hrest]
        simp
      | some msg =>
        have hbody : loopBody quotes daysOut (k : Int) row acc = some acc := by
          simp only [loopBody, hF]
        have hres : resultFor quotes daysOut k = none := by
          simp only [resultFor, hrow, hF]
        simp only [hret, hbody, hres, Bool.true_and]
        rw [hcast, ih (k + 1) _ hrest]
    | panicked why =>
      have hret : (Outcome.panicked why).returns = false := rfl
      have hbody : loopBody quotes daysOut (k : Int) row acc = none := by
        simp only [loopBody, hF]
      simp [hret, hbody]
    | outOfFuel =>
      have hret : Outcome.outOfFuel.returns = false := rfl
      have hbody : loopBody quotes daysOut (k : Int) row acc = none := by
        simp only [loopBody, hF]
      simp [hret, hbody]

/-! ## The claims -/

/-- C1. For a quote sequence with parseable dates sorted strictly ascending by
date, a valid start index `i` and a `daysOut ≥ 0` whose duration does not
overflow: when `FindEndDate quotes i daysOut` returns a quote `q`, that quote
stands at the greatest position `k ≥ i` whose date is at most the date of
`quotes[i]` plus `daysOut` days: it is the latest quote within the window. -/
theorem C1_FindEndDate_latest_in_window (quotes : List Quote) (i : Nat) (daysOut : Int)
    (q : Quote)
    (hp : Parseable quotes) (hs : StrictlyAscending quotes) (hi : i < quotes.length)
    (h0 : 0 ≤ daysOut) (hov : Hour * 24 * daysOut < 2 ^ 63)
    (hret : FindEndDate quotes i daysOut = Outcome.ret q none) :
    ∃ k, i ≤ k ∧ k < quotes.length ∧ quotes[k]? = some q ∧
      dateOf quotes k ≤ dateOf quotes i + 86400 * daysOut ∧
      ∀ k2, i ≤ k2 → k2 < quotes.length →
        dateOf quotes k2 ≤ dateOf quotes i + 86400 * daysOut → k2 ≤ k := by
  rcases FindEndDate_cases quotes i daysOut hp hi h0 hov with
    ⟨j, hij, hj, hcross, hbelow, q1, hq1, hF⟩ | ⟨_, hF⟩
  · rw [hF] at hret
    have hqq : q1 = q := by injection hret
    subst hqq
    refine ⟨j - 1, by omega, by omega, hq1, ?_, ?_⟩
    · rcases Nat.eq_or_lt_of_le (show i ≤ j - 1 by omega) with heq | hlt
      · rw [← heq]; omega
      · exact hbelow (j - 1) hlt (by omega)
    · intro k2 _ hk2 hle
      by_contra hcon
      have := dateOf_le_of_ascending (ascending_of_strictly hs) (show j ≤ k2 by omega) hk2
      omega
  · rw [hF] at hret
    exact absurd hret (hitEnd_ne_ret q)

/-- C1 at the scenario of the specification: from `2020-01-01` with 30 days
out the call returns the quote of `2020-01-15`, the latest one in the window. -/
theorem C1_witness :
    FindEndDate scenario (0 : Nat) 30 = Outcome.ret (quoteOn "2020-01-15" 100) none ∧
    ∃ k, 0 ≤ k ∧ k < scenario.length ∧ scenario[k]? = some (quoteOn "2020-01-15" 100) ∧
      dateOf scenario k ≤ dateOf scenario 0 + 86400 * 30 ∧
      ∀ k2, 0 ≤ k2 → k2 < scenario.length →
        dateOf scenario k2 ≤ dateOf scenario 0 + 86400 * 30 → k2 ≤ k :=
  ⟨by decide,
   C1_FindEndDate_latest_in_window scenario 0 30 (quoteOn "2020-01-15" 100)
    (by decide) (by decide) (by decide) (by decide) (by decide) (by decide)⟩

/-- C2 (as amended). For a quote sequence with parseable dates, a valid start
index `i` and a `daysOut ≥ 0` whose duration does not overflow `int64`
(`daysOut ≤ 106751`): `FindEndDate` returns the error "Hit end of index" if
and only if no quote after position `i` has a date strictly later than the
date of `quotes[i]` plus `daysOut` days; otherwise it returns a quote. -/
theorem C2_FindEndDate_error_iff (quotes : List Quote) (i : Nat) (daysOut : Int)
    (hp : Parseable quotes) (hi : i < quotes.length)
    (h0 : 0 ≤ daysOut) (hov : Hour * 24 * daysOut < 2 ^ 63) :
    (FindEndDate quotes i daysOut = hitEnd ↔
      ¬ ∃ j, i < j ∧ j < quotes.length ∧
        dateOf quotes i + 86400 * daysOut < dateOf quotes j) ∧
    ((∃ j, i < j ∧ j < quotes.length ∧
        dateOf quotes i + 86400 * daysOut < dateOf quotes j) →
      ∃ q, FindEndDate quotes i daysOut = Outcome.ret q none) := by
  rcases FindEndDate_cases quotes i daysOut hp hi h0 hov with
    ⟨j, hij, hj, hcross, hbelow, q1, hq1, hF⟩ | ⟨hall, hF⟩
  · refine ⟨⟨fun h => ?_, fun h => absurd ⟨j, hij, hj, hcross⟩ h⟩, fun _ => ⟨q1, hF⟩⟩
    rw [hF] at h
    exact absurd h.symm (hitEnd_ne_ret q1)
  · have hno : ¬ ∃ j, i < j ∧ j < quotes.length ∧
        dateOf quotes i + 86400 * daysOut < dateOf quotes j := by
      rintro ⟨j, hij, hj, hlt⟩
      have := hall j hij hj
      omega
    exact ⟨⟨fun _ => hno, fun _ => hF⟩, fun h => absurd h hno⟩

/-- C2 (as amended) at the scenario of the specification, start index 1 and
30 days out: the only later quote, of `2020-02-02`, is within the window, and
the call returns the error. -/
theorem C2_witness :
    Parseable scenario ∧ 1 < scenario.length ∧ (0 : Int) ≤ 30 ∧ Hour * 24 * 30 < 2 ^ 63 ∧
    ((FindEndDate scenario (1 : Nat) 30 = hitEnd ↔
      ¬ ∃ j, 1 < j ∧ j < scenario.length ∧
        dateOf scenario 1 + 86400 * 30 < dateOf scenario j) ∧
    ((∃ j, 1 < j ∧ j < scenario.length ∧
        dateOf scenario 1 + 86400 * 30 < dateOf scenario j) →
      ∃ q, FindEndDate scenario (1 : Nat) 30 = Outcome.ret q none)) :=
  ⟨by decide, by decide, by decide, by decide,
   C2_FindEndDate_error_iff scenario 1 30 (by decide) (by decide) (by decide) (by decide)⟩

/-- C2 as stated fails once the duration overflows: with `daysOut = 106752`
the product wraps to a negative duration, and at the last index of two quotes,
where no later quote exists, the call returns the previous quote instead of the
error. -/
theorem C2_counterexample :
    Parseable twoDays ∧ 1 < twoDays.length ∧ (0 : Int) ≤ 106752 ∧
    (¬ ∃ j, 1 < j ∧ j < twoDays.length ∧
      dateOf twoDays 1 + 86400 * 106752 < dateOf twoDays j) ∧
    FindEndDate twoDays (1 : Nat) 106752 = Outcome.ret (quoteOn "2020-01-01" 100) none ∧
    FindEndDate twoDays (1 : Nat) 106752 ≠ hitEnd := by
  refine ⟨by decide, by decide, by decide, ?_, by decide, by decide⟩
  rintro ⟨j, h1, h2, _⟩
  simp [twoDays] at h2
  omega

/-- C3. The result list built by the loop of `main` is exactly the list of the
Results of the start indices at which `FindEndDate` succeeds, in ascending
order of the index, each with `Start = quotes[i].Date`, `End = e.Date`,
`Open = quotes[i].Close`, `Close = e.Close` and
`Difference = e.Close - quotes[i].Close`; an index at which `FindEndDate`
returns the error contributes nothing. (The list exists when every call
returns; a call that stops the process leaves no list.) -/
theorem C3_mainLoop_results (quotes : List Quote) (daysOut : Int) :
    mainLoop quotes daysOut =
      if (List.range quotes.length).all (fun i => (FindEndDate quotes i daysOut).returns)
      then some (resultsSpec quotes daysOut) else none := by
  have h := mainLoopFrom_eq quotes daysOut quotes 0 [] (by intro idx _; simp)
  simp only [Nat.cast_zero, List.nil_append] at h
  unfold mainLoop resultsSpec
  rw [h, List.range_eq_range']

/-- C4 (as amended). For a non-empty result list of at most `2^53` entries
and any threshold, with `c` the number of results whose
`PercentChange(Open, Close) > percentAway` and `n` the number of results:
`PercentUpStat` is the `float64` number `fl(fl(c / n) * 100)`, it lies in
`[0, 100]` and within the relative error `2^-51` of `100 * c / n`, and it is
exactly `0` when `c = 0` and exactly `100` when `c = n`. -/
theorem C4_PercentUpStat_formula (results : List Result) (percentAway : F64)
    (hne : results ≠ []) (hlen : results.length ≤ 2 ^ 53) :
    ∃ v : ℚ, PercentUpStat results percentAway = F64.fin v ∧
      v = roundQ (roundQ (((results.countP
        (fun r => F64.gt (PercentChange r.Open r.Close) percentAway) : ℕ) : ℚ)
        / (results.length : ℚ)) * 100) ∧
      0 ≤ v ∧ v ≤ 100 ∧
      |v - 100 * ((results.countP
        (fun r => F64.gt (PercentChange r.Open r.Close) percentAway) : ℕ) : ℚ)
        / (results.length : ℚ)|
        ≤ (2 : ℚ) ^ (-51 : ℤ) * (100 * ((results.countP
          (fun r => F64.gt (PercentChange r.Open r.Close) percentAway) : ℕ) : ℚ)
          / (results.length : ℚ)) ∧
      (results.countP (fun r => F64.gt (PercentChange r.Open r.Close) percentAway) = 0
        → v = 0) ∧
      (results.countP (fun r => F64.gt (PercentChange r.Open r.Close) percentAway)
        = results.length → v = 100) := by
  have hn : results.length ≠ 0 := by simpa using hne
  rw [PercentUpStat_eq results percentAway]
  exact stat_summary _ _ (List.countP_le_length _) hn hlen

/-- C4 (as amended) on three windows (+6 %, -5 %, flat) with the threshold
4.5: one window of three is counted. -/
theorem C4_witness :
    sampleResults ≠ [] ∧ sampleResults.length ≤ 2 ^ 53 ∧
    ∃ v : ℚ, PercentUpStat sampleResults (F64.fin (9 / 2)) = F64.fin v ∧
      v = roundQ (roundQ (((sampleResults.countP
        (fun r => F64.gt (PercentChange r.Open r.Close) (F64.fin (9 / 2))) : ℕ) : ℚ)
        / (sampleResults.length : ℚ)) * 100) ∧
      0 ≤ v ∧ v ≤ 100 ∧
      |v - 100 * ((sampleResults.countP
        (fun r => F64.gt (PercentChange r.Open r.Close) (F64.fin (9 / 2))) : ℕ) : ℚ)
        / (sampleResults.length : ℚ)|
        ≤ (2 : ℚ) ^ (-51 : ℤ) * (100 * ((sampleResults.countP
          (fun r => F64.gt (PercentChange r.Open r.Close) (F64.fin (9 / 2))) : ℕ) : ℚ)
          / (sampleResults.length : ℚ)) ∧
      (sampleResults.countP
        (fun r => F64.gt (PercentChange r.Open r.Close) (F64.fin (9 / 2))) = 0 → v = 0) ∧
      (sampleResults.countP
        (fun r => F64.gt (PercentChange r.Open r.Close) (F64.fin (9 / 2)))
        = sampleResults.length → v = 100) :=
  ⟨by simp [sampleResults], by simp [sampleResults],
   C4_PercentUpStat_formula sampleResults (F64.fin (9 / 2)) (by simp [sampleResults])
    (by simp [sampleResults])⟩

/-- C4 as stated fails in `float64`: on three windows (+6 %, -5 %, flat) with
the threshold 4.5 one window of three is counted and `PercentUpStat` is
`fl(fl(1/3) * 100) = 2345624805922133 / 2^46` (printed `33.33333333333333`),
not `100 * 1 / 3`, which no `float64` represents. -/
theorem C4_counterexample :
    sampleResults ≠ [] ∧
    sampleResults.countP (fun r => F64.gt (PercentChange r.Open r.Close) (F64.fin (9 / 2)))
      = 1 ∧
    sampleResults.length = 3 ∧
    PercentUpStat sampleResults (F64.fin (9 / 2))
      = F64.fin (2345624805922133 / 70368744177664) ∧
    PercentUpStat sampleResults (F64.fin (9 / 2)) ≠ F64.fin (100 * 1 / 3) := by
  have hv : PercentUpStat sampleResults (F64.fin (9 / 2))
      = F64.fin (2345624805922133 / 70368744177664) := by
    rw [PercentUpStat_eq, sample_up_count]
    exact stat_1_3
  refine ⟨by simp [sampleResults], sample_up_count, rfl, hv, ?_⟩
  rw [hv]
  norm_num

/-- C5 (as amended). For a non-empty result list of at most `2^53` entries
and any threshold, with `c` the number of results whose
`PercentChange(Open, Close) < percentAway * -1` and `n` the number of results:
`PercentDownStat` is the `float64` number `fl(fl(c / n) * 100)`, it lies in
`[0, 100]` and within the relative error `2^-51` of `100 * c / n`, and it is
exactly `0` when `c = 0` and exactly `100` when `c = n`. The product
`percentAway * -1` is exactly `-percentAway` for a threshold that is a
`float64` number other than zero. -/
theorem C5_PercentDownStat_formula (results : List Result) (percentAway : F64)
    (hne : results ≠ []) (hlen : results.length ≤ 2 ^ 53) :
    (∃ v : ℚ, PercentDownStat results percentAway = F64.fin v ∧
      v = roundQ (roundQ (((results.countP (fun r =>
        F64.lt (PercentChange r.Open r.Close) (F64.mul percentAway (F64.fin (-1)))) : ℕ) : ℚ)
        / (results.length : ℚ)) * 100) ∧
      0 ≤ v ∧ v ≤ 100 ∧
      |v - 100 * ((results.countP (fun r =>
        F64.lt (PercentChange r.Open r.Close) (F64.mul percentAway (F64.fin (-1)))) : ℕ) : ℚ)
        / (results.length : ℚ)|
        ≤ (2 : ℚ) ^ (-51 : ℤ) * (100 * ((results.countP (fun r =>
          F64.lt (PercentChange r.Open r.Close)
            (F64.mul percentAway (F64.fin (-1)))) : ℕ) : ℚ)
          / (results.length : ℚ)) ∧
      (results.countP (fun r =>
        F64.lt (PercentChange r.Open r.Close) (F64.mul percentAway (F64.fin (-1)))) = 0
        → v = 0) ∧
      (results.countP (fun r =>
        F64.lt (PercentChange r.Open r.Close) (F64.mul percentAway (F64.fin (-1))))
        = results.length → v = 100)) ∧
    (∀ p : ℚ, percentAway = F64.fin p → p ≠ 0 → roundQ p = p → |p| < (2 : ℚ) ^ 1024 →
      F64.mul percentAway (F64.fin (-1)) = F64.fin (-p)) := by
  have hn : results.length ≠ 0 := by simpa using hne
  constructor
  · rw [PercentDownStat_eq results percentAway]
    exact stat_summary _ _ (List.countP_le_length _) hn hlen
  · intro p hp h0 hr hfin
    rw [hp]
    exact mul_minus_one p h0 hr hfin

/-- C5 (as amended) on three windows (+6 %, -5 %, flat) with the threshold
4.5: the statistic is a number of `[0, 100]`, and `4.5 * -1` is `-4.5`. -/
theorem C5_witness :
    sampleResults ≠ [] ∧ sampleResults.length ≤ 2 ^ 53 ∧
    (∃ v : ℚ, PercentDownStat sampleResults (F64.fin (9 / 2)) = F64.fin v ∧
      0 ≤ v ∧ v ≤ 100) ∧
    F64.mul (F64.fin (9 / 2)) (F64.fin (-1)) = F64.fin (-(9 / 2)) := by
  have hne : sampleResults ≠ [] := by simp [sampleResults]
  have hlen : sampleResults.length ≤ 2 ^ 53 := by simp [sampleResults]
  have h := C5_PercentDownStat_formula sampleResults (F64.fin (9 / 2)) hne hlen
  obtain ⟨v, hv, _, h0, h1, _⟩ := h.1
  refine ⟨hne, hlen, ⟨v, hv, h0, h1⟩, ?_⟩
  have hm := minus_threshold
  rw [hm]
  norm_num

/-- C5 as stated fails in `float64`: on three windows (+6 %, -5 %, flat) with
the threshold 4.5 one window of three is counted and `PercentDownStat` is
`fl(fl(1/3) * 100) = 2345624805922133 / 2^46` (printed `33.33333333333333`),
not `100 * 1 / 3`, which no `float64` represents. -/
theorem C5_counterexample :
    sampleResults ≠ [] ∧
    sampleResults.countP (fun r =>
      F64.lt (PercentChange r.Open r.Close) (F64.mul (F64.fin (9 / 2)) (F64.fin (-1)))) = 1 ∧
    sampleResults.length = 3 ∧
    PercentDownStat sampleResults (F64.fin (9 / 2))
      = F64.fin (2345624805922133 / 70368744177664) ∧
    PercentDownStat sampleResults (F64.fin (9 / 2)) ≠ F64.fin (100 * 1 / 3) := by
  have hv : PercentDownStat sampleResults (F64.fin (9 / 2))
      = F64.fin (2345624805922133 / 70368744177664) := by
    rw [PercentDownStat_eq, sample_down_count]
    exact stat_1_3
  refine ⟨by simp [sampleResults], sample_down_count, rfl, hv, ?_⟩
  rw [hv]
  norm_num

/-- C6 (as amended). For numbers `before` and `after` whose difference and
quotient stay clear of underflow and overflow
(`2^-1022 ≤ |after - before| ≤ 2^1023` and
`2^-1021 ≤ |(after - before) / before| ≤ 2^1016`, so `before ≠ 0` and
`after ≠ before`), `PercentChange before after` is the number obtained by
rounding each of the three operations to the nearest `float64`,
`fl(100 * fl(fl(after - before) / before))`, and lies within the relative
error `2^-51` of `100 * (after - before) / before`; for `after = before ≠ 0` it
is a zero. In particular `PercentChange 50 60 = 20` and
`PercentChange 20 60 = 200` exactly, and `PercentChange 60 50` is the
`float64` `-16.666666666666664`, that is `-2345624805922133 / 2^47`. -/
theorem C6_PercentChange_formula (before after : ℚ)
    (hd1 : (2 : ℚ) ^ (-1022 : ℤ) ≤ |after - before|)
    (hd2 : |after - before| ≤ (2 : ℚ) ^ 1023)
    (hq1 : (2 : ℚ) ^ (-1021 : ℤ) ≤ |(after - before) / before|)
    (hq2 : |(after - before) / before| ≤ (2 : ℚ) ^ 1016) :
    (∃ p : ℚ, PercentChange (F64.fin before) (F64.fin after) = F64.fin p ∧
      p = roundQ (100 * roundQ (roundQ (after - before) / before)) ∧
      |p - 100 * (after - before) / before|
        ≤ (2 : ℚ) ^ (-51 : ℤ) * |100 * (after - before) / before|) ∧
    (∀ b : ℚ, b ≠ 0 → (PercentChange (F64.fin b) (F64.fin b)).toQ = 0 ∧
      (PercentChange (F64.fin b) (F64.fin b)).isFinite = true) ∧
    PercentChange (F64.fin 50) (F64.fin 60) = F64.fin 20 ∧
    PercentChange (F64.fin 60) (F64.fin 50)
      = F64.fin (-2345624805922133 / 140737488355328) ∧
    PercentChange (F64.fin 20) (F64.fin 60) = F64.fin 200 := by
  obtain ⟨h1, h2⟩ := PercentChange_rel before after hd1 hd2 hq1 hq2
  exact ⟨⟨_, h1, rfl, h2⟩, PercentChange_same, PercentChange_50_60, PercentChange_60_50,
    PercentChange_20_60⟩

/-- C6 (as amended) at `before = 100`, `after = 107`: the value is the
`float64` `7.000000000000001`, within `2^-51` of `7`. -/
theorem C6_witness :
    (2 : ℚ) ^ (-1022 : ℤ) ≤ |(107 : ℚ) - 100| ∧ |(107 : ℚ) - 100| ≤ (2 : ℚ) ^ 1023 ∧
    (2 : ℚ) ^ (-1021 : ℤ) ≤ |((107 : ℚ) - 100) / 100| ∧
    |((107 : ℚ) - 100) / 100| ≤ (2 : ℚ) ^ 1016 ∧
    PercentChange (F64.fin 100) (F64.fin 107)
      = F64.fin (7881299347898369 / 1125899906842624) ∧
    ∃ p : ℚ, PercentChange (F64.fin 100) (F64.fin 107) = F64.fin p ∧
      p = roundQ (100 * roundQ (roundQ (107 - 100) / 100)) ∧
      |p - 100 * (107 - 100) / 100| ≤ (2 : ℚ) ^ (-51 : ℤ) * |100 * (107 - 100) / 100| :=
  ⟨by norm_num [le_abs], by norm_num [abs_le], by norm_num [le_abs], by norm_num [abs_le],
   PercentChange_100_107,
   (C6_PercentChange_formula 100 107 (by norm_num [le_abs]) (by norm_num [abs_le])
    (by norm_num [le_abs]) (by norm_num [abs_le])).1⟩

/-- C6 as stated fails in `float64`: each of the three operations of
`PercentChange` is rounded. `PercentChange 60 50` is
`-2345624805922133 / 2^47` (printed `-16.666666666666664`), not `-50/3`, which
no `float64` represents; and `PercentChange 100 107` is
`7881299347898369 / 2^50` (printed `7.000000000000001`), not `7`. -/
theorem C6_counterexample :
    (60 : ℚ) ≠ 0 ∧
    PercentChange (F64.fin 60) (F64.fin 50)
      = F64.fin (-2345624805922133 / 140737488355328) ∧
    PercentChange (F64.fin 60) (F64.fin 50) ≠ F64.fin (100 * (50 - 60) / 60) ∧
    PercentChange (F64.fin 60) (F64.fin 50) ≠ F64.fin (-50 / 3) ∧
    (100 : ℚ) ≠ 0 ∧
    PercentChange (F64.fin 100) (F64.fin 107)
      = F64.fin (7881299347898369 / 1125899906842624) ∧
    PercentChange (F64.fin 100) (F64.fin 107) ≠ F64.fin (100 * (107 - 100) / 100) := by
  refine ⟨by norm_num, PercentChange_60_50, ?_, ?_, by norm_num, PercentChange_100_107, ?_⟩
  · rw [PercentChange_60_50]
    norm_num
  · rw [PercentChange_60_50]
    norm_num
  · rw [PercentChange_100_107]
    norm_num

/-- C7 (as amended). For a start index `i` with `i + 1 < len(quotes)` and a
`daysOut ≥ 0` whose duration does not overflow `int64` (`daysOut ≤ 106751`):
if the date of `quotes[i+1]` is strictly later than the date of `quotes[i]`
plus `daysOut` days, then `FindEndDate` returns the start quote `quotes[i]`
itself, and the loop of `main` appends for `i` a Result with `End = Start`
and, the closing price being a number, `Difference = 0`. -/
theorem C7_FindEndDate_degenerate (quotes : List Quote) (i : Nat) (daysOut a b : Int)
    (row : Quote) (results : List Result)
    (hi : i + 1 < quotes.length) (h0 : 0 ≤ daysOut) (hov : Hour * 24 * daysOut < 2 ^ 63)
    (hrow : quotes[i]? = some row) (hfin : row.Close.isFinite = true)
    (ha : dateAt quotes i = some a) (hb : dateAt quotes (i + 1) = some b)
    (hlate : a + 86400 * daysOut < b) :
    FindEndDate quotes i daysOut = Outcome.ret row none ∧
    ∃ r, loopBody quotes daysOut i row results = some (results ++ [r]) ∧
      r.Start = row.Date ∧ r.End = r.Start ∧ r.Difference = F64.fin 0 := by
  obtain ⟨q, hq, hF⟩ := FindEndDate_hit quotes i (i + 1) daysOut a (by omega) hi h0 hov ha
    (by intro k hk1 hk2; omega) ⟨b, hb, hlate⟩
  have hqr : q = row := by
    rw [Nat.add_sub_cancel, hrow] at hq
    injection hq with h
    exact h.symm
  subst hqr
  refine ⟨hF, ?_⟩
  refine ⟨Result.mk q.Date q.Date q.Close q.Close (F64.sub q.Close q.Close), ?_, rfl, rfl, ?_⟩
  · simp only [loopBody, hF]
  · exact F64.sub_self q.Close hfin

/-- C7 (as amended) on two quotes two months apart, 30 days out: the Result
of index 0 starts and ends on `2020-01-01`. -/
theorem C7_witness :
    0 + 1 < gapped.length ∧ (0 : Int) ≤ 30 ∧ Hour * 24 * 30 < 2 ^ 63 ∧
    gapped[0]? = some (quoteOn "2020-01-01" 100) ∧
    dateAt gapped 0 = some 1577836800 ∧ dateAt gapped (0 + 1) = some 1583020800 ∧
    (1577836800 : Int) + 86400 * 30 < 1583020800 ∧
    FindEndDate gapped (0 : Nat) 30 = Outcome.ret (quoteOn "2020-01-01" 100) none ∧
    ∃ r, loopBody gapped 30 (0 : Nat) (quoteOn "2020-01-01" 100) [] = some ([] ++ [r]) ∧
      r.Start = (quoteOn "2020-01-01" 100).Date ∧ r.End = r.Start ∧
      r.Difference = F64.fin 0 :=
  ⟨by decide, by decide, by decide, by decide, by decide, by decide, by decide,
   C7_FindEndDate_degenerate gapped 0 30 1577836800 1583020800 (quoteOn "2020-01-01" 100) []
    (by decide) (by decide) (by decide) (by decide) (by decide) (by decide) (by decide)
    (by decide)⟩

/-- C7 as stated fails once the duration overflows: with `daysOut = 106752`
(more than 292 years) and a next quote later still, the wrapped target date
lies before the start date, the first test of the loop succeeds at the start
index 0 and the access `quotes[index-1]` is out of range. -/
theorem C7_counterexample :
    0 + 1 < farApart.length ∧ (0 : Int) ≤ 106752 ∧
    dateAt farApart 0 = some (-62135596800) ∧ dateAt farApart 1 = some 253370764800 ∧
    (-62135596800 : Int) + 86400 * 106752 < 253370764800 ∧
    FindEndDate farApart (0 : Nat) 106752 = Outcome.panicked Failure.indexOutOfRange ∧
    FindEndDate farApart (0 : Nat) 106752 ≠ Outcome.ret (quoteOn "0001-01-01" 1) none := by
  decide

/-- C8 (as amended). For a non-empty quote sequence with parseable dates and a
positive `daysOut` whose duration does not overflow `int64`
(`daysOut ≤ 106751`), `FindEndDate` called at the last index returns the error
"Hit end of index" and never a quote. -/
theorem C8_FindEndDate_last_index (quotes : List Quote) (daysOut : Int)
    (hne : quotes ≠ []) (hp : Parseable quotes)
    (h0 : 0 < daysOut) (hov : Hour * 24 * daysOut < 2 ^ 63) :
    FindEndDate quotes ((quotes.length - 1 : Nat) : Int) daysOut = hitEnd ∧
    ∀ q, FindEndDate quotes ((quotes.length - 1 : Nat) : Int) daysOut
      ≠ Outcome.ret q none := by
  have hlen : 0 < quotes.length := List.length_pos.mpr hne
  have hF := FindEndDate_end quotes (quotes.length - 1) daysOut _ (by omega) (by omega) hov
    (dateAt_of_parseable hp (by omega)) (by intro k hk1 hk2; omega)
  refine ⟨hF, fun q => ?_⟩
  rw [hF]
  exact hitEnd_ne_ret q

/-- C8 (as amended) on the scenario of the specification, 30 days out. -/
theorem C8_witness :
    scenario ≠ [] ∧ Parseable scenario ∧ (0 : Int) < 30 ∧ Hour * 24 * 30 < 2 ^ 63 ∧
    FindEndDate scenario ((scenario.length - 1 : Nat) : Int) 30 = hitEnd ∧
    ∀ q, FindEndDate scenario ((scenario.length - 1 : Nat) : Int) 30
      ≠ Outcome.ret q none :=
  ⟨by decide, by decide, by decide, by decide,
   C8_FindEndDate_last_index scenario 30 (by decide) (by decide) (by decide) (by decide)⟩

/-- C8 as stated fails once the duration overflows: with `daysOut = 106752`
the call at the last index of two quotes returns the first quote. -/
theorem C8_counterexample :
    twoDays ≠ [] ∧ Parseable twoDays ∧ (0 : Int) < 106752 ∧
    FindEndDate twoDays ((twoDays.length - 1 : Nat) : Int) 106752
      = Outcome.ret (quoteOn "2020-01-01" 100) none := by
  decide

/-- C9 (as amended). For a quote sequence holding one quote per consecutive
calendar day (the date at position `k` is `d0` plus `k` days), a valid start
index `i` and `daysOut = N ≥ 0` whose duration does not overflow `int64`
(`N ≤ 106751`): `FindEndDate quotes i N` returns the quote at index `i + N`
when `i + N + 1 ≤ len - 1`, and the error "Hit end of index" otherwise. -/
theorem C9_FindEndDate_consecutive_days (quotes : List Quote) (d0 : Int) (i N : Nat)
    (hcons : ∀ k, k < quotes.length → dateAt quotes k = some (d0 + 86400 * k))
    (hi : i < quotes.length) (hov : Hour * 24 * (N : Int) < 2 ^ 63) :
    (i + N + 1 ≤ quotes.length - 1 →
      ∃ q, quotes[i + N]? = some q ∧ FindEndDate quotes i N = Outcome.ret q none) ∧
    (¬ (i + N + 1 ≤ quotes.length - 1) → FindEndDate quotes i N = hitEnd) := by
  constructor
  · intro h
    have := FindEndDate_hit quotes i (i + N + 1) N (d0 + 86400 * i) (by omega) (by omega)
      (by omega) hov (hcons i hi)
      (by
        intro k hk1 hk2
        exact ⟨_, hcons k (by omega), by omega⟩)
      ⟨_, hcons (i + N + 1) (by omega), by push_cast; omega⟩
    simpa using this
  · intro h
    apply FindEndDate_end quotes i N (d0 + 86400 * i) hi (by omega) hov (hcons i hi)
    intro k hk1 hk2
    exact ⟨_, hcons k hk2, by omega⟩

/-- C9 (as amended) on the 32 quotes dated `2020-01-01` to `2020-02-01`: with
`daysOut = 30` the call at index 0 returns the quote dated `2020-01-31`. -/
theorem C9_witness :
    (∀ k, k < january.length → dateAt january k = some (1577836800 + 86400 * k)) ∧
    january.length = 32 ∧ Hour * 24 * ((30 : Nat) : Int) < 2 ^ 63 ∧
    ∃ q, q.Date = "2020-01-31" ∧
      FindEndDate january (0 : Nat) (30 : Nat) = Outcome.ret q none := by
  have hc : ∀ k, k < january.length → dateAt january k = some (1577836800 + 86400 * k) := by
    decide
  obtain ⟨q, hq, hF⟩ :=
    (C9_FindEndDate_consecutive_days january 1577836800 0 30 hc (by decide) (by decide)).1
      (by decide)
  have hq2 : january[0 + 30]? = some (quoteOn "2020-01-31" 100) := by decide
  rw [hq2] at hq
  injection hq with hq
  subst hq
  exact ⟨hc, by decide, by decide, _, rfl, hF⟩

/-- C9 as stated fails once the duration overflows: on three consecutive days
with `N = 106752` the call at index 2 returns the quote at index 1, where the
claim has the error. -/
theorem C9_counterexample :
    (∀ k, k < threeDays.length → dateAt threeDays k = some (1577836800 + 86400 * k)) ∧
    2 < threeDays.length ∧ ¬ (2 + 106752 + 1 ≤ threeDays.length - 1) ∧
    FindEndDate threeDays (2 : Nat) (106752 : Nat)
      = Outcome.ret (quoteOn "2020-01-02" 101) none ∧
    FindEndDate threeDays (2 : Nat) (106752 : Nat) ≠ hitEnd := by
  decide

/-- C10 (as amended). For a quote sequence with parseable dates sorted
ascending by date, a valid start index `i` and a `daysOut ≥ 0` whose duration
does not overflow `int64` (`daysOut ≤ 106751`): if no quote after position `i`
has a date within the window, then at the last index `FindEndDate` returns the
error "Hit end of index" and the loop of `main` appends no Result, while at
any other index it returns the start quote `quotes[i]` itself. -/
theorem C10_FindEndDate_empty_window (quotes : List Quote) (i : Nat) (daysOut : Int)
    (row : Quote) (results : List Result)
    (hp : Parseable quotes) (_hs : Ascending quotes) (hi : i < quotes.length)
    (hrow : quotes[i]? = some row)
    (h0 : 0 ≤ daysOut) (hov : Hour * 24 * daysOut < 2 ^ 63)
    (hnone : ¬ ∃ j, i < j ∧ j < quotes.length ∧
      dateOf quotes j ≤ dateOf quotes i + 86400 * daysOut) :
    (i + 1 = quotes.length →
      FindEndDate quotes i daysOut = hitEnd ∧
      loopBody quotes daysOut i row results = some results) ∧
    (i + 1 < quotes.length → FindEndDate quotes i daysOut = Outcome.ret row none) := by
  constructor
  · intro h
    have hF := FindEndDate_end quotes i daysOut _ hi h0 hov (dateAt_of_parseable hp hi)
      (by intro k hk1 hk2; omega)
    refine ⟨hF, ?_⟩
    simp only [loopBody, hF, hitEnd]
  · intro h
    obtain ⟨q, hq, hF⟩ := FindEndDate_hit quotes i (i + 1) daysOut _ (by omega) h h0 hov
      (dateAt_of_parseable hp hi) (by intro k hk1 hk2; omega)
      ⟨_, dateAt_of_parseable hp h, by
        by_contra hcon
        exact hnone ⟨i + 1, by omega, h, by omega⟩⟩
    rw [Nat.add_sub_cancel, hrow] at hq
    injection hq with hq
    rw [hF, hq]

/-- C10 (as amended) at the last index of the scenario of the specification,
30 days out: no later quote, the error, no Result. -/
theorem C10_witness :
    Parseable scenario ∧ Ascending scenario ∧ 2 < scenario.length ∧
    scenario[2]? = some (quoteOn "2020-02-02" 106) ∧
    (0 : Int) ≤ 30 ∧ Hour * 24 * 30 < 2 ^ 63 ∧
    FindEndDate scenario (2 : Nat) 30 = hitEnd ∧
    loopBody scenario 30 (2 : Nat) (quoteOn "2020-02-02" 106) [] = some [] := by
  have hnone : ¬ ∃ j, 2 < j ∧ j < scenario.length ∧
      dateOf scenario j ≤ dateOf scenario 2 + 86400 * 30 := by
    rintro ⟨j, h1, h2, _⟩
    simp [scenario] at h2
    omega
  have h := (C10_FindEndDate_empty_window scenario 2 30 (quoteOn "2020-02-02" 106) []
    (by decide) (by decide) (by decide) (by decide) (by decide) (by decide) hnone).1
    (by decide)
  exact ⟨by decide, by decide, by decide, by decide, by decide, by decide, h.1, h.2⟩

/-- C10 as stated fails in two ways. Without any overflow: of two quotes two
months apart, none lies within 30 days after the first, yet the call at index 0
returns the start quote, so a Result is produced. And once the duration
overflows (`daysOut = 106752`), the call at the last index of two quotes, with
no later quote at all, returns the previous quote. -/
theorem C10_counterexample :
    (Parseable gapped ∧ Ascending gapped ∧ 0 < gapped.length ∧ (0 : Int) ≤ 30 ∧
      (¬ ∃ j, 0 < j ∧ j < gapped.length ∧
        dateOf gapped j ≤ dateOf gapped 0 + 86400 * 30) ∧
      FindEndDate gapped (0 : Nat) 30 = Outcome.ret (quoteOn "2020-01-01" 100) none ∧
      FindEndDate gapped (0 : Nat) 30 ≠ hitEnd) ∧
    (Parseable twoDays ∧ Ascending twoDays ∧ 1 < twoDays.length ∧ (0 : Int) ≤ 106752 ∧
      (¬ ∃ j, 1 < j ∧ j < twoDays.length ∧
        dateOf twoDays j ≤ dateOf twoDays 1 + 86400 * 106752) ∧
      FindEndDate twoDays (1 : Nat) 106752 ≠ hitEnd) := by
  refine ⟨⟨by decide, by decide, by decide, by decide, ?_, by decide, by decide⟩,
    ⟨by decide, by decide, by decide, by decide, ?_, by decide⟩⟩
  · rintro ⟨j, h1, h2, h3⟩
    have hj : j = 1 := by simp [gapped] at h2; omega
    subst hj
    revert h3
    decide
  · rintro ⟨j, h1, h2, _⟩
    simp [twoDays] at h2
    omega

/-! ## Lemmas on the recorded scan -/

theorem findLoopRun_out (quotes : List Quote) (outDate : Time) :
    ∀ (fuel : Nat) (index : Int),
      (findLoopRun quotes outDate fuel index).out = findLoop quotes outDate fuel index := by
  intro fuel
  induction fuel with
  | zero => intro index; rfl
  | succ f ih =>
    intro index
    rw [findLoopRun, findLoop]
    split_ifs with h1
    · rfl
    · cases index? quotes index with
      | none => rfl
      | some q =>
        simp only []
        cases timeParse q.Date with
        | none => rfl
        | some futNow =>
          simp only []
          split_ifs with h2
          · cases index? quotes (index - 1) <;> rfl
          · exact ih (index + 1)

theorem FindEndDateRun_out (quotes : List Quote) (index daysOut : Int) :
    (FindEndDateRun quotes index daysOut).out = FindEndDate quotes index daysOut := by
  unfold FindEndDateRun FindEndDate
  cases index? quotes index with
  | none => rfl
  | some q =>
    simp only []
    cases timeParse q.Date with
    | none => rfl
    | some now =>
      simp only []
      exact findLoopRun_out quotes _ _ _

/-- The recorded scan from `n` that stops at the first position `n + m` past
the target. -/
theorem findLoopRun_hit (quotes : List Quote) (outDate : Time) :
    ∀ (m n fuel : Nat), m < fuel → n + m < quotes.length →
      (∀ k, n ≤ k → k < n + m → ∃ t, dateAt quotes k = some t ∧ t ≤ outDate.Unix) →
      (∃ t, dateAt quotes (n + m) = some t ∧ outDate.Unix < t) →
      findLoopRun quotes outDate fuel n =
        { out := match index? quotes (((n + m : Nat) : Int) - 1) with
            | some p => Outcome.ret p none
            | none => Outcome.panicked Failure.indexOutOfRange,
          iters := m + 1,
          reads := (List.range' n (m + 1)).map (fun (k : Nat) => (k : Int))
            ++ [((n + m : Nat) : Int) - 1] } := by
  intro m
  induction m with
  | zero =>
    intro n fuel hf hlen _ hcross
    obtain ⟨t, ht, hlt⟩ := hcross
    obtain ⟨q, tm, hq, hp, hu⟩ := dateAt_eq_some ht
    obtain ⟨f, rfl⟩ : ∃ f, fuel = f + 1 := ⟨fuel - 1, by omega⟩
    have hnl : ¬ ((n : Int) + 1 > (quotes.length : Int)) := by omega
    simp only [Nat.add_zero] at hq hlt ⊢
    rw [findLoopRun, if_neg hnl, index?_natCast, hq]
    simp only [hp]
    rw [if_pos (by omega)]
    cases index? quotes ((n : Int) - 1) <;> simp
  | succ m ih =>
    intro n fuel hf hlen hbelow hcross
    obtain ⟨t, ht, hle⟩ := hbelow n (le_refl n) (by omega)
    obtain ⟨q, tm, hq, hp, hu⟩ := dateAt_eq_some ht
    obtain ⟨f, rfl⟩ : ∃ f, fuel = f + 1 := ⟨fuel - 1, by omega⟩
    have hnl : ¬ ((n : Int) + 1 > (quotes.length : Int)) := by omega
    rw [findLoopRun, if_neg hnl, index?_natCast, hq]
    simp only [hp]
    rw [if_neg (by omega)]
    have hcast : ((n : Int) + 1) = ((n + 1 : Nat) : Int) := by push_cast; rfl
    have hsum : n + (m + 1) = n + 1 + m := by omega
    have key := ih (n + 1) f (by omega) (by omega)
      (by intro k hk1 hk2; exact hbelow k (by omega) (by omega))
      (by rw [← hsum]; exact hcross)
    rw [hcast, key, hsum]
    simp [List.range'_succ]

/-- The recorded scan from `n` that runs off the end of the slice. -/
theorem findLoopRun_end (quotes : List Quote) (outDate : Time) :
    ∀ (m n fuel : Nat), m < fuel → n + m = quotes.length →
      (∀ k, n ≤ k → k < quotes.length → ∃ t, dateAt quotes k = some t ∧ t ≤ outDate.Unix) →
      findLoopRun quotes outDate fuel n =
        { out := hitEnd, iters := m + 1,
          reads := (List.range' n m).map (fun (k : Nat) => (k : Int)) } := by
  intro m
  induction m with
  | zero =>
    intro n fuel hf hlen _
    obtain ⟨f, rfl⟩ : ∃ f, fuel = f + 1 := ⟨fuel - 1, by omega⟩
    rw [findLoopRun, if_pos (by omega)]
    rfl
  | succ m ih =>
    intro n fuel hf hlen hbelow
    obtain ⟨t, ht, hle⟩ := hbelow n (le_refl n) (by omega)
    obtain ⟨q, tm, hq, hp, hu⟩ := dateAt_eq_some ht
    obtain ⟨f, rfl⟩ : ∃ f, fuel = f + 1 := ⟨fuel - 1, by omega⟩
    have hnl : ¬ ((n : Int) + 1 > (quotes.length : Int)) := by omega
    rw [findLoopRun, if_neg hnl, index?_natCast, hq]
    simp only [hp]
    rw [if_neg (by omega)]
    have hcast : ((n : Int) + 1) = ((n + 1 : Nat) : Int) := by push_cast; rfl
    have key := ih (n + 1) f (by omega) (by omega)
      (by intro k hk1 hk2; exact hbelow k (by omega) hk2)
    rw [hcast, key]
    simp [List.range'_succ]

/-- Unix seconds of the target date: the start date moved by the whole
seconds (rounded down) of the wrapped duration. -/
theorem targetDate_Unix {s : String} {now : Time} (hp : timeParse s = some now) (d : Int) :
    (targetDate now d).Unix = now.Unix + outDuration d / 1000000000 := by
  unfold targetDate
  exact Time.Add_Unix now (timeParse_nsec hp) _

/-- The recorded run of `FindEndDate` on parseable dates, for any duration:
either the scan stops at the first position `j ≥ i` past the target date, or
no position from `i` on is past it and the scan runs off the end. -/
theorem FindEndDateRun_cases (quotes : List Quote) (i : Nat) (daysOut : Int)
    (hp : Parseable quotes) (hi : i < quotes.length) :
    (∃ j, i ≤ j ∧ j < quotes.length ∧
        dateOf quotes i + outDuration daysOut / 1000000000 < dateOf quotes j ∧
        (∀ k, i ≤ k → k < j →
          dateOf quotes k ≤ dateOf quotes i + outDuration daysOut / 1000000000) ∧
        FindEndDateRun quotes i daysOut =
          { out := match index? quotes ((j : Int) - 1) with
              | some p => Outcome.ret p none
              | none => Outcome.panicked Failure.indexOutOfRange,
            iters := j - i + 1,
            reads := (i : Int) :: ((List.range' i (j - i + 1)).map (fun (k : Nat) => (k : Int))
              ++ [(j : Int) - 1]) }) ∨
    ((∀ k, i ≤ k → k < quotes.length →
        dateOf quotes k ≤ dateOf quotes i + outDuration daysOut / 1000000000) ∧
      FindEndDateRun quotes i daysOut =
        { out := hitEnd, iters := quotes.length - i + 1,
          reads := (i : Int) :: (List.range' i (quotes.length - i)).map (fun (k : Nat) => (k : Int)) }) := by
  obtain ⟨q0, now, hq0, hp0, hu0⟩ := dateAt_eq_some (dateAt_of_parseable hp hi)
  have hT := targetDate_Unix hp0 daysOut
  rw [hu0] at hT
  by_cases hex : ∃ j, i ≤ j ∧ j < quotes.length ∧
      dateOf quotes i + outDuration daysOut / 1000000000 < dateOf quotes j
  · left
    classical
    have hj := Nat.find_spec hex
    have hmin := fun k => @Nat.find_min _ _ hex k
    have hbelow : ∀ k, i ≤ k → k < Nat.find hex →
        dateOf quotes k ≤ dateOf quotes i + outDuration daysOut / 1000000000 := by
      intro k hk1 hk2
      by_contra hcon
      exact hmin k hk2 ⟨hk1, by omega, by omega⟩
    refine ⟨Nat.find hex, hj.1, hj.2.1, hj.2.2, hbelow, ?_⟩
    have hji : i + (Nat.find hex - i) = Nat.find hex := by omega
    have key := findLoopRun_hit quotes (targetDate now daysOut) (Nat.find hex - i) i
      (quotes.length + 1) (by omega) (by omega)
      (by
        intro k hk1 hk2
        exact ⟨_, dateAt_of_parseable hp (by omega), by rw [hT]; exact hbelow k hk1 (by omega)⟩)
      ⟨_, by rw [hji]; exact dateAt_of_parseable hp hj.2.1, by rw [hT]; exact hj.2.2⟩
    unfold FindEndDateRun
    rw [index?_natCast, hq0]
    simp only [hp0]
    rw [key, hji]
  · right
    have hall : ∀ k, i ≤ k → k < quotes.length →
        dateOf quotes k ≤ dateOf quotes i + outDuration daysOut / 1000000000 := by
      intro k hk1 hk2
      by_contra hcon
      exact hex ⟨k, hk1, hk2, by omega⟩
    refine ⟨hall, ?_⟩
    have key := findLoopRun_end quotes (targetDate now daysOut) (quotes.length - i) i
      (quotes.length + 1) (by omega) (by omega)
      (by
        intro k hk1 hk2
        exact ⟨_, dateAt_of_parseable hp hk2, by rw [hT]; exact hall k hk1 hk2⟩)
    unfold FindEndDateRun
    rw [index?_natCast, hq0]
    simp only [hp0]
    rw [key]

/-- What `FindEndDate` returns on parseable dates, for any duration. -/
theorem FindEndDate_scan (quotes : List Quote) (i : Nat) (daysOut : Int)
    (hp : Parseable quotes) (hi : i < quotes.length) :
    (∃ j, i ≤ j ∧ j < quotes.length ∧
        dateOf quotes i + outDuration daysOut / 1000000000 < dateOf quotes j ∧
        (∀ k, i ≤ k → k < j →
          dateOf quotes k ≤ dateOf quotes i + outDuration daysOut / 1000000000) ∧
        FindEndDate quotes i daysOut =
          match index? quotes ((j : Int) - 1) with
          | some p => Outcome.ret p none
          | none => Outcome.panicked Failure.indexOutOfRange) ∨
    ((∀ k, i ≤ k → k < quotes.length →
        dateOf quotes k ≤ dateOf quotes i + outDuration daysOut / 1000000000) ∧
      FindEndDate quotes i daysOut = hitEnd) := by
  rcases FindEndDateRun_cases quotes i daysOut hp hi with
    ⟨j, h1, h2, h3, h4, hrun⟩ | ⟨h1, hrun⟩
  · left
    refine ⟨j, h1, h2, h3, h4, ?_⟩
    rw [← FindEndDateRun_out, hrun]
  · right
    refine ⟨h1, ?_⟩
    rw [← FindEndDateRun_out, hrun]

/-- The whole seconds of the wrapped duration never exceed `daysOut` days. -/
theorem outSeconds_le (d : Int) (h0 : 0 ≤ d) : outDuration d / 1000000000 ≤ 86400 * d := by
  unfold outDuration wrapInt64 Hour
  omega

/-- Without overflow the whole seconds of the duration are `daysOut` days. -/
theorem outSeconds_eq (d : Int) (h0 : 0 ≤ d) (h1 : Hour * 24 * d < 2 ^ 63) :
    outDuration d / 1000000000 = 86400 * d := by
  rw [outDuration_eq d h0 h1]
  omega

theorem outSeconds_nonneg_iff (d : Int) :
    0 ≤ outDuration d / 1000000000 ↔ 0 ≤ outDuration d := by
  constructor <;> intro h <;> omega

/-! ## Further lemmas for the statistics, the target date and the loop of `main` -/

theorem Time.Add_nsec (t : Time) (ht : t.nsec = 0) (d : Int) (hd : d % 1000000000 = 0) :
    (t.Add d).nsec = 0 := by
  have h1 := Int.tmod_def d 1000000000
  unfold Time.Add
  rcases le_or_lt 0 d with h | h
  · have h2 := Int.tdiv_eq_ediv h (by norm_num : (0:Int) ≤ 1000000000)
    simp only [ht, h1, h2]
    split_ifs <;> simp <;> omega
  · have h2 : Int.tdiv d 1000000000 = -((-d) / 1000000000) := by
      rw [← Int.tdiv_eq_ediv (by omega) (by norm_num), Int.neg_tdiv, neg_neg]
    simp only [ht, h1, h2]
    split_ifs <;> simp <;> omega

theorem outDuration_wraps (d : Int) :
    (outDuration d - Hour * 24 * d) % 2 ^ 64 = 0 ∧
    -(2 ^ 63) ≤ outDuration d ∧ outDuration d < 2 ^ 63 := by
  unfold outDuration wrapInt64 Hour
  omega

theorem FindEndDate_eq_findLoop (quotes : List Quote) (i : Nat) (daysOut : Int) (q : Quote)
    (now : Time) (hq : quotes[i]? = some q) (hnow : timeParse q.Date = some now) :
    FindEndDate quotes i daysOut
      = findLoop quotes (targetDate now daysOut) (quotes.length + 1) i := by
  unfold FindEndDate
  rw [index?_natCast, hq]
  simp only [hnow]
  rfl

theorem countP_le_and (p1 p2 : Result → Bool) (l : List Result)
    (h : ∀ r ∈ l, ¬ (p1 r = true ∧ p2 r = true)) :
    l.countP p1 + l.countP p2 ≤ l.length := by
  induction l with
  | nil => simp
  | cons r rs ih =>
    have hr := h r (List.mem_cons_self r rs)
    have ih2 := ih (fun x hx => h x (List.mem_cons_of_mem r hx))
    rw [List.countP_cons, List.countP_cons, List.length_cons]
    by_cases h1 : p1 r = true <;> by_cases h2 : p2 r = true <;> simp [h1, h2] <;>
      first | omega | exact absurd ⟨h1, h2⟩ hr

/-- With a non-negative (wrapped) duration the scan passes the start index:
it returns the quote before the first later position past the target, or the
error when there is none. -/
theorem FindEndDate_cases_nonneg (quotes : List Quote) (i : Nat) (daysOut : Int)
    (hp : Parseable quotes) (hi : i < quotes.length)
    (hs : 0 ≤ outDuration daysOut / 1000000000) :
    (∃ j, i < j ∧ j < quotes.length ∧
        dateOf quotes i + outDuration daysOut / 1000000000 < dateOf quotes j ∧
        (∀ k, i ≤ k → k < j →
          dateOf quotes k ≤ dateOf quotes i + outDuration daysOut / 1000000000) ∧
        ∃ q, quotes[j - 1]? = some q ∧ FindEndDate quotes i daysOut = Outcome.ret q none) ∨
    ((∀ k, i ≤ k → k < quotes.length →
        dateOf quotes k ≤ dateOf quotes i + outDuration daysOut / 1000000000) ∧
      FindEndDate quotes i daysOut = hitEnd) := by
  rcases FindEndDate_scan quotes i daysOut hp hi with ⟨j, h1, h2, h3, h4, hF⟩ | h
  · left
    have hij : i < j := by
      rcases Nat.eq_or_lt_of_le h1 with rfl | hlt
      · omega
      · exact hlt
    have hjm : j - 1 < quotes.length := by omega
    refine ⟨j, hij, h2, h3, h4, quotes[j - 1], List.getElem?_eq_getElem hjm, ?_⟩
    have hcast : (j : Int) - 1 = ((j - 1 : Nat) : Int) := by omega
    rw [hF, hcast, index?_natCast, List.getElem?_eq_getElem hjm]
  · right
    exact h

/-- With a negative (wrapped) duration the first test of the loop succeeds at
the start index: the call yields `quotes[i-1]`, out of range when `i = 0`. -/
theorem FindEndDate_neg (quotes : List Quote) (i : Nat) (daysOut : Int)
    (hp : Parseable quotes) (hi : i < quotes.length)
    (hs : outDuration daysOut / 1000000000 < 0) :
    FindEndDateRun quotes i daysOut =
      { out := match index? quotes ((i : Int) - 1) with
          | some p => Outcome.ret p none
          | none => Outcome.panicked Failure.indexOutOfRange,
        iters := 1,
        reads := [(i : Int), (i : Int), (i : Int) - 1] } := by
  rcases FindEndDateRun_cases quotes i daysOut hp hi with ⟨j, h1, h2, h3, h4, hF⟩ | ⟨h, _⟩
  · have hij : j = i := by
      rcases Nat.eq_or_lt_of_le h1 with heq | hlt
      · exact heq.symm
      · have := h4 i (le_refl i) hlt
        omega
    subst hij
    rw [hF, Nat.sub_self]
    cases index? quotes ((j : Int) - 1) <;> simp [List.range']
  · have := h i (le_refl i) hi
    omega

theorem mainLoop_eq (quotes : List Quote) (daysOut : Int) :
    mainLoop quotes daysOut =
      if (List.range quotes.length).all (fun i => (FindEndDate quotes i daysOut).returns)
      then some (resultsSpec quotes daysOut) else none := by
  have h := mainLoopFrom_eq quotes daysOut quotes 0 [] (by intro idx _; simp)
  simp only [Nat.cast_zero, List.nil_append] at h
  unfold mainLoop resultsSpec
  rw [h, List.range_eq_range']

/-- When the loop of `main` completes, every call returned and the results are
the specified ones. -/
theorem mainLoop_some {quotes : List Quote} {daysOut : Int} {results : List Result}
    (h : mainLoop quotes daysOut = some results) :
    (∀ i, i < quotes.length → (FindEndDate quotes i daysOut).returns = true) ∧
    results = resultsSpec quotes daysOut := by
  rw [mainLoop_eq] at h
  split_ifs at h with hall
  · refine ⟨?_, ?_⟩
    · intro i hi
      rw [List.all_eq_true] at hall
      exact hall i (List.mem_range.mpr hi)
    · injection h with h
      exact h.symm

theorem resultFor_some {quotes : List Quote} {daysOut : Int} {i : Nat} {r : Result}
    (h : resultFor quotes daysOut i = some r) :
    ∃ row e, quotes[i]? = some row ∧ FindEndDate quotes i daysOut = Outcome.ret e none ∧
      r = { Start := row.Date, End := e.Date, Open := row.Close, Close := e.Close,
            Difference := F64.sub e.Close row.Close } := by
  unfold resultFor at h
  split at h
  · next row e hrow hF =>
    injection h with h
    exact ⟨row, e, hrow, hF, h.symm⟩
  · cases h

theorem unix_of_getElem? {quotes : List Quote} (hp : Parseable quotes) {k : Nat} {q : Quote}
    (hq : quotes[k]? = some q) :
    (timeParse q.Date).map Time.Unix = some (dateOf quotes k) := by
  have hk : k < quotes.length := by
    by_contra hcon
    rw [List.getElem?_eq_none (by omega)] at hq
    cases hq
  have h := dateAt_of_parseable hp hk
  unfold dateAt at h
  rw [hq] at h
  exact h

/-- The loop of `main` completes on a non-empty slice only when the wrapped
duration is non-negative: otherwise the call at index 0 reads `quotes[-1]`. -/
theorem outSeconds_nonneg_of_returns (quotes : List Quote) (daysOut : Int)
    (hp : Parseable quotes) (hlen : 0 < quotes.length)
    (hret : (FindEndDate quotes (0 : Nat) daysOut).returns = true) :
    0 ≤ outDuration daysOut / 1000000000 := by
  by_contra hcon
  have h := FindEndDate_neg quotes 0 daysOut hp hlen (by omega)
  rw [← FindEndDateRun_out, h] at hret
  simp [index?, Outcome.returns] at hret

theorem F64.round_ten : F64.round 10 = F64.fin 10 :=
  F64.round_val 10 10 3 5629499534213120 (by norm_num) (by norm_num) (by norm_num)
    (by norm_num [abs_lt]) (by norm_num [abs_lt]) (by norm_num)

theorem F64.round_eleven : F64.round 11 = F64.fin 11 :=
  F64.round_val 11 11 3 6192449487634432 (by norm_num) (by norm_num) (by norm_num)
    (by norm_num [abs_lt]) (by norm_num [abs_lt]) (by norm_num)

theorem mainLoop_rising : mainLoop rising 1 = some risingResults := by
  have h0 : FindEndDate rising 0 1 = Outcome.ret (quoteOn "2020-01-02" 110) none := by decide
  have h1 : FindEndDate rising (0 + 1) 1 = Outcome.ret (quoteOn "2020-01-03" 121) none := by
    decide
  have h2 : FindEndDate rising (0 + 1 + 1) 1 = hitEnd := by decide
  have h3 : FindEndDate rising (0 + 1 + 1 + 1) 1 = hitEnd := by decide
  have e : mainLoop rising 1 = mainLoopFrom rising 1
      [quoteOn "2020-01-01" 100, quoteOn "2020-01-02" 110, quoteOn "2020-01-03" 121,
       quoteOn "2020-01-04" 134] 0 [] := rfl
  have s1 : F64.sub (F64.fin 110) (F64.fin 100) = F64.fin 10 := by
    rw [F64.sub_fin 110 100 (by norm_num)]
    norm_num
    exact F64.round_ten
  have s2 : F64.sub (F64.fin 121) (F64.fin 110) = F64.fin 11 := by
    rw [F64.sub_fin 121 110 (by norm_num)]
    norm_num
    exact F64.round_eleven
  rw [e]
  simp only [mainLoopFrom, loopBody, h0, h1, h2, h3, hitEnd]
  simp only [quoteOn, s1, s2, risingResults]
  rfl

theorem mainLoop_scenario : mainLoop scenario 30 = some scenarioResults := by
  have h0 : FindEndDate scenario 0 30 = Outcome.ret (quoteOn "2020-01-15" 100) none := by
    decide
  have h1 : FindEndDate scenario (0 + 1) 30 = hitEnd := by decide
  have h2 : FindEndDate scenario (0 + 1 + 1) 30 = hitEnd := by decide
  have e : mainLoop scenario 30 = mainLoopFrom scenario 30
      [quoteOn "2020-01-01" 100, quoteOn "2020-01-15" 100, quoteOn "2020-02-02" 106] 0 [] := rfl
  have s1 : F64.sub (F64.fin 100) (F64.fin 100) = F64.fin 0 := F64.sub_self _ rfl
  rw [e]
  simp only [mainLoopFrom, loopBody, h0, h1, h2, hitEnd]
  simp only [quoteOn, s1, scenarioResults]
  rfl

/-- With a non-negative (wrapped) duration, the recorded run in full: the
scan stops at the first position `j > i` past the target, or runs off the
end; every index read lies in `[i, len)`, the last one read being `j - 1`. -/
theorem FindEndDateRun_nonneg (quotes : List Quote) (i : Nat) (daysOut : Int)
    (hp : Parseable quotes) (hi : i < quotes.length)
    (hs : 0 ≤ outDuration daysOut / 1000000000) :
    (∀ x ∈ (FindEndDateRun quotes i daysOut).reads, (i : Int) ≤ x ∧ x < quotes.length) ∧
    ((∃ j, i < j ∧ j < quotes.length ∧
        dateOf quotes i + outDuration daysOut / 1000000000 < dateOf quotes j ∧
        (∀ k, i ≤ k → k < j →
          dateOf quotes k ≤ dateOf quotes i + outDuration daysOut / 1000000000) ∧
        (FindEndDateRun quotes i daysOut).reads.getLast? = some (((j - 1 : Nat) : Int)) ∧
        (FindEndDateRun quotes i daysOut).iters = j - i + 1 ∧
        ∃ q, quotes[j - 1]? = some q ∧ FindEndDate quotes i daysOut = Outcome.ret q none) ∨
     ((∀ k, i ≤ k → k < quotes.length →
        dateOf quotes k ≤ dateOf quotes i + outDuration daysOut / 1000000000) ∧
      (FindEndDateRun quotes i daysOut).iters = quotes.length - i + 1 ∧
      FindEndDate quotes i daysOut = hitEnd)) := by
  rcases FindEndDateRun_cases quotes i daysOut hp hi with ⟨j, h1, h2, h3, h4, hF⟩ | ⟨h, hF⟩
  · have hij : i < j := by
      rcases Nat.eq_or_lt_of_le h1 with rfl | hlt
      · omega
      · exact hlt
    have hjm : j - 1 < quotes.length := by omega
    have hcast : (j : Int) - 1 = ((j - 1 : Nat) : Int) := by omega
    constructor
    · intro x hx
      rw [hF] at hx
      simp only [List.mem_cons, List.mem_append, List.mem_map, List.mem_range'_1,
        List.mem_singleton, List.not_mem_nil, or_false] at hx
      rcases hx with rfl | ⟨k, ⟨hk1, hk2⟩, rfl⟩ | rfl
      · omega
      · omega
      · omega
    · left
      refine ⟨j, hij, h2, h3, h4, ?_, ?_, quotes[j - 1], List.getElem?_eq_getElem hjm, ?_⟩
      · rw [hF, ← hcast]
        show ((i : Int) :: ((List.range' i (j - i + 1)).map (fun (k : Nat) => (k : Int))
          ++ [(j : Int) - 1])).getLast? = some ((j : Int) - 1)
        rw [← List.cons_append, List.getLast?_concat]
      · rw [hF]
      · rw [← FindEndDateRun_out, hF, hcast, index?_natCast, List.getElem?_eq_getElem hjm]
  · constructor
    · intro x hx
      rw [hF] at hx
      simp only [List.mem_cons, List.mem_map, List.mem_range'_1] at hx
      rcases hx with rfl | ⟨k, ⟨hk1, hk2⟩, rfl⟩
      · omega
      · omega
    · right
      refine ⟨h, ?_, ?_⟩
      · rw [hF]
      · rw [← FindEndDateRun_out, hF]

/-! ## Further lemmas on success and on lists -/

/-- Without overflow, the call succeeds exactly when some later quote is past
the window. -/
theorem succeeds_iff (quotes : List Quote) (i : Nat) (daysOut : Int)
    (hp : Parseable quotes) (hi : i < quotes.length)
    (h0 : 0 ≤ daysOut) (hov : Hour * 24 * daysOut < 2 ^ 63) :
    (FindEndDate quotes i daysOut).succeeds = true ↔
      ∃ j, i < j ∧ j < quotes.length ∧
        dateOf quotes i + 86400 * daysOut < dateOf quotes j := by
  rcases FindEndDate_cases quotes i daysOut hp hi h0 hov with
    ⟨j, hij, hj, hcross, _, q, _, hF⟩ | ⟨hall, hF⟩
  · rw [hF]
    exact ⟨fun _ => ⟨j, hij, hj, hcross⟩, fun _ => rfl⟩
  · rw [hF]
    constructor
    · intro h
      simp [hitEnd, Outcome.succeeds] at h
    · rintro ⟨j, hij, hj, hlt⟩
      have := hall j hij hj
      omega

/-- Without overflow every call on parseable dates returns. -/
theorem returns_of_bounds (quotes : List Quote) (i : Nat) (daysOut : Int)
    (hp : Parseable quotes) (hi : i < quotes.length)
    (h0 : 0 ≤ daysOut) (hov : Hour * 24 * daysOut < 2 ^ 63) :
    (FindEndDate quotes i daysOut).returns = true := by
  rcases FindEndDate_cases quotes i daysOut hp hi h0 hov with
    ⟨j, _, _, _, _, q, _, hF⟩ | ⟨_, hF⟩
  · rw [hF]; rfl
  · rw [hF]; rfl

theorem resultFor_isSome_iff (quotes : List Quote) (daysOut : Int) (i : Nat)
    (hi : i < quotes.length) :
    (resultFor quotes daysOut i).isSome = true ↔
      (FindEndDate quotes i daysOut).succeeds = true := by
  unfold resultFor
  rw [List.getElem?_eq_getElem hi]
  cases hF : FindEndDate quotes (i : Int) daysOut with
  | ret e err => cases err <;> simp [Outcome.succeeds]
  | panicked why => simp [Outcome.succeeds]
  | outOfFuel => simp [Outcome.succeeds]

theorem filterMap_length_of_isSome {α β : Type} (f : α → Option β) (l : List α)
    (h : ∀ x ∈ l, (f x).isSome = true) : (l.filterMap f).length = l.length := by
  induction l with
  | nil => rfl
  | cons a as ih =>
    have ha := h a (List.mem_cons_self a as)
    obtain ⟨b, hb⟩ := Option.isSome_iff_exists.mp ha
    rw [List.filterMap_cons, hb]
    simp only [List.length_cons]
    rw [ih (fun x hx => h x (List.mem_cons_of_mem a hx))]

theorem filterMap_nil_of_isNone {α β : Type} (f : α → Option β) (l : List α)
    (h : ∀ x ∈ l, f x = none) : l.filterMap f = [] := by
  induction l with
  | nil => rfl
  | cons a as ih =>
    rw [List.filterMap_cons, h a (List.mem_cons_self a as)]
    exact ih (fun x hx => h x (List.mem_cons_of_mem a hx))

/-! ## The claims, continued -/

/-- C11 (as amended). For a valid start index whose date parses to `now` and
every `daysOut`, the target date that `FindEndDate` compares the quotes against
is `now` moved by the `int64` duration `time.Hour * 24 * daysOut` computed with
wraparound: the duration is the one value of `[-2^63, 2^63)` congruent to the
product modulo `2^64`, and the target lies that duration's whole seconds after
`now`. For a positive `daysOut` whose product does not overflow `int64`
(`daysOut ≤ 106751`) the duration is the product itself and the target date is
exactly the start date plus `daysOut` calendar days: `daysOut * 86400` seconds
after the start date's midnight UTC, with no nanoseconds. -/
theorem C11_targetDate (quotes : List Quote) (i : Nat) (daysOut : Int) (q : Quote)
    (now : Time) (hq : quotes[i]? = some q) (hnow : timeParse q.Date = some now) :
    FindEndDate quotes i daysOut
      = findLoop quotes (targetDate now daysOut) (quotes.length + 1) i ∧
    targetDate now daysOut = now.Add (outDuration daysOut) ∧
    (targetDate now daysOut).Unix = now.Unix + outDuration daysOut / 1000000000 ∧
    (outDuration daysOut - Hour * 24 * daysOut) % 2 ^ 64 = 0 ∧
    -(2 ^ 63) ≤ outDuration daysOut ∧ outDuration daysOut < 2 ^ 63 ∧
    ((0 < daysOut ∧ Hour * 24 * daysOut < 2 ^ 63) →
      outDuration daysOut = Hour * 24 * daysOut ∧
      (targetDate now daysOut).Unix = now.Unix + 86400 * daysOut ∧
      (targetDate now daysOut).nsec = 0) := by
  obtain ⟨hw1, hw2, hw3⟩ := outDuration_wraps daysOut
  refine ⟨FindEndDate_eq_findLoop quotes i daysOut q now hq hnow, rfl,
    targetDate_Unix hnow daysOut, hw1, hw2, hw3, ?_⟩
  rintro ⟨h0, hov⟩
  have hd := outDuration_eq daysOut (by omega) hov
  refine ⟨?_, ?_, ?_⟩
  · rw [hd]
    unfold Hour
    ring
  · rw [targetDate_Unix hnow, outSeconds_eq daysOut (by omega) hov]
  · unfold targetDate
    apply Time.Add_nsec now (timeParse_nsec hnow)
    rw [hd]
    omega

/-- C11 (as amended) at the scenario of the specification, index 0: 30 days
out the target is 30 days after `2020-01-01`; 106752 days out the duration is
the wrapped product `-9223371273709551616` ns. -/
theorem C11_witness :
    scenario[0]? = some (quoteOn "2020-01-01" 100) ∧
    timeParse (quoteOn "2020-01-01" 100).Date = some { sec := 1577836800, nsec := 0 } ∧
    (0 : Int) < 30 ∧ Hour * 24 * 30 < 2 ^ 63 ∧
    (targetDate { sec := 1577836800, nsec := 0 } 30).Unix = 1577836800 + 86400 * 30 ∧
    outDuration 106752 = -9223371273709551616 ∧
    (outDuration 106752 - Hour * 24 * 106752) % 2 ^ 64 = 0 :=
  ⟨by decide, by decide, by decide, by decide,
   ((C11_targetDate scenario 0 30 (quoteOn "2020-01-01" 100) { sec := 1577836800, nsec := 0 }
    (by decide) (by decide)).2.2.2.2.2.2 ⟨by decide, by decide⟩).2.1,
   by decide,
   (C11_targetDate scenario 0 106752 (quoteOn "2020-01-01" 100)
    { sec := 1577836800, nsec := 0 } (by decide) (by decide)).2.2.2.1⟩

/-- C11 as stated fails once the duration overflows: for the positive
`daysOut = 106752` the product wraps to a negative duration and the target date
lies about 292 years before `2020-01-01`, not 106752 days after it. -/
theorem C11_counterexample :
    scenario[0]? = some (quoteOn "2020-01-01" 100) ∧
    timeParse (quoteOn "2020-01-01" 100).Date = some { sec := 1577836800, nsec := 0 } ∧
    (0 : Int) < 106752 ∧
    (targetDate { sec := 1577836800, nsec := 0 } 106752).Unix = -7645534474 ∧
    (targetDate { sec := 1577836800, nsec := 0 } 106752).Unix
      ≠ 1577836800 + 86400 * 106752 := by
  decide

/-- C12 (as amended). For every non-empty result list and every threshold,
`PercentUpStat` and `PercentDownStat` are numbers of the closed interval
`[0, 100]`. -/
theorem C12_stats_in_range (results : List Result) (percentAway : F64) (hne : results ≠ []) :
    F64.inPercentRange (PercentUpStat results percentAway) = true ∧
    F64.inPercentRange (PercentDownStat results percentAway) = true := by
  have hn : results.length ≠ 0 := by simpa using hne
  rw [PercentUpStat_eq results percentAway, PercentDownStat_eq results percentAway]
  exact ⟨stat_in_range _ _ (List.countP_le_length _) hn,
    stat_in_range _ _ (List.countP_le_length _) hn⟩

/-- C12 (as amended) on three windows (+6 %, -5 %, flat), threshold 4.5. -/
theorem C12_witness :
    sampleResults ≠ [] ∧
    F64.inPercentRange (PercentUpStat sampleResults (F64.fin (9 / 2))) = true ∧
    F64.inPercentRange (PercentDownStat sampleResults (F64.fin (9 / 2))) = true :=
  ⟨by simp [sampleResults],
   C12_stats_in_range sampleResults (F64.fin (9 / 2)) (by simp [sampleResults])⟩

/-- C12 as stated fails on the empty result list: both statistics divide
`float64(0)` by `float64(0)` and are `NaN`, which is no number of `[0, 100]`. -/
theorem C12_counterexample :
    PercentUpStat [] (F64.fin (9 / 2)) = F64.nan ∧
    PercentDownStat [] (F64.fin (9 / 2)) = F64.nan ∧
    F64.inPercentRange (PercentUpStat [] (F64.fin (9 / 2))) = false ∧
    F64.inPercentRange (PercentDownStat [] (F64.fin (9 / 2))) = false := by
  have hu : PercentUpStat [] (F64.fin (9 / 2)) = F64.nan := by
    rw [PercentUpStat_eq]
    exact stat_empty
  have hd : PercentDownStat [] (F64.fin (9 / 2)) = F64.nan := by
    rw [PercentDownStat_eq]
    exact stat_empty
  rw [hu, hd]
  exact ⟨rfl, rfl, rfl, rfl⟩

/-- C13. On the empty quote sequence the loop of `main` completes with zero
Results, and both statistics return a value on the empty result list: the
`float64` division of zero by zero raises nothing, its value is `NaN`. -/
theorem C13_empty_sequence (daysOut : Int) (percentAway : F64) :
    mainLoop [] daysOut = some [] ∧
    PercentUpStat [] percentAway = F64.nan ∧
    PercentDownStat [] percentAway = F64.nan := by
  refine ⟨rfl, ?_, ?_⟩
  · rw [PercentUpStat_eq]
    exact stat_empty
  · rw [PercentDownStat_eq]
    exact stat_empty

/-- C14. For a quote sequence, a `daysOut` and a positive threshold such that
the loop of `main` produces at least one Result and every produced Result has
`PercentChange(Open, Close) > threshold`, `PercentUpStat` is exactly 100 and
`PercentDownStat` is exactly 0. -/
theorem C14_all_up (quotes : List Quote) (daysOut : Int) (percentAway : F64)
    (results : List Result)
    (hpos : F64.lt (F64.fin 0) percentAway = true)
    (_hmain : mainLoop quotes daysOut = some results) (hne : results ≠ [])
    (hall : ∀ r ∈ results, F64.gt (PercentChange r.Open r.Close) percentAway = true) :
    PercentUpStat results percentAway = F64.fin 100 ∧
    PercentDownStat results percentAway = F64.fin 0 := by
  have hn : results.length ≠ 0 := by simpa using hne
  have hup : results.countP (fun r => F64.gt (PercentChange r.Open r.Close) percentAway)
      = results.length := by
    rw [List.countP_eq_length]
    intro r hr
    exact hall r hr
  have hdown : results.countP
      (fun r => F64.lt (PercentChange r.Open r.Close) (F64.mul percentAway (F64.fin (-1))))
      = 0 := by
    rw [List.countP_eq_zero]
    intro r hr
    rw [not_lt_neg_of_gt _ _ (le_of_lt_zero _ hpos) (hall r hr)]
    simp
  rw [PercentUpStat_eq results percentAway, PercentDownStat_eq results percentAway,
    hup, hdown]
  exact ⟨stat_full _ hn, stat_zero _ hn⟩

/-- C14 on four rising quotes with one day out and the threshold 4.5: both
windows gain a tenth. -/
theorem C14_witness :
    F64.lt (F64.fin 0) (F64.fin (9 / 2)) = true ∧
    mainLoop rising 1 = some risingResults ∧ risingResults ≠ [] ∧
    (∀ r ∈ risingResults,
      F64.gt (PercentChange r.Open r.Close) (F64.fin (9 / 2)) = true) ∧
    PercentUpStat risingResults (F64.fin (9 / 2)) = F64.fin 100 ∧
    PercentDownStat risingResults (F64.fin (9 / 2)) = F64.fin 0 := by
  have hpos : F64.lt (F64.fin 0) (F64.fin (9 / 2)) = true := by
    simp [F64.lt, F64.toQ]
  have hne : risingResults ≠ [] := by simp [risingResults]
  have hall : ∀ r ∈ risingResults,
      F64.gt (PercentChange r.Open r.Close) (F64.fin (9 / 2)) = true := by
    simp [risingResults, PercentChange_100_110, PercentChange_110_121, F64.gt, F64.lt,
      F64.toQ]
    norm_num
  exact ⟨hpos, mainLoop_rising, hne, hall,
    C14_all_up rising 1 (F64.fin (9 / 2)) risingResults hpos mainLoop_rising hne hall⟩

/-- C15. For a quote sequence with parseable dates sorted ascending by date and
every `daysOut ≥ 0`, every Result produced by the loop of `main` has an End date
not before its Start date and not after the Start date plus `daysOut` days.
(This holds for every `daysOut ≥ 0`: a duration that wraps to a negative value
stops the run at index 0, so no Result is produced.) -/
theorem C15_result_dates (quotes : List Quote) (daysOut : Int) (results : List Result)
    (hp : Parseable quotes) (hs : Ascending quotes) (h0 : 0 ≤ daysOut)
    (hmain : mainLoop quotes daysOut = some results) :
    ∀ r ∈ results, ∃ s e : Int,
      (timeParse r.Start).map Time.Unix = some s ∧
      (timeParse r.End).map Time.Unix = some e ∧
      s ≤ e ∧ e ≤ s + 86400 * daysOut := by
  obtain ⟨hret, hres⟩ := mainLoop_some hmain
  intro r hr
  rw [hres, resultsSpec, List.mem_filterMap] at hr
  obtain ⟨i, hi, hri⟩ := hr
  have hi : i < quotes.length := List.mem_range.mp hi
  obtain ⟨row, e, hrow, hF, rfl⟩ := resultFor_some hri
  have hsec := outSeconds_nonneg_of_returns quotes daysOut hp (by omega)
    (hret 0 (by omega))
  have hle := outSeconds_le daysOut h0
  rcases FindEndDate_cases_nonneg quotes i daysOut hp hi hsec with
    ⟨j, hij, hj, _, hbelow, q, hq, hF2⟩ | ⟨_, hF2⟩
  · rw [hF2] at hF
    have hqe : q = e := by injection hF
    subst hqe
    refine ⟨dateOf quotes i, dateOf quotes (j - 1), unix_of_getElem? hp hrow,
      unix_of_getElem? hp hq, ?_, ?_⟩
    · exact dateOf_le_of_ascending hs (by omega) (by omega)
    · have := hbelow (j - 1) (by omega) (by omega)
      omega
  · rw [hF2] at hF
    exact absurd hF (hitEnd_ne_ret e)

/-- C15 at the scenario of the specification, 30 days out: the one Result runs
from `2020-01-01` to `2020-01-15`. -/
theorem C15_witness :
    Parseable scenario ∧ Ascending scenario ∧ (0 : Int) ≤ 30 ∧
    mainLoop scenario 30 = some scenarioResults ∧
    ∀ r ∈ scenarioResults, ∃ s e : Int,
      (timeParse r.Start).map Time.Unix = some s ∧
      (timeParse r.End).map Time.Unix = some e ∧
      s ≤ e ∧ e ≤ s + 86400 * 30 :=
  ⟨by decide, by decide, by decide, mainLoop_scenario,
   C15_result_dates scenario 30 scenarioResults (by decide) (by decide) (by decide)
    mainLoop_scenario⟩

/-- C16 (as amended). For a quote sequence with parseable dates, a valid start
index `i` and every `daysOut`, the loop of `FindEndDate` ends after at most
`len(quotes) - i + 1` iterations and the statement after the loop is never
reached. It ends by one of its two returns (a quote or the error
"Hit end of index") whenever `i ≥ 1` or the wrapped duration is non-negative, in
particular for `0 ≤ daysOut ≤ 106751`; for `i = 0` and a negative wrapped
duration it ends in its first iteration by the out-of-range access
`quotes[index-1]`. -/
theorem C16_loop_terminates (quotes : List Quote) (i : Nat) (daysOut : Int)
    (hp : Parseable quotes) (hi : i < quotes.length) :
    (FindEndDateRun quotes i daysOut).out = FindEndDate quotes i daysOut ∧
    (FindEndDateRun quotes i daysOut).iters ≤ quotes.length - i + 1 ∧
    FindEndDate quotes i daysOut ≠ Outcome.outOfFuel ∧
    ((1 ≤ i ∨ 0 ≤ outDuration daysOut) →
      (FindEndDate quotes i daysOut = hitEnd ∨
        ∃ q, FindEndDate quotes i daysOut = Outcome.ret q none)) ∧
    ((0 ≤ daysOut ∧ Hour * 24 * daysOut < 2 ^ 63) → 0 ≤ outDuration daysOut) ∧
    ((i = 0 ∧ outDuration daysOut < 0) →
      FindEndDate quotes i daysOut = Outcome.panicked Failure.indexOutOfRange ∧
      (FindEndDateRun quotes i daysOut).iters = 1) := by
  refine ⟨FindEndDateRun_out quotes i daysOut, ?_, FindEndDate_ne_outOfFuel quotes i daysOut,
    ?_, ?_, ?_⟩
  · rcases FindEndDateRun_cases quotes i daysOut hp hi with ⟨j, h1, h2, _, _, hF⟩ | ⟨_, hF⟩
    · rw [hF]
      show j - i + 1 ≤ quotes.length - i + 1
      omega
    · rw [hF]
  · intro hor
    rcases le_or_lt 0 (outDuration daysOut / 1000000000) with hs | hs
    · rcases (FindEndDateRun_nonneg quotes i daysOut hp hi hs).2 with
        ⟨j, _, _, _, _, _, _, q, _, hF⟩ | ⟨_, _, hF⟩
      · exact Or.inr ⟨q, hF⟩
      · exact Or.inl hF
    · have hneg : ¬ 0 ≤ outDuration daysOut := by
        rw [← outSeconds_nonneg_iff]
        omega
      have hi1 : 1 ≤ i := by
        rcases hor with h | h
        · exact h
        · exact absurd h hneg
      have hrun := FindEndDate_neg quotes i daysOut hp hi hs
      have hcast : (i : Int) - 1 = ((i - 1 : Nat) : Int) := by omega
      have hx : i - 1 < quotes.length := by omega
      have hidx : index? quotes ((i : Int) - 1) = some quotes[i - 1] := by
        rw [hcast, index?_natCast, List.getElem?_eq_getElem hx]
      right
      refine ⟨quotes[i - 1], ?_⟩
      rw [← FindEndDateRun_out, hrun]
      simp only [hidx]
  · rintro ⟨h0, hov⟩
    rw [outDuration_eq daysOut h0 hov]
    omega
  · rintro ⟨rfl, hneg⟩
    have hs : outDuration daysOut / 1000000000 < 0 := by omega
    have hrun := FindEndDate_neg quotes 0 daysOut hp hi hs
    constructor
    · rw [← FindEndDateRun_out, hrun]
      simp [index?]
    · rw [hrun]

/-- C16 (as amended) at the scenario of the specification, index 0, 30 days
out: three iterations, within the bound of four. -/
theorem C16_witness :
    Parseable scenario ∧ 0 < scenario.length ∧
    (FindEndDateRun scenario (0 : Nat) 30).iters = 3 ∧
    (FindEndDateRun scenario (0 : Nat) 30).iters ≤ scenario.length - 0 + 1 ∧
    FindEndDate scenario (0 : Nat) 30 ≠ Outcome.outOfFuel :=
  ⟨by decide, by decide, by decide,
   (C16_loop_terminates scenario 0 30 (by decide) (by decide)).2.1,
   (C16_loop_terminates scenario 0 30 (by decide) (by decide)).2.2.1⟩

/-- C16 as stated fails for a negative duration at index 0: with
`daysOut = -1` (and likewise with the overflowing `daysOut = 106752`) the first
test of the loop succeeds and `quotes[index-1]` is `quotes[-1]`, so the loop
ends by a run-time failure, not by one of its two returns. -/
theorem C16_counterexample :
    Parseable twoDays ∧ 0 < twoDays.length ∧
    FindEndDate twoDays (0 : Nat) (-1) = Outcome.panicked Failure.indexOutOfRange ∧
    FindEndDate twoDays (0 : Nat) (-1) ≠ hitEnd ∧
    (∀ q, FindEndDate twoDays (0 : Nat) (-1) ≠ Outcome.ret q none) ∧
    FindEndDate twoDays (0 : Nat) 106752 = Outcome.panicked Failure.indexOutOfRange := by
  have h : FindEndDate twoDays (0 : Nat) (-1) = Outcome.panicked Failure.indexOutOfRange := by
    decide
  refine ⟨by decide, by decide, h, by decide, ?_, by decide⟩
  intro q
  rw [h]
  simp

/-- C17 (as amended). For a quote sequence with parseable dates, a valid start
index `i` and a `daysOut ≥ 0` whose duration does not overflow `int64`
(`daysOut ≤ 106751`), no slice access of `FindEndDate` is out of bounds: every
index read lies in `i ≤ index < len`, no run-time failure occurs, and when a
quote is returned it is `quotes[k]` for the last index read `k = index - 1`,
with `i ≤ k ≤ len - 2`. -/
theorem C17_accesses_in_bounds (quotes : List Quote) (i : Nat) (daysOut : Int)
    (hp : Parseable quotes) (hi : i < quotes.length)
    (h0 : 0 ≤ daysOut) (hov : Hour * 24 * daysOut < 2 ^ 63) :
    (FindEndDateRun quotes i daysOut).out = FindEndDate quotes i daysOut ∧
    (∀ x ∈ (FindEndDateRun quotes i daysOut).reads, (i : Int) ≤ x ∧ x < quotes.length) ∧
    (∀ why, FindEndDate quotes i daysOut ≠ Outcome.panicked why) ∧
    (∀ q, FindEndDate quotes i daysOut = Outcome.ret q none →
      ∃ k : Nat, (FindEndDateRun quotes i daysOut).reads.getLast? = some (k : Int) ∧
        i ≤ k ∧ k + 2 ≤ quotes.length ∧ quotes[k]? = some q) := by
  have hs : 0 ≤ outDuration daysOut / 1000000000 := by
    rw [outSeconds_eq daysOut h0 hov]
    omega
  obtain ⟨hreads, hcases⟩ := FindEndDateRun_nonneg quotes i daysOut hp hi hs
  refine ⟨FindEndDateRun_out quotes i daysOut, hreads, ?_, ?_⟩
  · intro why
    rcases hcases with ⟨j, _, _, _, _, _, _, q, _, hF⟩ | ⟨_, _, hF⟩
    · rw [hF]; simp
    · rw [hF]; simp [hitEnd]
  · intro q hq
    rcases hcases with ⟨j, hij, hj, _, _, hlast, _, q1, hq1, hF⟩ | ⟨_, _, hF⟩
    · rw [hF] at hq
      have hqq : q1 = q := by injection hq
      subst hqq
      exact ⟨j - 1, hlast, by omega, by omega, hq1⟩
    · rw [hF] at hq
      exact absurd hq (hitEnd_ne_ret q)

/-- C17 (as amended) at the scenario of the specification, index 0, 30 days
out: the indices read are 0, 0, 1, 2 and 1, and the quote returned is
`quotes[1]`. -/
theorem C17_witness :
    Parseable scenario ∧ 0 < scenario.length ∧ (0 : Int) ≤ 30 ∧ Hour * 24 * 30 < 2 ^ 63 ∧
    (FindEndDateRun scenario (0 : Nat) 30).reads = [0, 0, 1, 2, 1] ∧
    (∀ x ∈ (FindEndDateRun scenario (0 : Nat) 30).reads,
      ((0 : Nat) : Int) ≤ x ∧ x < scenario.length) :=
  ⟨by decide, by decide, by decide, by decide, by decide,
   (C17_accesses_in_bounds scenario 0 30 (by decide) (by decide) (by decide)
    (by decide)).2.1⟩

/-- C17 as stated fails once the duration overflows: with `daysOut = 106752` the
call at index 0 of two quotes reads `quotes[-1]`, and the call at index 1
returns `quotes[0]`, a position before the start index. -/
theorem C17_counterexample :
    Parseable twoDays ∧ 0 < twoDays.length ∧ (0 : Int) ≤ 106752 ∧
    FindEndDate twoDays (0 : Nat) 106752 = Outcome.panicked Failure.indexOutOfRange ∧
    (FindEndDateRun twoDays (0 : Nat) 106752).reads = [0, 0, -1] ∧
    FindEndDate twoDays (1 : Nat) 106752 = Outcome.ret (quoteOn "2020-01-01" 100) none ∧
    (FindEndDateRun twoDays (1 : Nat) 106752).reads = [1, 1, 0] := by
  decide

/-- C18 (as amended). For a quote sequence with parseable dates sorted
ascending by date and a `daysOut ≥ 0` whose duration does not overflow `int64`
(`daysOut ≤ 106751`), the start indices at which `FindEndDate` succeeds form a
prefix: success at `i` gives success at every `i2 < i`. Hence there is a
`k ≤ len(quotes) - 1` (with `k < len(quotes)` for a non-empty sequence) such that
`FindEndDate` succeeds exactly at the indices below `k`, and the result list of
`main` has `k` entries, the Results of the start indices `0 .. k-1`. -/
theorem C18_success_downward_closed (quotes : List Quote) (daysOut : Int)
    (hp : Parseable quotes) (hs : Ascending quotes)
    (h0 : 0 ≤ daysOut) (hov : Hour * 24 * daysOut < 2 ^ 63) :
    (∀ i i2, i2 < i → i < quotes.length →
      (FindEndDate quotes i daysOut).succeeds = true →
      (FindEndDate quotes i2 daysOut).succeeds = true) ∧
    ∃ k, k ≤ quotes.length - 1 ∧ (quotes ≠ [] → k < quotes.length) ∧
      (∀ i, i < quotes.length →
        ((FindEndDate quotes i daysOut).succeeds = true ↔ i < k)) ∧
      ∃ results, mainLoop quotes daysOut = some results ∧ results.length = k ∧
        results = (List.range k).filterMap (resultFor quotes daysOut) := by
  have hprefix : ∀ i i2, i2 ≤ i → i < quotes.length →
      (FindEndDate quotes i daysOut).succeeds = true →
      (FindEndDate quotes i2 daysOut).succeeds = true := by
    intro i i2 hlt hi hsucc
    rw [succeeds_iff quotes i daysOut hp hi h0 hov] at hsucc
    obtain ⟨j, hij, hj, hcross⟩ := hsucc
    rw [succeeds_iff quotes i2 daysOut hp (by omega) h0 hov]
    have := dateOf_le_of_ascending hs hlt hi
    exact ⟨j, by omega, hj, by omega⟩
  have hlast : ∀ i, i + 1 = quotes.length →
      ¬ (FindEndDate quotes i daysOut).succeeds = true := by
    intro i hi hsucc
    rw [succeeds_iff quotes i daysOut hp (by omega) h0 hov] at hsucc
    obtain ⟨j, hij, hj, _⟩ := hsucc
    omega
  refine ⟨fun i i2 h => hprefix i i2 (Nat.le_of_lt h), ?_⟩
  classical
  have hex : ∃ n, quotes.length ≤ n ∨ ¬ (FindEndDate quotes n daysOut).succeeds = true :=
    ⟨quotes.length, Or.inl (le_refl _)⟩
  have hk := Nat.find_spec hex
  have hmin := fun n => @Nat.find_min _ _ hex n
  have hklen : Nat.find hex ≤ quotes.length := Nat.find_min' hex (Or.inl (le_refl _))
  have hkne : quotes ≠ [] → Nat.find hex < quotes.length := by
    intro hne
    have hpos : 0 < quotes.length := List.length_pos.mpr hne
    have := Nat.find_min' hex (Or.inr (hlast (quotes.length - 1) (by omega)))
    omega
  have hiff : ∀ i, i < quotes.length →
      ((FindEndDate quotes i daysOut).succeeds = true ↔ i < Nat.find hex) := by
    intro i hi
    constructor
    · intro hsucc
      by_contra hcon
      have hki : Nat.find hex ≤ i := by omega
      have hsk := hprefix i (Nat.find hex) hki hi hsucc
      rcases hk with h | h
      · omega
      · exact h hsk
    · intro hlt
      by_contra hcon
      exact hmin i hlt (Or.inr hcon)
  refine ⟨Nat.find hex, ?_, hkne, hiff, ?_⟩
  · by_cases hne : quotes = []
    · subst hne
      simp
    · have := hkne hne
      omega
  · have hall : (List.range quotes.length).all
        (fun i => (FindEndDate quotes i daysOut).returns) = true := by
      rw [List.all_eq_true]
      intro i hi
      exact returns_of_bounds quotes i daysOut hp (List.mem_range.mp hi) h0 hov
    have hsplit : List.range quotes.length
        = List.range (Nat.find hex)
          ++ List.range' (Nat.find hex) (quotes.length - Nat.find hex) := by
      have happ := List.range'_append_1 0 (Nat.find hex) (quotes.length - Nat.find hex)
      rw [Nat.zero_add] at happ
      rw [List.range_eq_range', List.range_eq_range', happ]
      congr 1
      omega
    have htail : (List.range' (Nat.find hex) (quotes.length - Nat.find hex)).filterMap
        (resultFor quotes daysOut) = [] := by
      apply filterMap_nil_of_isNone
      intro i hi
      rw [List.mem_range'_1] at hi
      have hi2 : i < quotes.length := by omega
      have hns : ¬ (resultFor quotes daysOut i).isSome = true := by
        rw [resultFor_isSome_iff quotes daysOut i hi2, hiff i hi2]
        omega
      cases hr : resultFor quotes daysOut i with
      | none => rfl
      | some r => rw [hr] at hns; simp at hns
    have hspec : resultsSpec quotes daysOut
        = (List.range (Nat.find hex)).filterMap (resultFor quotes daysOut) := by
      unfold resultsSpec
      rw [hsplit, List.filterMap_append, htail, List.append_nil]
    refine ⟨_, ?_, ?_, rfl⟩
    · rw [mainLoop_eq, if_pos hall, hspec]
    · rw [filterMap_length_of_isSome, List.length_range]
      intro i hi
      have hi1 : i < Nat.find hex := List.mem_range.mp hi
      have hi2 : i < quotes.length := by omega
      rw [resultFor_isSome_iff quotes daysOut i hi2, hiff i hi2]
      exact hi1

/-- C18 (as amended) at the scenario of the specification, 30 days out: the
call succeeds at index 0 only. -/
theorem C18_witness :
    Parseable scenario ∧ Ascending scenario ∧ (0 : Int) ≤ 30 ∧ Hour * 24 * 30 < 2 ^ 63 ∧
    (FindEndDate scenario (0 : Nat) 30).succeeds = true ∧
    (FindEndDate scenario (1 : Nat) 30).succeeds = false ∧
    ∀ i i2, i2 < i → i < scenario.length →
      (FindEndDate scenario i 30).succeeds = true →
      (FindEndDate scenario i2 30).succeeds = true :=
  ⟨by decide, by decide, by decide, by decide, by decide, by decide,
   (C18_success_downward_closed scenario 30 (by decide) (by decide) (by decide) (by decide)).1⟩

/-- C18 as stated fails once the duration overflows: with `daysOut = 106752` the
call on two quotes succeeds at index 1 (it returns `quotes[0]`) but not at
index 0, where it reads `quotes[-1]`; the loop of `main` produces no list. -/
theorem C18_counterexample :
    Parseable twoDays ∧ Ascending twoDays ∧ (0 : Int) ≤ 106752 ∧
    (0 : Nat) < 1 ∧ 1 < twoDays.length ∧
    (FindEndDate twoDays (1 : Nat) 106752).succeeds = true ∧
    (FindEndDate twoDays (0 : Nat) 106752).succeeds = false ∧
    mainLoop twoDays 106752 = none := by
  refine ⟨by decide, by decide, by decide, by decide, by decide, by decide, by decide, ?_⟩
  decide

/-- C19 (as amended). For a non-empty result list of at most `2^53` entries
and a threshold `percentAway ≥ 0`, no Result is counted by both statistics, so
the two counts sum to at most `len(results)`; the two statistics are numbers of
`[0, 100]` and their sum is at most `100 * (1 + 2^-51)`: the rounding of the
two quotients and products can lift it just above 100. -/
theorem C19_disjoint (results : List Result) (percentAway : F64) (hne : results ≠ [])
    (hlen : results.length ≤ 2 ^ 53)
    (hp : F64.le (F64.fin 0) percentAway = true) :
    (∀ r ∈ results,
      ¬ (F64.gt (PercentChange r.Open r.Close) percentAway = true ∧
         F64.lt (PercentChange r.Open r.Close) (F64.mul percentAway (F64.fin (-1))) = true)) ∧
    results.countP (fun r => F64.gt (PercentChange r.Open r.Close) percentAway)
      + results.countP (fun r =>
          F64.lt (PercentChange r.Open r.Close) (F64.mul percentAway (F64.fin (-1))))
      ≤ results.length ∧
    ∃ u d : ℚ, PercentUpStat results percentAway = F64.fin u ∧
      PercentDownStat results percentAway = F64.fin d ∧
      0 ≤ u ∧ u ≤ 100 ∧ 0 ≤ d ∧ d ≤ 100 ∧ u + d ≤ 100 * (1 + (2 : ℚ) ^ (-51 : ℤ)) := by
  have hdis : ∀ r ∈ results,
      ¬ (F64.gt (PercentChange r.Open r.Close) percentAway = true ∧
         F64.lt (PercentChange r.Open r.Close) (F64.mul percentAway (F64.fin (-1))) = true) := by
    intro r _ h
    have := not_lt_neg_of_gt _ _ hp h.1
    rw [this] at h
    exact absurd h.2 (by simp)
  have hsum := countP_le_and _ _ results hdis
  have hn : results.length ≠ 0 := by simpa using hne
  obtain ⟨u, hu, _, hu0, hu1, hub, _⟩ := stat_summary
    (results.countP (fun r => F64.gt (PercentChange r.Open r.Close) percentAway))
    results.length (List.countP_le_length _) hn hlen
  obtain ⟨d, hd, _, hd0, hd1, hdb, _⟩ := stat_summary
    (results.countP (fun r =>
      F64.lt (PercentChange r.Open r.Close) (F64.mul percentAway (F64.fin (-1)))))
    results.length (List.countP_le_length _) hn hlen
  refine ⟨hdis, hsum, u, d, ?_, ?_, hu0, hu1, hd0, hd1, ?_⟩
  · rw [PercentUpStat_eq results percentAway]
    exact hu
  · rw [PercentDownStat_eq results percentAway]
    exact hd
  · have hn0 : (0 : ℚ) < results.length := by exact_mod_cast Nat.pos_of_ne_zero hn
    have hq : ((results.countP
        (fun r => F64.gt (PercentChange r.Open r.Close) percentAway) : ℕ) : ℚ)
        + ((results.countP (fun r => F64.lt (PercentChange r.Open r.Close)
          (F64.mul percentAway (F64.fin (-1)))) : ℕ) : ℚ) ≤ results.length := by
      exact_mod_cast hsum
    have h1 := (abs_le.mp hub).2
    have h2 := (abs_le.mp hdb).2
    have h3 : 100 * ((results.countP
        (fun r => F64.gt (PercentChange r.Open r.Close) percentAway) : ℕ) : ℚ)
          / (results.length : ℚ)
        + 100 * ((results.countP (fun r => F64.lt (PercentChange r.Open r.Close)
          (F64.mul percentAway (F64.fin (-1)))) : ℕ) : ℚ) / (results.length : ℚ) ≤ 100 := by
      rw [← add_div, div_le_iff₀ hn0]
      nlinarith
    exact sum_le_of_rel u d _ _ h1 h2 h3

/-- C19 (as amended) on three windows (+6 %, -5 %, flat) with the threshold
4.5. -/
theorem C19_witness :
    sampleResults ≠ [] ∧ sampleResults.length ≤ 2 ^ 53 ∧
    F64.le (F64.fin 0) (F64.fin (9 / 2)) = true ∧
    sampleResults.countP (fun r => F64.gt (PercentChange r.Open r.Close) (F64.fin (9 / 2)))
      + sampleResults.countP (fun r =>
          F64.lt (PercentChange r.Open r.Close) (F64.mul (F64.fin (9 / 2)) (F64.fin (-1))))
      ≤ sampleResults.length ∧
    ∃ u d : ℚ, PercentUpStat sampleResults (F64.fin (9 / 2)) = F64.fin u ∧
      PercentDownStat sampleResults (F64.fin (9 / 2)) = F64.fin d ∧
      0 ≤ u ∧ u ≤ 100 ∧ 0 ≤ d ∧ d ≤ 100 ∧ u + d ≤ 100 * (1 + (2 : ℚ) ^ (-51 : ℤ)) := by
  have hne : sampleResults ≠ [] := by simp [sampleResults]
  have hlen : sampleResults.length ≤ 2 ^ 53 := by simp [sampleResults]
  have hp : F64.le (F64.fin 0) (F64.fin (9 / 2)) = true := by
    simp [F64.le, F64.toQ]
    norm_num
  exact ⟨hne, hlen, hp, (C19_disjoint sampleResults (F64.fin (9 / 2)) hne hlen hp).2⟩

/-- C19 as stated fails in `float64`: of eleven windows two gain 10 % and nine
lose 5 %; with the threshold 4.5 `PercentUpStat` is
`fl(fl(2/11) * 100) = 5117726849284655 / 2^48` (printed `18.181818181818183`)
and `PercentDownStat` is `fl(fl(9/11) * 100) = 5757442705445237 / 2^46`
(printed `81.81818181818183`); their sum exceeds 100. -/
theorem C19_counterexample :
    elevenResults ≠ [] ∧ F64.le (F64.fin 0) (F64.fin (9 / 2)) = true ∧
    PercentUpStat elevenResults (F64.fin (9 / 2))
      = F64.fin (5117726849284655 / 281474976710656) ∧
    PercentDownStat elevenResults (F64.fin (9 / 2))
      = F64.fin (5757442705445237 / 70368744177664) ∧
    (100 : ℚ) < 5117726849284655 / 281474976710656 + 5757442705445237 / 70368744177664 ∧
    ¬ ∃ u d : ℚ, PercentUpStat elevenResults (F64.fin (9 / 2)) = F64.fin u ∧
      PercentDownStat elevenResults (F64.fin (9 / 2)) = F64.fin d ∧ u + d ≤ 100 := by
  have hu : PercentUpStat elevenResults (F64.fin (9 / 2))
      = F64.fin (5117726849284655 / 281474976710656) := by
    rw [PercentUpStat_eq, eleven_up_count]
    exact stat_2_11
  have hd : PercentDownStat elevenResults (F64.fin (9 / 2))
      = F64.fin (5757442705445237 / 70368744177664) := by
    rw [PercentDownStat_eq, eleven_down_count]
    exact stat_9_11
  have hp : F64.le (F64.fin 0) (F64.fin (9 / 2)) = true := by
    simp [F64.le, F64.toQ]
    norm_num
  refine ⟨by simp [elevenResults], hp, hu, hd, by norm_num, ?_⟩
  rintro ⟨u, d, h1, h2, h3⟩
  rw [hu] at h1
  rw [hd] at h2
  injection h1 with h1
  injection h2 with h2
  rw [← h1, ← h2] at h3
  norm_num at h3

/-- C20 (as amended). For a quote sequence with parseable dates sorted
ascending by date, a valid start index `i` and `0 ≤ N ≤ N2` with `N2 ≤ 106751`
(the duration of `N2` days does not overflow `int64`): if
`FindEndDate quotes i N2` succeeds then `FindEndDate quotes i N` succeeds too,
and the position `k` of the quote returned for `N` (the last index read) is at
most the position `k2` of the quote returned for `N2`; and a failure for `N`
implies a failure for `N2`. -/
theorem C20_monotone_in_daysOut (quotes : List Quote) (i : Nat) (N N2 : Int)
    (hp : Parseable quotes) (_hs : Ascending quotes) (hi : i < quotes.length)
    (h0 : 0 ≤ N) (hle : N ≤ N2) (hov : Hour * 24 * N2 < 2 ^ 63) :
    (∀ q2, FindEndDate quotes i N2 = Outcome.ret q2 none →
      ∃ (k k2 : Nat) (q : Quote), FindEndDate quotes i N = Outcome.ret q none ∧
        (FindEndDateRun quotes i N).reads.getLast? = some (k : Int) ∧
        (FindEndDateRun quotes i N2).reads.getLast? = some (k2 : Int) ∧
        quotes[k]? = some q ∧ quotes[k2]? = some q2 ∧ k ≤ k2) ∧
    (FindEndDate quotes i N = hitEnd → FindEndDate quotes i N2 = hitEnd) := by
  have hovN : Hour * 24 * N < 2 ^ 63 := by
    unfold Hour at hov ⊢
    omega
  have hsN := outSeconds_eq N h0 hovN
  have hsN2 := outSeconds_eq N2 (by omega) hov
  have hc := (FindEndDateRun_nonneg quotes i N hp hi (by omega)).2
  have hc2 := (FindEndDateRun_nonneg quotes i N2 hp hi (by omega)).2
  rw [hsN] at hc
  rw [hsN2] at hc2
  constructor
  · intro q2 hq2
    rcases hc2 with ⟨j2, hij2, hj2, hcross2, hbelow2, hlast2, _, q2a, hq2a, hF2⟩ | ⟨_, _, hF2⟩
    · rw [hF2] at hq2
      have hqq : q2a = q2 := by injection hq2
      subst hqq
      rcases hc with ⟨j, hij, hj, hcross, hbelow, hlast, _, q, hq, hF⟩ | ⟨hall, _, _⟩
      · refine ⟨j - 1, j2 - 1, q, hF, hlast, hlast2, hq, hq2a, ?_⟩
        by_contra hcon
        have := hbelow j2 (by omega) (by omega)
        omega
      · have := hall j2 (by omega) hj2
        omega
    · rw [hF2] at hq2
      exact absurd hq2 (hitEnd_ne_ret q2)
  · intro hN
    rcases hc2 with ⟨j2, hij2, hj2, hcross2, _, _, _, _, _, _⟩ | ⟨_, _, hF2⟩
    · rcases hc with ⟨_, _, _, _, _, _, _, q, _, hF⟩ | ⟨hall, _, _⟩
      · rw [hF] at hN
        exact absurd hN.symm (hitEnd_ne_ret q)
      · have := hall j2 (by omega) hj2
        omega
    · exact hF2

/-- C20 (as amended) at the scenario of the specification, index 0: with 10
days out the call returns `quotes[0]`, with 30 days out `quotes[1]`. -/
theorem C20_witness :
    Parseable scenario ∧ Ascending scenario ∧ 0 < scenario.length ∧
    (0 : Int) ≤ 10 ∧ (10 : Int) ≤ 30 ∧ Hour * 24 * 30 < 2 ^ 63 ∧
    FindEndDate scenario (0 : Nat) 30 = Outcome.ret (quoteOn "2020-01-15" 100) none ∧
    ∃ (k k2 : Nat) (q : Quote), FindEndDate scenario (0 : Nat) 10 = Outcome.ret q none ∧
      (FindEndDateRun scenario (0 : Nat) 10).reads.getLast? = some (k : Int) ∧
      (FindEndDateRun scenario (0 : Nat) 30).reads.getLast? = some (k2 : Int) ∧
      scenario[k]? = some q ∧ scenario[k2]? = some (quoteOn "2020-01-15" 100) ∧ k ≤ k2 :=
  ⟨by decide, by decide, by decide, by decide, by decide, by decide, by decide,
   (C20_monotone_in_daysOut scenario 0 10 30 (by decide) (by decide) (by decide) (by decide)
    (by decide) (by decide)).1 (quoteOn "2020-01-15" 100) (by decide)⟩

/-- C20 as stated fails once the duration of `N2` overflows: with `N = 0` and
`N2 = 106752` the call at the last index of two quotes succeeds for `N2` (it
returns `quotes[0]`) and fails for `N`. -/
theorem C20_counterexample :
    Parseable twoDays ∧ Ascending twoDays ∧ 1 < twoDays.length ∧
    (0 : Int) ≤ 0 ∧ (0 : Int) ≤ 106752 ∧
    FindEndDate twoDays (1 : Nat) 106752 = Outcome.ret (quoteOn "2020-01-01" 100) none ∧
    FindEndDate twoDays (1 : Nat) 0 = hitEnd := by
  decide

end StockStats
